import Mathlib

/-!
Verification of the go-data generic value container: the canonical value
model, the deep-merge engine, dot-path querying and deletion, the patch
engine, and the tagged JSON text codec.  Each definition is a shallow
embedding of the corresponding Go function (file and line references are
given in the doc comments); theorems settle the specification claims
C1..C10 against these definitions.

Modelling conventions, used throughout:

* Go's `map[string]interface{}` (`RawData`) is represented as an
  association list `List (String × GoVal)` whose keys are assumed
  distinct.  Go map iteration order is unspecified; the model fixes the
  list order (the claims that depend on iteration order quantify over
  permutations explicitly).
* A Go `interface{}` holding `nil` is `GoVal.null`.  An invalid
  `reflect.Value` is `Option.none` at the places where the source
  manipulates possibly-invalid values.
* A run-time panic of the Go code is modelled by `Option.none` in the
  result type of the function that panics.
* `float64` values are represented exactly as `m * 2^e` by the integer
  pair `F64` (normalized: `m` odd, or `m = 0 ∧ e = 0`); the IEEE-754
  conversions performed by `strconv` are modelled by exact integer
  rounding arithmetic on these pairs.
* Deep cloning (`github.com/huandu/go-clone`) is the identity on the
  pure value trees of this section; the heap section at the end of the
  file models cloning and sharing explicitly for the aliasing claims.
-/

set_option maxRecDepth 8000

namespace GoData

/-- Ty is the subset of `reflect.Type` values that can tag data stored in a
`RawData` tree (src/types.go lines 8-20): the scalar types, `RawData`
itself (`tobject`), `interface\x7b\x7d` (`tiface`), and slice types built
from them. -/
inductive Ty where
  | tbool
  | tint64
  | tuint64
  | tfloat64
  | tcomplex
  | tstr
  | tobject
  | tiface
  | tslice (t : Ty)
deriving DecidableEq

/-- F64 is an exactly-represented `float64`: the value `m * 2^e`.  A value
is normalized when `m` is odd or `m = 0 ∧ e = 0`; every constructor in
this file produces normalized values.  `±Inf` is encoded by the designated
out-of-range pair `m = ±1, e = 5000` (no finite double reaches that
magnitude); NaN never arises in this code base. -/
structure F64 where
  m : Int
  e : Int
deriving DecidableEq

/-- GoVal is one value stored in a `Data` tree: the canonical shapes that
the construction paths of the package produce (src/data.go, src/types.go).
`vmap` is a nested `RawData`; `vslice` carries the Go slice's element type
tag, which the merge engine compares (src/unnamed/part_003 line 71). -/
inductive GoVal where
  | null
  | vbool (b : Bool)
  | vint (n : Int)
  | vuint (n : Nat)
  | vfloat (f : F64)
  | vcomplex (re im : F64)
  | vstr (s : String)
  | vmap (m : List (String × GoVal))
  | vslice (ty : Ty) (xs : List GoVal)

/-- RawData models `map[string]interface\x7b\x7d` (src/data.go line 41) as
an association list with distinct keys. -/
abbrev RawData := List (String × GoVal)

/-- DataM models the `Data` struct (src/data.go lines 31-33): its single
field is a `RawData` that may be the nil map (`none`). -/
abbrev DataM := Option RawData

mutual

/-- Boolean structural equality of `GoVal` (Go `reflect.DeepEqual` on
canonical trees). -/
def beqV : GoVal → GoVal → Bool
  | GoVal.null, GoVal.null => true
  | GoVal.vbool a, GoVal.vbool b => a = b
  | GoVal.vint a, GoVal.vint b => a = b
  | GoVal.vuint a, GoVal.vuint b => a = b
  | GoVal.vfloat a, GoVal.vfloat b => a = b
  | GoVal.vcomplex a b, GoVal.vcomplex c d => a = c ∧ b = d
  | GoVal.vstr a, GoVal.vstr b => a = b
  | GoVal.vmap a, GoVal.vmap b => beqM a b
  | GoVal.vslice t a, GoVal.vslice u b => t = u ∧ beqL a b
  | _, _ => false

/-- Boolean structural equality of `RawData` entry lists. -/
def beqM : RawData → RawData → Bool
  | [], [] => true
  | (k, v) :: r, (k2, v2) :: r2 => k = k2 ∧ beqV v v2 ∧ beqM r r2
  | _, _ => false

/-- Boolean structural equality of `GoVal` lists. -/
def beqL : List GoVal → List GoVal → Bool
  | [], [] => true
  | v :: r, v2 :: r2 => beqV v v2 ∧ beqL r r2
  | _, _ => false

end

mutual

/-- beqV decides equality of values. -/
theorem beqV_iff : ∀ a b : GoVal, beqV a b = true ↔ a = b
  | GoVal.vmap m, GoVal.vmap m2 => by simp [beqV, beqM_iff m m2]
  | GoVal.vslice t a, GoVal.vslice u b => by
    rcases eq_or_ne t u with h | h
    · subst h
      simp [beqV, beqL_iff a b]
    · simp [beqV, h]
  | GoVal.vmap m, GoVal.null | GoVal.vmap m, GoVal.vbool _ | GoVal.vmap m, GoVal.vint _
  | GoVal.vmap m, GoVal.vuint _ | GoVal.vmap m, GoVal.vfloat _
  | GoVal.vmap m, GoVal.vcomplex _ _ | GoVal.vmap m, GoVal.vstr _
  | GoVal.vmap m, GoVal.vslice _ _ => by simp [beqV]
  | GoVal.vslice t a, GoVal.null | GoVal.vslice t a, GoVal.vbool _
  | GoVal.vslice t a, GoVal.vint _ | GoVal.vslice t a, GoVal.vuint _
  | GoVal.vslice t a, GoVal.vfloat _ | GoVal.vslice t a, GoVal.vcomplex _ _
  | GoVal.vslice t a, GoVal.vstr _ | GoVal.vslice t a, GoVal.vmap _ => by simp [beqV]
  | GoVal.null, b => by cases b <;> simp [beqV]
  | GoVal.vbool x, b => by cases b <;> simp [beqV]
  | GoVal.vint x, b => by cases b <;> simp [beqV]
  | GoVal.vuint x, b => by cases b <;> simp [beqV]
  | GoVal.vfloat x, b => by cases b <;> simp [beqV]
  | GoVal.vcomplex x y, b => by cases b <;> simp [beqV]
  | GoVal.vstr x, b => by cases b <;> simp [beqV]

/-- beqM decides equality of entry lists. -/
theorem beqM_iff : ∀ a b : RawData, beqM a b = true ↔ a = b
  | [], [] => by simp [beqM]
  | [], _ :: _ => by simp [beqM]
  | _ :: _, [] => by simp [beqM]
  | (k, v) :: r, (k2, v2) :: r2 => by
    simp only [beqM, Bool.and_eq_true, decide_eq_true_eq, beqV_iff v v2, beqM_iff r r2,
      List.cons.injEq, Prod.mk.injEq]
    tauto

/-- beqL decides equality of value lists. -/
theorem beqL_iff : ∀ a b : List GoVal, beqL a b = true ↔ a = b
  | [], [] => by simp [beqL]
  | [], _ :: _ => by simp [beqL]
  | _ :: _, [] => by simp [beqL]
  | v :: r, v2 :: r2 => by
    simp [beqL, beqV_iff v v2, beqL_iff r r2]

end

instance : DecidableEq GoVal := fun a b => decidable_of_iff _ (beqV_iff a b)

/-- lookupK models Go map lookup `m[k]` returning an invalid value
(`none`) for an absent key. -/
def lookupK (m : RawData) (k : String) : Option GoVal :=
  match m with
  | [] => none
  | (k2, v) :: rest => if k2 = k then some v else lookupK rest k

/-- setK models Go map assignment `m[k] = v` (an existing key keeps its
place, a fresh key is appended; Go maps are unordered, the list order is
just the model's representative). -/
def setK (m : RawData) (k : String) (v : GoVal) : RawData :=
  match m with
  | [] => [(k, v)]
  | (k2, v2) :: rest => if k2 = k then (k2, v) :: rest else (k2, v2) :: setK rest k v

/-- delK models Go `delete(m, k)` (`SetMapIndex` with an invalid value). -/
def delK (m : RawData) (k : String) : RawData :=
  match m with
  | [] => []
  | (k2, v2) :: rest => if k2 = k then rest else (k2, v2) :: delK rest k

/-- goTypeOf is `reflect.Value.Type()` restricted to canonical values:
`none` for the nil interface, whose dynamic type does not exist. -/
def goTypeOf : GoVal → Option Ty
  | GoVal.null => none
  | GoVal.vbool _ => some Ty.tbool
  | GoVal.vint _ => some Ty.tint64
  | GoVal.vuint _ => some Ty.tuint64
  | GoVal.vfloat _ => some Ty.tfloat64
  | GoVal.vcomplex _ _ => some Ty.tcomplex
  | GoVal.vstr _ => some Ty.tstr
  | GoVal.vmap _ => some Ty.tobject
  | GoVal.vslice t _ => some (Ty.tslice t)

mutual

/-- mergeValue models `mergeValue` (src/unnamed/part_003 lines 59-97).
The first argument is `target` (`none` = invalid `reflect.Value`), the
second the incoming value `v`.  The outer `Option` is panic: when the
existing entry is a nil interface, the source unwraps it to an invalid
value and then calls `target.Type()`, which panics.  The deep clone taken
in the replacement case (line 96) is the identity on pure trees. -/
def mergeValue : Option GoVal → GoVal → Option (Option GoVal)
  | target, GoVal.null => some target
  | some GoVal.null, _ => none
  | some t, v =>
    if goTypeOf t = goTypeOf v then
      match t, v with
      | GoVal.vmap tm, GoVal.vmap vm =>
        match mergeEntries tm vm with
        | none => none
        | some m2 => some (some (GoVal.vmap m2))
      | GoVal.vslice ty txs, GoVal.vslice _ vxs =>
        some (some (GoVal.vslice ty (txs ++ vxs)))
      | _, _ => some (some v)
    else some (some v)
  | none, v => some (some v)

/-- mergeEntries models the per-key loop shared by `merge` (src/unnamed/
part_003 lines 42-48) and the map branch of `mergeValue` (lines 78-86):
for each incoming entry, merge onto the existing entry and write the
result back with `SetMapIndex` (which deletes the key when the merged
value is invalid). -/
def mergeEntries : RawData → RawData → Option RawData
  | tm, [] => some tm
  | tm, (k, x) :: rest =>
    match mergeValue (lookupK tm k) x with
    | none => none
    | some none => mergeEntries (delK tm k) rest
    | some (some merged) => mergeEntries (setK tm k merged) rest

end

/-- mergeInto models `merge(target, data, remaining...)` (src/unnamed/
part_003 lines 41-55): fold the input maps into the accumulator from left
to right. -/
def mergeInto : RawData → List RawData → Option RawData
  | tm, [] => some tm
  | tm, d :: rest =>
    match mergeEntries tm d with
    | none => none
    | some tm2 => mergeInto tm2 rest

/-- dataRaw reads the `data` field: iterating a nil Go map visits no
entries, so the nil map behaves as the empty list wherever it is ranged
over. -/
def dataRaw (d : DataM) : RawData := d.getD []

/-- MergeM models `Merge` (src/unnamed/part_003 lines 17-27): no inputs
give the shared empty `Data` (nil map); otherwise the inputs are folded
into a fresh empty accumulator, which is then the result's (non-nil)
map. -/
def MergeM (datas : List DataM) : Option DataM :=
  match datas with
  | [] => some none
  | _ =>
    match mergeInto [] (datas.map dataRaw) with
    | none => none
    | some tm => some (some tm)

/-- CloneM models `Data.Clone` (src/data.go lines 561-563), which is
`Merge(d)`. -/
def CloneM (d : DataM) : Option DataM := MergeM [d]

/-! ## Path resolution (src/data.go: `Query`, `Get`, `get`, `Delete`, `delete`)

The resolver is modelled on the canonical value space: string-keyed maps
and slices.  The source additionally traverses host maps with numeric key
types (src/data.go lines 330-404); such containers are not canonical
values and none of the claims quantify over them, so that branch has no
counterpart here. -/

/-- splitDotChars is `strings.Split(query, ".")` on the character list. -/
def splitDotChars : List Char → List Char → List String
  | [], cur => [String.mk cur.reverse]
  | c :: rest, cur =>
    if c = '.' then String.mk cur.reverse :: splitDotChars rest []
    else splitDotChars rest (c :: cur)

/-- splitDot is `strings.Split(query, ".")`: the dot-separated fields of a
query (the empty query gives one empty field). -/
def splitDot (q : String) : List String := splitDotChars q.data []

/-- digitVal is the value of a decimal digit character, `none` otherwise. -/
def digitVal (c : Char) : Option Nat :=
  if '0' ≤ c ∧ c ≤ '9' then some (c.toNat - 48) else none

/-- parseNatDigits reads a non-empty all-digit string as a natural
number. -/
def parseNatDigits : List Char → Nat → Option Nat
  | [], acc => some acc
  | c :: rest, acc =>
    match digitVal c with
    | none => none
    | some d => parseNatDigits rest (acc * 10 + d)

/-- goParseInt models `strconv.ParseInt(s, 10, 64)`: an optional sign,
then at least one digit, and the value must fit in a signed 64-bit
integer. -/
def goParseInt (s : String) : Option Int :=
  match s.data with
  | [] => none
  | '+' :: rest =>
    match rest, parseNatDigits rest 0 with
    | _ :: _, some n => if n ≤ 2 ^ 63 - 1 then some (n : Int) else none
    | _, _ => none
  | '-' :: rest =>
    match rest, parseNatDigits rest 0 with
    | _ :: _, some n => if n ≤ 2 ^ 63 then some (-(n : Int)) else none
    | _, _ => none
  | cs =>
    match parseNatDigits cs 0 with
    | some n => if n ≤ 2 ^ 63 - 1 then some (n : Int) else none
    | none => none

/-- sliceIdx resolves a path segment against a slice of length `len`
following the slice branch of `get` (src/data.go lines 405-425): parse as
int64, reject negatives, values above `math.MaxInt32` and out-of-range
indices. -/
def sliceIdx (f : String) (len : Nat) : Option Nat :=
  match goParseInt f with
  | none => none
  | some n =>
    if n < 0 ∨ n > 2 ^ 31 - 1 then none
    else if n.toNat ≥ len then none
    else some n.toNat

/-- walkGet is the traversal loop of `get` (src/data.go lines 307-434)
without a modifier: descend one resolved segment at a time; a missing
key, an unparsable or out-of-range index, or a scalar met before the last
segment all yield "not found" (an invalid value). -/
def walkGet : GoVal → List String → Option GoVal
  | v, [] => some v
  | v, f :: rest =>
    match v with
    | GoVal.vmap m =>
      match lookupK m f with
      | none => none
      | some kv => walkGet kv rest
    | GoVal.vslice _ xs =>
      match sliceIdx f xs.length with
      | none => none
      | some i => walkGet (xs.getD i GoVal.null) rest
    | _ => none

/-- getFields models `get` (src/data.go lines 265-438) reading only: the
first segment is looked up in the root map and, unlike deeper segments,
is treated as not found when it holds a nil interface (line 280's
`val.IsNil()`). -/
def getFields (d : RawData) (fields : List String) : Option GoVal :=
  match fields with
  | [] => some (GoVal.vmap d)
  | k :: rest =>
    match lookupK d k with
    | none => none
    | some GoVal.null => none
    | some v => walkGet v rest

/-- QueryM models `Data.Query`/`RawData.Query`/`Get` (src/data.go lines
222-263) for a non-empty query: `none` exactly when Go's `Query` returns
the nil interface — the path does not resolve, or it resolves to a stored
nil.  (`Query("")` returns the root map itself and is handled at its call
sites, where the root's nil-ness matters.) -/
def QueryM (d : DataM) (q : String) : Option GoVal :=
  match getFields (dataRaw d) (splitDot q) with
  | some GoVal.null => none
  | r => r

/-- elemAddressable: whether the value read from a slice element of
element type `ty` is addressable after the modifier's interface
unwrapping (src/data.go lines 466-468): elements of an
`[]interface\x7b\x7d` are unwrapped to unaddressable values, elements of
a directly-typed slice stay addressable. -/
def elemAddressable (ty : Ty) : Bool := ty ≠ Ty.tiface

/-- applyDelModifier models the modifier closure of `delete` (src/data.go
lines 461-504) on the value it receives.  `addr` records whether that
value is addressable (values read out of maps never are; `SetLen` on an
unaddressable slice panics, modelled by `none`).  The result `some none`
is the modifier returning an invalid value (the empty target segment, or
a nil interface unwrapped to invalid). -/
def applyDelModifier (v : GoVal) (target : String) (addr : Bool) :
    Option (Option GoVal) :=
  if target = "" then some none
  else
    match v with
    | GoVal.null => some none
    | GoVal.vmap m => some (some (GoVal.vmap (delK m target)))
    | GoVal.vslice ty xs =>
      match goParseInt target with
      | none => some (some (GoVal.vslice ty xs))
      | some n =>
        let l := xs.length
        if n < 0 ∨ n ≥ (l : Int) then some (some (GoVal.vslice ty xs))
        else if n = (l : Int) - 1 then
          if addr then some (some (GoVal.vslice ty (xs.take (l - 1)))) else none
        else some (some (GoVal.vslice ty (xs.take n.toNat ++ xs.drop (n.toNat + 1))))
    | _ => some (some v)

/-- delWalk models the traversal loop of `get` (src/data.go lines
307-434) with the delete modifier applied at the last parent segment.
The write-backs the loop performs at every level (`SetMapIndex`,
`kv.Set`) become a functional rebuild; `none` is a panic
(`kv.Set(reflect.Value\x7b\x7d)` on a slice element, or `SetLen` on an
unaddressable slice inside the modifier). -/
def delWalk (v : GoVal) (fs : List String) (target : String) : Option GoVal :=
  match fs with
  | [] => some v
  | [f] =>
    match v with
    | GoVal.vmap m =>
      match lookupK m f with
      | none => some v
      | some kv =>
        match applyDelModifier kv target false with
        | none => none
        | some none => some (GoVal.vmap (delK m f))
        | some (some kv2) => some (GoVal.vmap (setK m f kv2))
    | GoVal.vslice ty xs =>
      match sliceIdx f xs.length with
      | none => some v
      | some i =>
        match applyDelModifier (xs.getD i GoVal.null) target (elemAddressable ty) with
        | none => none
        | some none => none
        | some (some kv2) => some (GoVal.vslice ty (xs.set i kv2))
    | _ => some v
  | f :: rest =>
    match v with
    | GoVal.vmap m =>
      match lookupK m f with
      | none => some v
      | some kv =>
        match delWalk kv rest target with
        | none => none
        | some kv2 => some (GoVal.vmap (setK m f kv2))
    | GoVal.vslice ty xs =>
      match sliceIdx f xs.length with
      | none => some v
      | some i =>
        match delWalk (xs.getD i GoVal.null) rest target with
        | none => none
        | some kv2 => some (GoVal.vslice ty (xs.set i kv2))
    | _ => some v

/-- deleteOne models `RawData.delete` (src/data.go lines 456-505) for one
query: split the query, take the last segment as the deletion target and
call `get` on the parent path with the delete modifier.  `none` is a
panic. -/
def deleteOne (d : DataM) (q : String) : Option DataM :=
  let fields := splitDot q
  let target := (fields.getLastD "")
  let parents := fields.dropLast
  match parents with
  | [] =>
    match d with
    | none => some none
    | some m =>
      if target = "" then some (some m)
      else some (some (delK m target))
  | k :: rest =>
    match lookupK (dataRaw d) k with
    | none => some d
    | some GoVal.null => some d
    | some v =>
      if rest.isEmpty then
        match applyDelModifier v target false with
        | none => none
        | some none => some (some (delK (dataRaw d) k))
        | some (some v2) => some (some (setK (dataRaw d) k v2))
      else
        match delWalk v rest target with
        | none => none
        | some v2 => some (some (setK (dataRaw d) k v2))

/-- DeleteM models `RawData.Delete` (src/data.go lines 442-454): an empty
query anywhere clears the whole map to nil and stops; otherwise the
queries are deleted in order.  `none` is a panic in one of the
deletions. -/
def DeleteM (d : DataM) (queries : List String) : Option DataM :=
  if queries.contains "" then some none
  else
    queries.foldl
      (fun acc q =>
        match acc with
        | none => none
        | some d2 => deleteOne d2 q)
      (some d)

/-- setWalk writes a new value at a resolved path, mirroring walkGet's
traversal: it is the functional reading of the source's in-place mutation
of the map cell that `Query` returned (src/patch.go line 115 mutates the
queried `RawData` through shared storage). -/
def setWalk (v : GoVal) (fs : List String) (newv : GoVal) : GoVal :=
  match fs with
  | [] => newv
  | f :: rest =>
    match v with
    | GoVal.vmap m =>
      match lookupK m f with
      | none => v
      | some kv => GoVal.vmap (setK m f (setWalk kv rest newv))
    | GoVal.vslice ty xs =>
      match sliceIdx f xs.length with
      | none => v
      | some i => GoVal.vslice ty (xs.set i (setWalk (xs.getD i GoVal.null) rest newv))
    | _ => v

/-- setFields writes a new value at a resolved non-empty field path of
the root map, mirroring getFields. -/
def setFields (d : RawData) (fields : List String) (newv : GoVal) : RawData :=
  match fields with
  | [] => d
  | k :: rest =>
    match lookupK d k with
    | none => d
    | some GoVal.null => d
    | some v =>
      match rest with
      | [] => setK d k newv
      | _ => setK d k (setWalk v rest newv)

/-! ## Patch engine (src/patch.go) -/

/-- PErr is the patch error taxonomy of `PatchAction.ApplyTo`
(src/patch.go lines 106 and 112): the invalid-query error and the
unsupported-merge-target error. -/
inductive PErr where
  | invalidQuery
  | unsupportedTarget
deriving DecidableEq

/-- PatchActionM models `PatchAction` (src/patch.go lines 15-18): delete
queries and an update map, the latter as an association list whose order
stands for Go's arbitrary map iteration order. -/
structure PatchActionM where
  Deletes : List String
  Updates : List (String × DataM)

/-- lexLe is byte-order (for valid UTF-8, code-point order)
less-or-equal on strings as `sort.Strings` compares them. -/
def lexLe : List Char → List Char → Bool
  | [], _ => true
  | _ :: _, [] => false
  | a :: as, b :: bs => if a = b then lexLe as bs else decide (a < b)

/-- strLe is lexLe on the underlying characters. -/
def strLe (a b : String) : Prop := lexLe a.data b.data = true

instance : DecidableRel strLe := fun a b => decEq (lexLe a.data b.data) true

/-- sortStrings models `sort.Strings` (src/patch.go line 100). -/
def sortStrings (l : List String) : List String := List.insertionSort strLe l

/-- updLookup is `action.Updates[query]` on the association-list
representation. -/
def updLookup (upds : List (String × DataM)) (q : String) : DataM :=
  match upds with
  | [] => none
  | (k, d) :: rest => if k = q then d else updLookup rest q

/-- applyUpdates is the sorted update loop of `PatchAction.ApplyTo`
(src/patch.go lines 102-116): resolve each query, fail with the
invalid-query error when `Query` returns nil, with the unsupported-target
error when the resolved value is not a `RawData`, and otherwise merge the
update's entries into the resolved map in place.  The zero-length query
resolves to the root map itself, whose nil-ness matters: merging at least
one entry into the nil root map panics (`SetMapIndex` on a nil map),
modelled by `none`. -/
def applyUpdates (d : DataM) (queries : List String)
    (upds : List (String × DataM)) : Option (DataM × Option PErr) :=
  match queries with
  | [] => some (d, none)
  | q :: rest =>
    if q = "" then
      let u := dataRaw (updLookup upds q)
      match d with
      | none =>
        match u with
        | [] => applyUpdates none rest upds
        | _ => none
      | some m =>
        match mergeEntries m u with
        | none => none
        | some m2 => applyUpdates (some m2) rest upds
    else
      match QueryM d q with
      | none => some (d, some PErr.invalidQuery)
      | some (GoVal.vmap m) =>
        let u := dataRaw (updLookup upds q)
        match mergeEntries m u with
        | none => none
        | some m2 => applyUpdates (some (setFields (dataRaw d) (splitDot q) (GoVal.vmap m2))) rest upds
      | some _ => some (d, some PErr.unsupportedTarget)

/-- applyActionTo models `PatchAction.ApplyTo` (src/patch.go lines
80-119): apply all deletes, then the updates in lexicographically
ascending query order.  `none` is a panic; otherwise the pair is the
mutated target and the error returned. -/
def applyActionTo (d : DataM) (a : PatchActionM) : Option (DataM × Option PErr) :=
  match DeleteM d a.Deletes with
  | none => none
  | some d1 =>
    match a.Updates with
    | [] => some (d1, none)
    | _ => applyUpdates d1 (sortStrings (a.Updates.map Prod.fst)) a.Updates

/-- applyPatchTo models `Patch.ApplyTo` (src/patch.go lines 65-77): apply
the actions in order, stopping at the first error; the target keeps the
mutations made so far. -/
def applyPatchTo (d : DataM) (actions : List PatchActionM) :
    Option (DataM × Option PErr) :=
  match actions with
  | [] => some (d, none)
  | a :: rest =>
    match applyActionTo d a with
    | none => none
    | some (d2, some e) => some (d2, some e)
    | some (d2, none) => applyPatchTo d2 rest

/-- ApplyM models `Patch.Apply` (src/patch.go lines 51-60): clone the
input, apply the patch to the clone, and return the applied clone only on
success. -/
def ApplyM (d : DataM) (actions : List PatchActionM) :
    Option (Option DataM × Option PErr) :=
  match CloneM d with
  | none => none
  | some c =>
    match applyPatchTo c actions with
    | none => none
    | some (_, some e) => some (none, some e)
    | some (c2, none) => some (some c2, none)

/-- isScalar: the value is neither a mapping nor a sequence nor nil. -/
def isScalar : GoVal → Bool
  | GoVal.null => false
  | GoVal.vmap _ => false
  | GoVal.vslice _ _ => false
  | _ => true

/-! ## Association-list lemmas -/

/-- Writing back the value a key already holds changes nothing. -/
theorem setK_self : ∀ {m : RawData} {k : String} {v : GoVal},
    lookupK m k = some v → setK m k v = m := by
  intro m
  induction m with
  | nil => intro k v h; simp [lookupK] at h
  | cons e rest ih =>
    intro k v h
    obtain ⟨k2, v2⟩ := e
    by_cases hk : k2 = k
    · subst hk
      simp [lookupK] at h
      simp [setK, h]
    · simp [lookupK, hk] at h
      simp [setK, hk, ih h]

/-- Deleting an absent key changes nothing. -/
theorem delK_absent : ∀ {m : RawData} {k : String},
    lookupK m k = none → delK m k = m := by
  intro m
  induction m with
  | nil => intro k _; simp [delK]
  | cons e rest ih =>
    intro k h
    obtain ⟨k2, v2⟩ := e
    by_cases hk : k2 = k
    · subst hk; simp [lookupK] at h
    · simp [lookupK, hk] at h
      simp [delK, hk, ih h]

/-- Lookup after setK finds the written value. -/
theorem lookupK_setK : ∀ (m : RawData) (k : String) (v : GoVal),
    lookupK (setK m k v) k = some v := by
  intro m
  induction m with
  | nil => intro k v; simp [setK, lookupK]
  | cons e rest ih =>
    intro k v
    obtain ⟨k2, v2⟩ := e
    by_cases hk : k2 = k
    · subst hk; simp [setK, lookupK]
    · simp [setK, lookupK, hk, ih]

/-- Two writes to the same key collapse to the last one. -/
theorem setK_setK : ∀ (m : RawData) (k : String) (a b : GoVal),
    setK (setK m k a) k b = setK m k b := by
  intro m
  induction m with
  | nil => intro k a b; simp [setK]
  | cons e rest ih =>
    intro k a b
    obtain ⟨k2, v2⟩ := e
    by_cases hk : k2 = k
    · subst hk; simp [setK]
    · simp [setK, hk, ih]

/-- An absent key looks up to nothing. -/
theorem lookupK_none_of_not_mem : ∀ {m : RawData} {k : String},
    k ∉ m.map Prod.fst → lookupK m k = none := by
  intro m
  induction m with
  | nil => intro k _; simp [lookupK]
  | cons e rest ih =>
    intro k hk
    obtain ⟨k2, v2⟩ := e
    rw [List.map_cons, List.mem_cons] at hk
    push_neg at hk
    have h1 : ¬ k2 = k := fun h => hk.1 (by simp [h])
    simp [lookupK, h1, ih hk.2]

/-- After deleting a key of a map with distinct keys, the key is gone. -/
theorem lookupK_delK_self : ∀ {m : RawData} {k : String},
    (m.map Prod.fst).Nodup → lookupK (delK m k) k = none := by
  intro m
  induction m with
  | nil => intro k _; simp [delK, lookupK]
  | cons e rest ih =>
    intro k hnd
    obtain ⟨k2, v2⟩ := e
    rw [List.map_cons, List.nodup_cons] at hnd
    by_cases hk : k2 = k
    · subst hk
      simp [delK]
      exact lookupK_none_of_not_mem hnd.1
    · simp [delK, hk, lookupK, hk, ih hnd.2]

/-- Deleting twice from a map with distinct keys equals deleting once. -/
theorem delK_delK : ∀ {m : RawData} {k : String},
    (m.map Prod.fst).Nodup → delK (delK m k) k = delK m k := by
  intro m k hnd
  exact delK_absent (lookupK_delK_self hnd)

/-- A null incoming value leaves the target unchanged (lines 60-61 of
src/unnamed/part_003). -/
theorem mergeValue_null : ∀ target, mergeValue target GoVal.null = some target := by
  intro target
  cases target with
  | none => rfl
  | some t => cases t <;> rfl

/-- On a type mismatch the incoming value replaces the target. -/
theorem mergeValue_mismatch : ∀ t v, t ≠ GoVal.null → v ≠ GoVal.null →
    goTypeOf t ≠ goTypeOf v → mergeValue (some t) v = some (some v) := by
  intro t v ht hv h
  cases t <;> cases v <;> simp_all [mergeValue, goTypeOf]

/-- A scalar target is always replaced by a non-null incoming value. -/
theorem mergeValue_scalar : ∀ t v, isScalar t = true → v ≠ GoVal.null →
    mergeValue (some t) v = some (some v) := by
  intro t v ht hv
  cases t <;> cases v <;> simp_all [mergeValue, isScalar]

/-- Merging a null incoming value at a key leaves the map unchanged. -/
theorem mergeEntries_null (tm : RawData) (k : String) :
    mergeEntries tm [(k, GoVal.null)] = some tm := by
  cases hv : lookupK tm k with
  | none =>
    simp [mergeEntries, hv, mergeValue_null, delK_absent hv]
  | some v =>
    simp [mergeEntries, hv, mergeValue_null, setK_self hv]

/-! ## C3: the per-key merge rules -/

/-- C3 counterexample: the claim's sequence rule reads two sequences as
"of matching element shape" when their variant tags agree **or both are
absent/empty**.  Take the accumulator `[]int64\x7b\x7d` (built by
`Make(RawData\x7b"s": []int64\x7b\x7d\x7d)`) and the incoming
`[]string\x7b\x7d`: both are empty sequences, so the claim requires the
incoming elements to be appended after the accumulator's existing
elements, keeping the accumulator's sequence (element type `int64`).  The
code instead compares the Go slice types, finds them different, and
replaces the value with the incoming empty `[]string` — observable
because the two empty slices are not structurally equal (`DeepEqual`
distinguishes `[]int64\x7b\x7d` from `[]string\x7b\x7d`). -/
theorem merge_seq_shape_counterexample :
    mergeValue (some (GoVal.vslice Ty.tint64 [])) (GoVal.vslice Ty.tstr [])
      = some (some (GoVal.vslice Ty.tstr []))
    ∧ GoVal.vslice Ty.tstr [] ≠ GoVal.vslice Ty.tint64 [] := by
  constructor
  · rfl
  · decide

/-- C3 (amended): the merge rules per accumulator entry and incoming
entry, with "matching element shape" amended to "identical Go slice
element type" (two empty sequences of different element types do not
match; the incoming one replaces).  (i) two mappings merge recursively
through the per-key entry loop; (ii) two sequences of the same element
type concatenate, incoming elements after existing ones; (iii) on a type
mismatch, or when either side is a scalar, the incoming value wholly
replaces the accumulator's value; (iv) a null incoming value never
overwrites an entry, and (v) never creates or clears one. -/
theorem merge_rules_amended :
    (∀ tm vm m2, mergeEntries tm vm = some m2 →
      mergeValue (some (GoVal.vmap tm)) (GoVal.vmap vm) = some (some (GoVal.vmap m2)))
    ∧ (∀ ty txs vxs, mergeValue (some (GoVal.vslice ty txs)) (GoVal.vslice ty vxs)
        = some (some (GoVal.vslice ty (txs ++ vxs))))
    ∧ (∀ t v, t ≠ GoVal.null → v ≠ GoVal.null →
        (goTypeOf t ≠ goTypeOf v ∨ isScalar t = true ∨ isScalar v = true) →
        mergeValue (some t) v = some (some v))
    ∧ (∀ target, mergeValue target GoVal.null = some target)
    ∧ (∀ tm k, mergeEntries tm [(k, GoVal.null)] = some tm) := by
  refine ⟨?_, ?_, ?_, ?_, ?_⟩
  · intro tm vm m2 h
    simp [mergeValue, goTypeOf, h]
  · intro ty txs vxs
    simp [mergeValue, goTypeOf]
  · intro t v ht hv h
    rcases h with h | h | h
    · exact mergeValue_mismatch t v ht hv h
    · exact mergeValue_scalar t v h hv
    · by_cases hs : isScalar t = true
      · exact mergeValue_scalar t v hs hv
      · refine mergeValue_mismatch t v ht hv ?_
        cases t <;> cases v <;> simp_all [goTypeOf, isScalar]
  · exact mergeValue_null
  · exact mergeEntries_null

/-- C3 witness: rule (iii) applied at the spec's own scenario — mapping
`\x7b"a":1\x7d` merged with `\x7b"a":\x7b"x":1\x7d\x7d` replaces the
scalar by the incoming mapping. -/
theorem merge_rules_witness :
    mergeValue (some (GoVal.vint 1)) (GoVal.vmap [(("x"), GoVal.vint 1)])
      = some (some (GoVal.vmap [(("x"), GoVal.vint 1)])) := by
  exact merge_rules_amended.2.2.1 (GoVal.vint 1) (GoVal.vmap [(("x"), GoVal.vint 1)])
    (by decide) (by decide) (by decide)

/-! ## C5: the patch error taxonomy -/

/-- sortStrings of a single query is that query. -/
theorem sortStrings_single (q : String) : sortStrings [q] = [q] := rfl

/-- C5: patch-application errors arise exactly as claimed.  For an action
whose updates are a single entry at a non-empty query: (i) when, after
the deletes, the query does not resolve to an existing value, the action
fails with the invalid-query error; (ii) when it resolves to a value that
is not a mapping (a scalar or a sequence), the action fails with the
unsupported-merge-target error; and (iii) an action with no updates — a
pure delete action — never returns an error. -/
theorem patch_error_taxonomy :
    (∀ (d : DataM) (ds : List String) (q : String) (u : DataM) (d1 : DataM),
      q ≠ "" → DeleteM d ds = some d1 → QueryM d1 q = none →
      applyActionTo d (PatchActionM.mk ds [(q, u)])
        = some (d1, some PErr.invalidQuery))
    ∧ (∀ (d : DataM) (ds : List String) (q : String) (u : DataM) (d1 : DataM) (v : GoVal),
      q ≠ "" → DeleteM d ds = some d1 → QueryM d1 q = some v →
      (∀ m, v ≠ GoVal.vmap m) →
      applyActionTo d (PatchActionM.mk ds [(q, u)])
        = some (d1, some PErr.unsupportedTarget))
    ∧ (∀ (d : DataM) (ds : List String) (d2 : DataM) (e : Option PErr),
      applyActionTo d (PatchActionM.mk ds []) = some (d2, e) → e = none) := by
  refine ⟨?_, ?_, ?_⟩
  · intro d ds q u d1 hq hdel hquery
    simp [applyActionTo, hdel, sortStrings_single, applyUpdates, hq, hquery]
  · intro d ds q u d1 v hq hdel hquery hnm
    cases v <;> simp_all [applyActionTo, hdel, sortStrings_single, applyUpdates, hq, hquery]
  · intro d ds d2 e h
    simp [applyActionTo] at h
    cases hdel : DeleteM d ds <;> simp [hdel] at h
    exact h.2.symm

/-- C5 witness: the spec scenario — a patch update at path "foo" against
`\x7b"arr":[1,2,3]\x7d` (no "foo" key) fails with the invalid-query
error, a patch update at "foo" against `\x7b"foo":123\x7d` fails with the
unsupported-merge-target error, and a delete-only action returns no
error. -/
theorem patch_error_taxonomy_witness :
    applyActionTo (some [(("arr"), GoVal.vslice Ty.tint64 [GoVal.vint 1, GoVal.vint 2, GoVal.vint 3])])
      (PatchActionM.mk [] [(("foo"), some [(("bar"), GoVal.vint 1)])])
      = some (some [(("arr"), GoVal.vslice Ty.tint64 [GoVal.vint 1, GoVal.vint 2, GoVal.vint 3])],
          some PErr.invalidQuery)
    ∧ applyActionTo (some [(("foo"), GoVal.vint 123)])
      (PatchActionM.mk [] [(("foo"), some [(("bar"), GoVal.vint 1)])])
      = some (some [(("foo"), GoVal.vint 123)], some PErr.unsupportedTarget)
    ∧ (applyActionTo (some [(("a"), GoVal.vint 1)]) (PatchActionM.mk [("a")] [])
        = some (some [], none)) := by
  refine ⟨?_, ?_, by decide⟩
  · exact patch_error_taxonomy.1
      (some [(("arr"), GoVal.vslice Ty.tint64 [GoVal.vint 1, GoVal.vint 2, GoVal.vint 3])])
      [] ("foo") (some [(("bar"), GoVal.vint 1)])
      (some [(("arr"), GoVal.vslice Ty.tint64 [GoVal.vint 1, GoVal.vint 2, GoVal.vint 3])])
      (by decide) (by decide) (by decide)
  · exact patch_error_taxonomy.2.1
      (some [(("foo"), GoVal.vint 123)])
      [] ("foo") (some [(("bar"), GoVal.vint 1)])
      (some [(("foo"), GoVal.vint 123)]) (GoVal.vint 123)
      (by decide) (by decide) (by decide) (fun m h => GoVal.noConfusion h)

/-! ## C7: delete idempotence -/

/-- A resolved slice index is in range. -/
theorem sliceIdx_lt {f : String} {len : Nat} {i : Nat} :
    sliceIdx f len = some i → i < len := by
  unfold sliceIdx
  intro h
  rcases hp : goParseInt f with _ | n <;> rw [hp] at h
  · exact absurd h (by simp)
  · simp at h
    omega

/-- Reading an element just written. -/
theorem getD_set_self : ∀ (xs : List GoVal) (i : Nat) (a d : GoVal), i < xs.length →
    (xs.set i a)[i]?.getD d = a := by
  intro xs
  induction xs with
  | nil => intro i a d h; simp at h
  | cons x rest ih =>
    intro i a d h
    cases i with
    | zero => simp [List.set]
    | succ j =>
      simp [List.set]
      exact ih j a d (by simpa using h)

/-- Writing an element back to its own place. -/
theorem set_getD_self : ∀ (xs : List GoVal) (i : Nat) (d : GoVal), i < xs.length →
    xs.set i (xs[i]?.getD d) = xs := by
  intro xs
  induction xs with
  | nil => intro i d h; simp at h
  | cons x rest ih =>
    intro i d h
    cases i with
    | zero => simp [List.set]
    | succ j =>
      simp [List.set]
      exact ih j d (by simpa using h)

/-- Reading back along a written path yields the written value. -/
theorem walkGet_setWalk : ∀ (fs : List String) (v w newv : GoVal),
    walkGet v fs = some w → walkGet (setWalk v fs newv) fs = some newv := by
  intro fs
  induction fs with
  | nil =>
    intro v w newv h
    simp [walkGet, setWalk]
  | cons f rest ih =>
    intro v w newv h
    cases v with
    | vmap m =>
      cases hkv : lookupK m f with
      | none => simp [walkGet, hkv] at h
      | some kv =>
        simp [walkGet, hkv] at h
        simp [setWalk, hkv, walkGet, lookupK_setK]
        exact ih kv w newv h
    | vslice ty xs =>
      cases hi : sliceIdx f xs.length with
      | none => simp [walkGet, hi] at h
      | some i =>
        simp [walkGet, hi] at h
        have hlt := sliceIdx_lt hi
        simp [setWalk, hi, walkGet, List.length_set, getD_set_self _ _ _ _ hlt]
        exact ih _ w newv h
    | null => simp [walkGet] at h
    | vbool b => simp [walkGet] at h
    | vint n => simp [walkGet] at h
    | vuint n => simp [walkGet] at h
    | vfloat x => simp [walkGet] at h
    | vcomplex x y => simp [walkGet] at h
    | vstr s => simp [walkGet] at h

/-- Two writes along the same resolved path collapse to the second. -/
theorem setWalk_setWalk : ∀ (fs : List String) (v w a b : GoVal),
    walkGet v fs = some w → setWalk (setWalk v fs a) fs b = setWalk v fs b := by
  intro fs
  induction fs with
  | nil => intro v w a b _; simp [setWalk]
  | cons f rest ih =>
    intro v w a b h
    cases v with
    | vmap m =>
      cases hkv : lookupK m f with
      | none => simp [walkGet, hkv] at h
      | some kv =>
        simp [walkGet, hkv] at h
        simp [setWalk, hkv, lookupK_setK, setK_setK, ih kv w a b h]
    | vslice ty xs =>
      cases hi : sliceIdx f xs.length with
      | none => simp [walkGet, hi] at h
      | some i =>
        simp [walkGet, hi] at h
        have hlt := sliceIdx_lt hi
        simp [setWalk, hi, List.length_set, getD_set_self _ _ _ _ hlt, List.set_set,
          ih _ w a b h]
    | null => simp [walkGet] at h
    | vbool b2 => simp [walkGet] at h
    | vint n => simp [walkGet] at h
    | vuint n => simp [walkGet] at h
    | vfloat x => simp [walkGet] at h
    | vcomplex x y => simp [walkGet] at h
    | vstr s => simp [walkGet] at h

/-- Writing back the value found along a path changes nothing. -/
theorem setWalk_self : ∀ (fs : List String) (v w : GoVal),
    walkGet v fs = some w → setWalk v fs w = v := by
  intro fs
  induction fs with
  | nil =>
    intro v w h
    simp [walkGet] at h
    simp [setWalk, h]
  | cons f rest ih =>
    intro v w h
    cases v with
    | vmap m =>
      cases hkv : lookupK m f with
      | none => simp [walkGet, hkv] at h
      | some kv =>
        simp [walkGet, hkv] at h
        simp [setWalk, hkv, ih kv w h, setK_self hkv]
    | vslice ty xs =>
      cases hi : sliceIdx f xs.length with
      | none => simp [walkGet, hi] at h
      | some i =>
        simp [walkGet, hi] at h
        have hlt := sliceIdx_lt hi
        simp [setWalk, hi, ih _ w h, set_getD_self _ _ _ hlt]
    | null => simp [walkGet] at h
    | vbool b => simp [walkGet] at h
    | vint n => simp [walkGet] at h
    | vuint n => simp [walkGet] at h
    | vfloat x => simp [walkGet] at h
    | vcomplex x y => simp [walkGet] at h
    | vstr s => simp [walkGet] at h

/-- One traversal step of walkGet through a map entry. -/
theorem walkGet_cons_map {m : RawData} {f : String} {kv : GoVal} (rest : List String)
    (hkv : lookupK m f = some kv) :
    walkGet (GoVal.vmap m) (f :: rest) = walkGet kv rest := by
  simp [walkGet, hkv]

/-- One traversal step of walkGet through a slice element. -/
theorem walkGet_cons_slice {ty : Ty} {xs : List GoVal} {f : String} {i : Nat}
    (rest : List String) (hi : sliceIdx f xs.length = some i) :
    walkGet (GoVal.vslice ty xs) (f :: rest) = walkGet (xs.getD i GoVal.null) rest := by
  simp [walkGet, hi]

/-- One traversal step of delWalk through a map entry (with at least one
segment left below). -/
theorem delWalk_cons_map {m : RawData} {f : String} {kv : GoVal} (r1 : String)
    (rs : List String) (target : String) (hkv : lookupK m f = some kv) :
    delWalk (GoVal.vmap m) (f :: r1 :: rs) target
      = match delWalk kv (r1 :: rs) target with
        | none => none
        | some kv2 => some (GoVal.vmap (setK m f kv2)) := by
  simp [delWalk, hkv]

/-- One traversal step of delWalk through a slice element (with at least
one segment left below). -/
theorem delWalk_cons_slice {ty : Ty} {xs : List GoVal} {f : String} {i : Nat}
    (r1 : String) (rs : List String) (target : String)
    (hi : sliceIdx f xs.length = some i) :
    delWalk (GoVal.vslice ty xs) (f :: r1 :: rs) target
      = match delWalk (xs.getD i GoVal.null) (r1 :: rs) target with
        | none => none
        | some kv2 => some (GoVal.vslice ty (xs.set i kv2)) := by
  simp [delWalk, hi]

/-- When the parent path resolves to a mapping and the final segment is a
non-empty key, the delete walk performs exactly a keyed removal at that
mapping. -/
theorem delWalk_map : ∀ (fs : List String) (v : GoVal) (m : RawData) (target : String),
    fs ≠ [] → target ≠ "" → walkGet v fs = some (GoVal.vmap m) →
    delWalk v fs target = some (setWalk v fs (GoVal.vmap (delK m target))) := by
  intro fs
  induction fs with
  | nil => intro v m target h; exact absurd rfl h
  | cons f rest ih =>
    intro v m target _ htgt h
    cases rest with
    | nil =>
      cases v with
      | vmap m1 =>
        cases hkv : lookupK m1 f with
        | none => simp [walkGet, hkv] at h
        | some kv =>
          simp [walkGet, hkv] at h
          subst h
          simp [delWalk, hkv, applyDelModifier, htgt, setWalk]
      | vslice ty xs =>
        cases hi : sliceIdx f xs.length with
        | none => simp [walkGet, hi] at h
        | some i =>
          simp [walkGet, hi] at h
          simp [delWalk, hi, h, applyDelModifier, htgt, setWalk]
      | null => simp [walkGet] at h
      | vbool b => simp [walkGet] at h
      | vint n => simp [walkGet] at h
      | vuint n => simp [walkGet] at h
      | vfloat x => simp [walkGet] at h
      | vcomplex x y => simp [walkGet] at h
      | vstr s => simp [walkGet] at h
    | cons r1 rs =>
      cases v with
      | vmap m1 =>
        cases hkv : lookupK m1 f with
        | none => simp [walkGet, hkv] at h
        | some kv =>
          rw [walkGet_cons_map (r1 :: rs) hkv] at h
          rw [delWalk_cons_map r1 rs target hkv,
            ih kv m target (by simp) htgt h]
          simp [setWalk, hkv]
      | vslice ty xs =>
        cases hi : sliceIdx f xs.length with
        | none => simp [walkGet, hi] at h
        | some i =>
          rw [walkGet_cons_slice (r1 :: rs) hi] at h
          rw [delWalk_cons_slice r1 rs target hi,
            ih _ m target (by simp) htgt h]
          simp [setWalk, hi]
      | null => simp [walkGet] at h
      | vbool b => simp [walkGet] at h
      | vint n => simp [walkGet] at h
      | vuint n => simp [walkGet] at h
      | vfloat x => simp [walkGet] at h
      | vcomplex x y => simp [walkGet] at h
      | vstr s => simp [walkGet] at h

/-- When the parent path does not resolve, the delete walk leaves the
value unchanged (the traversal exits early and every write-back along the
way rewrote the value it had just read). -/
theorem delWalk_noresolve : ∀ (fs : List String) (v : GoVal) (target : String),
    walkGet v fs = none → delWalk v fs target = some v := by
  intro fs
  induction fs with
  | nil => intro v target h; simp [walkGet] at h
  | cons f rest ih =>
    intro v target h
    cases rest with
    | nil =>
      cases v with
      | vmap m =>
        cases hkv : lookupK m f with
        | none => simp [delWalk, hkv]
        | some kv => simp [walkGet, hkv] at h
      | vslice ty xs =>
        cases hi : sliceIdx f xs.length with
        | none => simp [delWalk, hi]
        | some i => simp [walkGet, hi] at h
      | null => simp [delWalk]
      | vbool b => simp [delWalk]
      | vint n => simp [delWalk]
      | vuint n => simp [delWalk]
      | vfloat x => simp [delWalk]
      | vcomplex x y => simp [delWalk]
      | vstr s => simp [delWalk]
    | cons r1 rs =>
      cases v with
      | vmap m =>
        cases hkv : lookupK m f with
        | none => simp [delWalk, hkv]
        | some kv =>
          rw [walkGet_cons_map (r1 :: rs) hkv] at h
          rw [delWalk_cons_map r1 rs target hkv, ih kv target h]
          simp [setK_self hkv]
      | vslice ty xs =>
        cases hi : sliceIdx f xs.length with
        | none => simp [delWalk, hi]
        | some i =>
          rw [walkGet_cons_slice (r1 :: rs) hi] at h
          have hlt := sliceIdx_lt hi
          rw [delWalk_cons_slice r1 rs target hi, ih _ target h]
          simp [List.getD, set_getD_self _ _ _ hlt]
      | null => simp [delWalk]
      | vbool b => simp [delWalk]
      | vint n => simp [delWalk]
      | vuint n => simp [delWalk]
      | vfloat x => simp [delWalk]
      | vcomplex x y => simp [delWalk]
      | vstr s => simp [delWalk]

/-- A written-to container is never the nil interface. -/
theorem setWalk_cons_ne_null {v w : GoVal} {f : String} {fs : List String} (x : GoVal)
    (h : walkGet v (f :: fs) = some w) : setWalk v (f :: fs) x ≠ GoVal.null := by
  cases v with
  | vmap m =>
    cases hkv : lookupK m f with
    | none => simp [setWalk, hkv]
    | some kv => simp [setWalk, hkv]
  | vslice ty xs =>
    cases hi : sliceIdx f xs.length with
    | none => simp [setWalk, hi]
    | some i => simp [setWalk, hi]
  | null => simp [walkGet] at h
  | vbool b => simp [walkGet] at h
  | vint n => simp [walkGet] at h
  | vuint n => simp [walkGet] at h
  | vfloat x2 => simp [walkGet] at h
  | vcomplex x2 y2 => simp [walkGet] at h
  | vstr s => simp [walkGet] at h

/-- C7 counterexample: deleting a sequence index twice does not produce
the same result as deleting it once.  On `\x7b"arr": [1,2,3,4]\x7d`
(built by `Make(RawData\x7b"arr": []int64\x7b1,2,3,4\x7d\x7d)`) the query
"arr.1" removes index 1 and shifts the later elements down, so deleting
it once yields [1,3,4] and a second deletion removes the shifted element
3, yielding [1,4]. -/
theorem delete_idempotence_counterexample :
    DeleteM (some [(("arr"), GoVal.vslice Ty.tint64
        [GoVal.vint 1, GoVal.vint 2, GoVal.vint 3, GoVal.vint 4])]) [("arr.1")]
      = some (some [(("arr"), GoVal.vslice Ty.tint64
        [GoVal.vint 1, GoVal.vint 3, GoVal.vint 4])])
    ∧ DeleteM (some [(("arr"), GoVal.vslice Ty.tint64
        [GoVal.vint 1, GoVal.vint 2, GoVal.vint 3, GoVal.vint 4])]) [("arr.1"), ("arr.1")]
      = some (some [(("arr"), GoVal.vslice Ty.tint64
        [GoVal.vint 1, GoVal.vint 4])])
    ∧ (some [(("arr"), GoVal.vslice Ty.tint64
        [GoVal.vint 1, GoVal.vint 4])] : DataM)
      ≠ some [(("arr"), GoVal.vslice Ty.tint64
        [GoVal.vint 1, GoVal.vint 3, GoVal.vint 4])] := by
  refine ⟨by decide, by decide, by decide⟩

/-- Reading the map of a non-nil Data. -/
theorem dataRaw_some (m : RawData) : dataRaw (some m) = m := rfl

/-- deleteOne helper: idempotence when the parent path resolves to a
mapping with distinct keys and the final segment is a non-empty key. -/
theorem deleteOne_map_idem (d : DataM) (q : String) (parents : List String)
    (target : String) (m : RawData)
    (hsp : (splitDot q).dropLast = parents)
    (hst : (splitDot q).getLastD "" = target)
    (htgt : target ≠ "")
    (hview : getFields (dataRaw d) parents = some (GoVal.vmap m))
    (hnd : (m.map Prod.fst).Nodup) :
    ∃ d', deleteOne d q = some d' ∧ deleteOne d' q = some d' := by
  unfold deleteOne
  simp only [hsp, hst]
  cases parents with
  | nil =>
    cases d with
    | none => exact ⟨none, rfl, rfl⟩
    | some m0 =>
      have hm : m0 = m := by simpa [getFields, dataRaw] using hview
      have hnd0 : (m0.map Prod.fst).Nodup := by rw [hm]; exact hnd
      refine ⟨some (delK m0 target), by simp [htgt], ?_⟩
      simp [htgt, dataRaw, delK_delK hnd0]
  | cons k rest =>
    simp only [getFields] at hview
    cases hkv : lookupK (dataRaw d) k with
    | none => rw [hkv] at hview; simp at hview
    | some v0 =>
      rw [hkv] at hview
      cases v0 with
      | null => simp at hview
      | vbool b => cases rest <;> simp [walkGet] at hview
      | vint n => cases rest <;> simp [walkGet] at hview
      | vuint n => cases rest <;> simp [walkGet] at hview
      | vfloat x => cases rest <;> simp [walkGet] at hview
      | vcomplex x y => cases rest <;> simp [walkGet] at hview
      | vstr s => cases rest <;> simp [walkGet] at hview
      | vmap m1 =>
        cases rest with
        | nil =>
          have hm : m1 = m := by simpa [walkGet] using hview
          have hnd1 : (m1.map Prod.fst).Nodup := by rw [hm]; exact hnd
          refine ⟨some (setK (dataRaw d) k (GoVal.vmap (delK m1 target))),
            by simp [hkv, applyDelModifier, htgt], ?_⟩
          simp [dataRaw, lookupK_setK, applyDelModifier, htgt,
            delK_delK hnd1, setK_setK]
        | cons r1 rs =>
          have hwalk : walkGet (GoVal.vmap m1) (r1 :: rs) = some (GoVal.vmap m) := hview
          have hdel := delWalk_map (r1 :: rs) (GoVal.vmap m1) m target (by simp) htgt hwalk
          refine ⟨some (setK (dataRaw d) k
            (setWalk (GoVal.vmap m1) (r1 :: rs) (GoVal.vmap (delK m target)))), ?_, ?_⟩
          · simp [hkv, hdel]
          · have hw2 := walkGet_setWalk (r1 :: rs) (GoVal.vmap m1) (GoVal.vmap m)
              (GoVal.vmap (delK m target)) hwalk
            have hdel2 := delWalk_map (r1 :: rs)
              (setWalk (GoVal.vmap m1) (r1 :: rs) (GoVal.vmap (delK m target)))
              (delK m target) target (by simp) htgt hw2
            rw [delK_delK hnd] at hdel2
            rw [setWalk_setWalk (r1 :: rs) (GoVal.vmap m1) (GoVal.vmap m) _ _ hwalk] at hdel2
            rcases hsw : setWalk (GoVal.vmap m1) (r1 :: rs) (GoVal.vmap (delK m target)) with
              _ | _ | _ | _ | _ | _ | _ | _ | _
            · exact absurd hsw (setWalk_cons_ne_null _ hwalk)
            all_goals
              rw [hsw] at hdel2
              simp [dataRaw, lookupK_setK, hdel2, setK_setK]
      | vslice ty xs =>
        cases rest with
        | nil => simp [walkGet] at hview
        | cons r1 rs =>
          have hwalk : walkGet (GoVal.vslice ty xs) (r1 :: rs) = some (GoVal.vmap m) := hview
          have hdel := delWalk_map (r1 :: rs) (GoVal.vslice ty xs) m target (by simp) htgt hwalk
          refine ⟨some (setK (dataRaw d) k
            (setWalk (GoVal.vslice ty xs) (r1 :: rs) (GoVal.vmap (delK m target)))), ?_, ?_⟩
          · simp [hkv, hdel]
          · have hw2 := walkGet_setWalk (r1 :: rs) (GoVal.vslice ty xs) (GoVal.vmap m)
              (GoVal.vmap (delK m target)) hwalk
            have hdel2 := delWalk_map (r1 :: rs)
              (setWalk (GoVal.vslice ty xs) (r1 :: rs) (GoVal.vmap (delK m target)))
              (delK m target) target (by simp) htgt hw2
            rw [delK_delK hnd] at hdel2
            rw [setWalk_setWalk (r1 :: rs) (GoVal.vslice ty xs) (GoVal.vmap m) _ _ hwalk] at hdel2
            rcases hsw : setWalk (GoVal.vslice ty xs) (r1 :: rs) (GoVal.vmap (delK m target)) with
              _ | _ | _ | _ | _ | _ | _ | _ | _
            · exact absurd hsw (setWalk_cons_ne_null _ hwalk)
            all_goals
              rw [hsw] at hdel2
              simp [dataRaw, lookupK_setK, hdel2, setK_setK]

/-- deleteOne helper: deleting an absent mapping key is a no-op. -/
theorem deleteOne_absent_noop (d : DataM) (q : String) (parents : List String)
    (target : String) (m : RawData)
    (hsp : (splitDot q).dropLast = parents)
    (hst : (splitDot q).getLastD "" = target)
    (htgt : target ≠ "")
    (hview : getFields (dataRaw d) parents = some (GoVal.vmap m))
    (habs : lookupK m target = none) :
    deleteOne d q = some d := by
  unfold deleteOne
  simp only [hsp, hst]
  cases parents with
  | nil =>
    cases d with
    | none => rfl
    | some m0 =>
      have hm : m0 = m := by simpa [getFields, dataRaw] using hview
      have habs0 : lookupK m0 target = none := by rw [hm]; exact habs
      simp [htgt, delK_absent habs0]
  | cons k rest =>
    simp only [getFields] at hview
    cases hkv : lookupK (dataRaw d) k with
    | none => rw [hkv] at hview; simp at hview
    | some v0 =>
      rw [hkv] at hview
      have hd : d = some (dataRaw d) := by
        cases d with
        | none => simp [dataRaw, lookupK] at hkv
        | some m2 => rfl
      cases v0 with
      | null => simp at hview
      | vbool b => cases rest <;> simp [walkGet] at hview
      | vint n => cases rest <;> simp [walkGet] at hview
      | vuint n => cases rest <;> simp [walkGet] at hview
      | vfloat x => cases rest <;> simp [walkGet] at hview
      | vcomplex x y => cases rest <;> simp [walkGet] at hview
      | vstr s => cases rest <;> simp [walkGet] at hview
      | vmap m1 =>
        cases rest with
        | nil =>
          have hm : m1 = m := by simpa [walkGet] using hview
          have habs1 : lookupK m1 target = none := by rw [hm]; exact habs
          rw [hd]
          simp [hkv, dataRaw_some, applyDelModifier, htgt, delK_absent habs1, setK_self hkv]
        | cons r1 rs =>
          have hwalk : walkGet (GoVal.vmap m1) (r1 :: rs) = some (GoVal.vmap m) := hview
          have hdel := delWalk_map (r1 :: rs) (GoVal.vmap m1) m target (by simp) htgt hwalk
          rw [delK_absent habs] at hdel
          rw [setWalk_self (r1 :: rs) (GoVal.vmap m1) (GoVal.vmap m) hwalk] at hdel
          rw [hd]
          simp [hkv, dataRaw_some, hdel, setK_self hkv]
      | vslice ty xs =>
        cases rest with
        | nil => simp [walkGet] at hview
        | cons r1 rs =>
          have hwalk : walkGet (GoVal.vslice ty xs) (r1 :: rs) = some (GoVal.vmap m) := hview
          have hdel := delWalk_map (r1 :: rs) (GoVal.vslice ty xs) m target (by simp) htgt hwalk
          rw [delK_absent habs] at hdel
          rw [setWalk_self (r1 :: rs) (GoVal.vslice ty xs) (GoVal.vmap m) hwalk] at hdel
          rw [hd]
          simp [hkv, dataRaw_some, hdel, setK_self hkv]

/-- deleteOne helper: a non-resolving parent path is a no-op. -/
theorem deleteOne_noresolve_noop (d : DataM) (q : String) (parents : List String)
    (hsp : (splitDot q).dropLast = parents)
    (hview : getFields (dataRaw d) parents = none) :
    deleteOne d q = some d := by
  unfold deleteOne
  simp only [hsp]
  cases parents with
  | nil => simp [getFields] at hview
  | cons k rest =>
    simp only [getFields] at hview
    cases hkv : lookupK (dataRaw d) k with
    | none => simp [hkv]
    | some v0 =>
      rw [hkv] at hview
      have hd : d = some (dataRaw d) := by
        cases d with
        | none => simp [dataRaw, lookupK] at hkv
        | some m2 => rfl
      cases v0 with
      | null => simp [hkv]
      | vbool b =>
        cases rest with
        | nil => simp [walkGet] at hview
        | cons r1 rs =>
          rw [hd]; simp [hkv, dataRaw_some, delWalk_noresolve _ _ _ hview, setK_self hkv]
      | vint n =>
        cases rest with
        | nil => simp [walkGet] at hview
        | cons r1 rs =>
          rw [hd]; simp [hkv, dataRaw_some, delWalk_noresolve _ _ _ hview, setK_self hkv]
      | vuint n =>
        cases rest with
        | nil => simp [walkGet] at hview
        | cons r1 rs =>
          rw [hd]; simp [hkv, dataRaw_some, delWalk_noresolve _ _ _ hview, setK_self hkv]
      | vfloat x =>
        cases rest with
        | nil => simp [walkGet] at hview
        | cons r1 rs =>
          rw [hd]; simp [hkv, dataRaw_some, delWalk_noresolve _ _ _ hview, setK_self hkv]
      | vcomplex x y =>
        cases rest with
        | nil => simp [walkGet] at hview
        | cons r1 rs =>
          rw [hd]; simp [hkv, dataRaw_some, delWalk_noresolve _ _ _ hview, setK_self hkv]
      | vstr s =>
        cases rest with
        | nil => simp [walkGet] at hview
        | cons r1 rs =>
          rw [hd]; simp [hkv, dataRaw_some, delWalk_noresolve _ _ _ hview, setK_self hkv]
      | vmap m1 =>
        cases rest with
        | nil => simp [walkGet] at hview
        | cons r1 rs =>
          rw [hd]; simp [hkv, dataRaw_some, delWalk_noresolve _ _ _ hview, setK_self hkv]
      | vslice ty xs =>
        cases rest with
        | nil => simp [walkGet] at hview
        | cons r1 rs =>
          rw [hd]; simp [hkv, dataRaw_some, delWalk_noresolve _ _ _ hview, setK_self hkv]

/-- C7 (amended): delete is idempotent over mapping keys, and a
non-resolving path is a no-op, but not over sequence indices (which
shift, see the counterexample).  Precisely: (i) when the parent path of
the query resolves to a mapping with distinct keys and the final segment
is a non-empty key, deleting twice gives the same result as deleting
once; (ii) when additionally the final key is absent from that mapping,
deleting changes nothing; and (iii) when the parent path does not resolve
at all, deleting changes nothing and is not an error. -/
theorem delete_idempotence_amended :
    (∀ (d : DataM) (q : String) (m : RawData),
      (splitDot q).getLastD "" ≠ "" →
      getFields (dataRaw d) ((splitDot q).dropLast) = some (GoVal.vmap m) →
      (m.map Prod.fst).Nodup →
      ∃ d', deleteOne d q = some d' ∧ deleteOne d' q = some d')
    ∧ (∀ (d : DataM) (q : String) (m : RawData),
      (splitDot q).getLastD "" ≠ "" →
      getFields (dataRaw d) ((splitDot q).dropLast) = some (GoVal.vmap m) →
      lookupK m ((splitDot q).getLastD "") = none →
      deleteOne d q = some d)
    ∧ (∀ (d : DataM) (q : String),
      getFields (dataRaw d) ((splitDot q).dropLast) = none →
      deleteOne d q = some d) := by
  refine ⟨?_, ?_, ?_⟩
  · intro d q m htgt hview hnd
    exact deleteOne_map_idem d q _ _ m rfl rfl htgt hview hnd
  · intro d q m htgt hview habs
    exact deleteOne_absent_noop d q _ _ m rfl rfl htgt hview habs
  · intro d q hview
    exact deleteOne_noresolve_noop d q _ rfl hview

/-- C7 witness: deleting the mapping key "m.k" of
`\x7b"m": \x7b"k": 1\x7d\x7d` twice equals deleting it once, deleting the
absent key "m.gone" is a no-op, and deleting below the unresolved path
"nope.x" is a no-op. -/
theorem delete_idempotence_witness :
    (∃ d', deleteOne (some [(("m"), GoVal.vmap [(("k"), GoVal.vint 1)])]) ("m.k") = some d'
      ∧ deleteOne d' ("m.k") = some d')
    ∧ deleteOne (some [(("m"), GoVal.vmap [(("k"), GoVal.vint 1)])]) ("m.gone")
      = some (some [(("m"), GoVal.vmap [(("k"), GoVal.vint 1)])])
    ∧ deleteOne (some [(("m"), GoVal.vmap [(("k"), GoVal.vint 1)])]) ("nope.x")
      = some (some [(("m"), GoVal.vmap [(("k"), GoVal.vint 1)])]) := by
  refine ⟨?_, ?_, ?_⟩
  · exact delete_idempotence_amended.1
      (some [(("m"), GoVal.vmap [(("k"), GoVal.vint 1)])]) ("m.k")
      [(("k"), GoVal.vint 1)] (by decide) (by decide) (by decide)
  · exact delete_idempotence_amended.2.1
      (some [(("m"), GoVal.vmap [(("k"), GoVal.vint 1)])]) ("m.gone")
      [(("k"), GoVal.vint 1)] (by decide) (by decide) (by decide)
  · exact delete_idempotence_amended.2.2
      (some [(("m"), GoVal.vmap [(("k"), GoVal.vint 1)])]) ("nope.x") (by decide)


/-! ## C4: update ordering -/

/-- lexLe is total. -/
theorem lexLe_total : ∀ as bs : List Char, lexLe as bs = true ∨ lexLe bs as = true := by
  intro as
  induction as with
  | nil => intro bs; left; simp [lexLe]
  | cons a as2 ih =>
    intro bs
    cases bs with
    | nil => right; simp [lexLe]
    | cons b bs2 =>
      by_cases hab : a = b
      · subst hab
        simp [lexLe]
        exact ih bs2
      · rcases lt_or_gt_of_ne hab with h | h
        · left
          simp [lexLe, hab]
          exact h
        · right
          have hba : ¬ b = a := fun hh => hab hh.symm
          simp [lexLe, hba]
          exact h

/-- lexLe is transitive. -/
theorem lexLe_trans : ∀ as bs cs : List Char,
    lexLe as bs = true → lexLe bs cs = true → lexLe as cs = true := by
  intro as
  induction as with
  | nil => intro bs cs _ _; simp [lexLe]
  | cons a as2 ih =>
    intro bs cs h1 h2
    cases bs with
    | nil => simp [lexLe] at h1
    | cons b bs2 =>
      cases cs with
      | nil => simp [lexLe] at h2
      | cons c cs2 =>
        by_cases hab : a = b <;> by_cases hbc : b = c
        · subst hab hbc
          simp [lexLe] at h1 h2 ⊢
          exact ih bs2 cs2 h1 h2
        · subst hab
          simp [lexLe, hbc] at h2 ⊢
          simp [h2]
        · subst hbc
          simp [lexLe, hab] at h1 ⊢
          simp [h1]
        · simp [lexLe, hab] at h1
          simp [lexLe, hbc] at h2
          have hac : a < c := lt_trans h1 h2
          have hnac : ¬ a = c := fun h => absurd (h ▸ hac) (lt_irrefl c)
          simp [lexLe, hnac]
          exact hac

/-- lexLe is antisymmetric. -/
theorem lexLe_antisymm : ∀ as bs : List Char,
    lexLe as bs = true → lexLe bs as = true → as = bs := by
  intro as
  induction as with
  | nil =>
    intro bs _ h2
    cases bs with
    | nil => rfl
    | cons b bs2 => simp [lexLe] at h2
  | cons a as2 ih =>
    intro bs h1 h2
    cases bs with
    | nil => simp [lexLe] at h1
    | cons b bs2 =>
      by_cases hab : a = b
      · subst hab
        simp [lexLe] at h1 h2
        rw [ih bs2 h1 h2]
      · simp [lexLe, hab] at h1
        have hba : ¬ b = a := fun h => hab h.symm
        simp [lexLe, hba] at h2
        exact absurd h2 (lt_asymm h1)

/-- A string precedes any of its extensions. -/
theorem lexLe_append : ∀ (as ys : List Char), lexLe as (as ++ ys) = true := by
  intro as ys
  induction as with
  | nil => simp [lexLe]
  | cons a as2 ih => simp [lexLe, ih]

/-- A proper extension never precedes its prefix. -/
theorem not_lexLe_append_cons : ∀ (as : List Char) (y : Char) (ys : List Char),
    lexLe (as ++ y :: ys) as = false := by
  intro as y ys
  induction as with
  | nil => simp [lexLe]
  | cons a as2 ih => simp [lexLe, ih]

instance : IsTotal String strLe :=
  ⟨fun a b => by
    rcases lexLe_total a.data b.data with h | h
    · exact Or.inl h
    · exact Or.inr h⟩

instance : IsTrans String strLe :=
  ⟨fun a b c h1 h2 => lexLe_trans a.data b.data c.data h1 h2⟩

/-- Strings with equal character lists are equal. -/
theorem stringDataEq {a b : String} (h : a.data = b.data) : a = b := by
  cases a
  cases b
  exact congrArg String.mk h

instance : IsAntisymm String strLe :=
  ⟨fun a b h1 h2 => stringDataEq (lexLe_antisymm a.data b.data h1 h2)⟩

/-- sortStrings output is sorted. -/
theorem sortStrings_sorted (l : List String) : (sortStrings l).Sorted strLe :=
  List.sorted_insertionSort strLe l

/-- sortStrings output is a permutation of its input. -/
theorem sortStrings_perm (l : List String) : (sortStrings l).Perm l :=
  List.perm_insertionSort strLe l

/-- Two permutations of the same queries sort identically. -/
theorem sortStrings_eq_of_perm {l1 l2 : List String} (h : l1.Perm l2) :
    sortStrings l1 = sortStrings l2 :=
  List.eq_of_perm_of_sorted
    (((sortStrings_perm l1).trans h).trans (sortStrings_perm l2).symm)
    (sortStrings_sorted l1) (sortStrings_sorted l2)

/-- In a sorted list, a strictly smaller member has a smaller index. -/
theorem sorted_indexOf_lt : ∀ (l : List String) (a b : String),
    l.Sorted strLe → a ∈ l → b ∈ l → strLe a b → ¬ strLe b a →
    l.indexOf a < l.indexOf b := by
  intro l
  induction l with
  | nil => intro a b _ ha; simp at ha
  | cons x xs ih =>
    intro a b hs ha hb hab hnba
    have hne : a ≠ b := fun h => hnba (h ▸ hab)
    rw [List.sorted_cons] at hs
    by_cases hax : a = x
    · subst hax
      have hbx : b ≠ a := fun h => hne h.symm
      have hbxs : b ∈ xs := by
        rcases List.mem_cons.mp hb with h | h
        · exact absurd h hbx
        · exact h
      rw [List.indexOf_cons_self]
      rw [List.indexOf_cons_ne _ hne]
      omega
    · by_cases hbxx : b = x
      · subst hbxx
        have haxs : a ∈ xs := by
          rcases List.mem_cons.mp ha with h | h
          · exact absurd h hax
          · exact h
        exact absurd (hs.1 a haxs) hnba
      · have haxs : a ∈ xs := by
          rcases List.mem_cons.mp ha with h | h
          · exact absurd h hax
          · exact h
        have hbxs : b ∈ xs := by
          rcases List.mem_cons.mp hb with h | h
          · exact absurd h hbxx
          · exact h
        rw [List.indexOf_cons_ne _ (fun h => hax h.symm),
          List.indexOf_cons_ne _ (fun h => hbxx h.symm)]
        have := ih a b hs.2 haxs hbxs hab hnba
        omega

/-- updLookup is invariant under key-distinct permutations. -/
theorem updLookup_perm : ∀ {u1 u2 : List (String × DataM)}, u1.Perm u2 →
    (u1.map Prod.fst).Nodup → ∀ q, updLookup u1 q = updLookup u2 q := by
  intro u1 u2 h
  induction h with
  | nil => intro _ q; rfl
  | cons x l ih =>
    intro hnd q
    obtain ⟨k, dd⟩ := x
    rw [List.map_cons, List.nodup_cons] at hnd
    simp only [updLookup]
    by_cases hk : k = q
    · simp [hk]
    · simp [hk, ih hnd.2 q]
  | swap x y l =>
    intro hnd q
    obtain ⟨k1, d1⟩ := x
    obtain ⟨k2, d2⟩ := y
    simp only [List.map_cons, List.nodup_cons, List.mem_cons] at hnd
    have hne : k2 ≠ k1 := fun h => hnd.1 (Or.inl h)
    simp only [updLookup]
    by_cases h1 : k1 = q <;> by_cases h2 : k2 = q
    · exact absurd (h2.trans h1.symm) hne
    · simp [h1, h2]
    · simp [h1, h2]
    · simp [h1, h2]
  | trans h12 h23 ih12 ih23 =>
    intro hnd q
    have hnd2 := (h12.map Prod.fst).nodup_iff.mp hnd
    rw [ih12 hnd q, ih23 hnd2 q]

/-- applyUpdates only reads the update map through updLookup. -/
theorem applyUpdates_congr : ∀ (qs : List String) (d : DataM)
    (u1 u2 : List (String × DataM)),
    (∀ q, updLookup u1 q = updLookup u2 q) →
    applyUpdates d qs u1 = applyUpdates d qs u2 := by
  intro qs
  induction qs with
  | nil => intro d u1 u2 _; rfl
  | cons q rest ih =>
    intro d u1 u2 hl
    simp only [applyUpdates, hl q]
    by_cases hq : q = ""
    · rw [if_pos hq, if_pos hq]
      cases d with
      | none =>
        dsimp only
        cases dataRaw (updLookup u2 q) with
        | nil => exact ih none u1 u2 hl
        | cons e r => rfl
      | some m =>
        dsimp only
        cases mergeEntries m (dataRaw (updLookup u2 q)) with
        | none => rfl
        | some m2 => exact ih (some m2) u1 u2 hl
    · rw [if_neg hq, if_neg hq]
      cases QueryM d q with
      | none => rfl
      | some v =>
        cases v with
        | vmap m =>
          dsimp only
          cases mergeEntries m (dataRaw (updLookup u2 q)) with
          | none => rfl
          | some m2 => exact ih _ u1 u2 hl
        | null => rfl
        | vbool b => rfl
        | vint n => rfl
        | vuint n => rfl
        | vfloat x => rfl
        | vcomplex x y => rfl
        | vstr s => rfl
        | vslice ty xs => rfl

/-- C4: within one action the update queries are applied in
lexicographically ascending order of their path strings, so (i) an update
path is sorted strictly before any of its dot-descendants — for update
paths p and p.r the sorted position of p precedes that of p.r — and (ii)
the result of applying the action does not depend on the iteration order
of the Updates map: permuting the update entries (with distinct keys, as
Go map keys are) never changes the outcome. -/
theorem patch_update_order :
    (∀ (l : List String) (p r : String), p ∈ l → (p ++ (".") ++ r) ∈ l →
      (sortStrings l).indexOf p < (sortStrings l).indexOf (p ++ (".") ++ r))
    ∧ (∀ (d : DataM) (a1 a2 : PatchActionM),
      a1.Deletes = a2.Deletes → a1.Updates.Perm a2.Updates →
      (a1.Updates.map Prod.fst).Nodup →
      applyActionTo d a1 = applyActionTo d a2) := by
  constructor
  · intro l p r hp hd
    have hdata : (p ++ (".") ++ r).data = p.data ++ '.' :: r.data := by
      simp [String.data_append]
    have hle : strLe p (p ++ (".") ++ r) := by
      unfold strLe
      rw [hdata]
      exact lexLe_append p.data ('.' :: r.data)
    have hnle : ¬ strLe (p ++ (".") ++ r) p := by
      unfold strLe
      rw [hdata]
      simp [not_lexLe_append_cons]
    exact sorted_indexOf_lt (sortStrings l) p (p ++ (".") ++ r)
      (sortStrings_sorted l)
      ((sortStrings_perm l).mem_iff.mpr hp)
      ((sortStrings_perm l).mem_iff.mpr hd)
      hle hnle
  · intro d a1 a2 hdel hperm hnd
    obtain ⟨ds1, u1⟩ := a1
    obtain ⟨ds2, u2⟩ := a2
    simp only at hdel hperm hnd
    subst hdel
    simp only [applyActionTo]
    cases DeleteM d ds1 with
    | none => rfl
    | some d1 =>
      dsimp only
      cases u1 with
      | nil =>
        have h2 : u2 = [] := List.length_eq_zero.mp hperm.length_eq.symm
        subst h2
        rfl
      | cons e1 r1 =>
        cases u2 with
        | nil => exact absurd hperm.length_eq (by simp)
        | cons e2 r2 =>
          dsimp only
          rw [sortStrings_eq_of_perm (hperm.map Prod.fst)]
          exact applyUpdates_congr _ d1 _ _ (updLookup_perm hperm hnd)

/-- C4 witness: a two-entry update map at "a" and "a.b", in either
iteration order, sorts "a" first and applies to the same result. -/
theorem patch_update_order_witness :
    (sortStrings [("a.b"), ("a")]).indexOf ("a")
      < (sortStrings [("a.b"), ("a")]).indexOf (("a" : String) ++ (".") ++ ("b"))
    ∧ applyActionTo (some [(("a"), GoVal.vmap [(("b"), GoVal.vmap [])])])
        (PatchActionM.mk []
          [(("a"), some [(("x"), GoVal.vint 1)]), (("a.b"), some [(("y"), GoVal.vint 2)])])
      = applyActionTo (some [(("a"), GoVal.vmap [(("b"), GoVal.vmap [])])])
        (PatchActionM.mk []
          [(("a.b"), some [(("y"), GoVal.vint 2)]), (("a"), some [(("x"), GoVal.vint 1)])]) := by
  constructor
  · exact patch_update_order.1 [("a.b"), ("a")] ("a") ("b") (by decide) (by decide)
  · exact patch_update_order.2 (some [(("a"), GoVal.vmap [(("b"), GoVal.vmap [])])])
      (PatchActionM.mk []
        [(("a"), some [(("x"), GoVal.vint 1)]), (("a.b"), some [(("y"), GoVal.vint 2)])])
      (PatchActionM.mk []
        [(("a.b"), some [(("y"), GoVal.vint 2)]), (("a"), some [(("x"), GoVal.vint 1)])])
      rfl (List.Perm.swap _ _ _) (by decide)

/-! ## C10: totality of patch application -/

mutual

/-- nfV: the value stores no nil interface at any depth (no `Null`
anywhere in the tree). -/
def nfV : GoVal → Bool
  | GoVal.null => false
  | GoVal.vmap m => nfM m
  | GoVal.vslice _ xs => nfL xs
  | _ => true

/-- nfM: every entry value of the map is null-free. -/
def nfM : RawData → Bool
  | [] => true
  | (_, v) :: r => nfV v && nfM r

/-- nfL: every element of the list is null-free. -/
def nfL : List GoVal → Bool
  | [] => true
  | v :: r => nfV v && nfL r

end

mutual

/-- sfV: the value stores no sequence at any depth. -/
def sfV : GoVal → Bool
  | GoVal.vmap m => sfM m
  | GoVal.vslice _ _ => false
  | _ => true

/-- sfM: every entry value of the map is sequence-free. -/
def sfM : RawData → Bool
  | [] => true
  | (_, v) :: r => sfV v && sfM r

end

/-- A value looked up in a null-free map is null-free. -/
theorem nfM_lookupK : ∀ (m : RawData) (k : String), nfM m = true →
    ∀ w, lookupK m k = some w → nfV w = true := by
  intro m
  induction m with
  | nil => intro k _ w hw; simp [lookupK] at hw
  | cons e rest ih =>
    intro k h w hw
    obtain ⟨k2, v2⟩ := e
    simp [nfM] at h
    by_cases hk : k2 = k
    · simp [lookupK, hk] at hw
      exact hw ▸ h.1
    · simp [lookupK, hk] at hw
      exact ih k h.2 w hw

/-- Deleting a key preserves null-freeness. -/
theorem nfM_delK : ∀ (m : RawData) (k : String), nfM m = true →
    nfM (delK m k) = true := by
  intro m
  induction m with
  | nil => intro k h; exact h
  | cons e rest ih =>
    intro k h
    obtain ⟨k2, v2⟩ := e
    simp [nfM] at h
    by_cases hk : k2 = k
    · simp [delK, hk, h.2]
    · simp [delK, hk, nfM, h.1, ih k h.2]

/-- Writing a null-free value preserves null-freeness. -/
theorem nfM_setK : ∀ (m : RawData) (k : String) (v : GoVal), nfM m = true →
    nfV v = true → nfM (setK m k v) = true := by
  intro m
  induction m with
  | nil => intro k v _ hv; simp [setK, nfM, hv]
  | cons e rest ih =>
    intro k v h hv
    obtain ⟨k2, v2⟩ := e
    simp [nfM] at h
    by_cases hk : k2 = k
    · simp [setK, hk, nfM, hv, h.2]
    · simp [setK, hk, nfM, h.1, ih k v h.2 hv]

/-- Concatenation preserves element null-freeness. -/
theorem nfL_append : ∀ (xs ys : List GoVal), nfL xs = true → nfL ys = true →
    nfL (xs ++ ys) = true := by
  intro xs
  induction xs with
  | nil => intro ys _ hy; simpa using hy
  | cons v rest ih =>
    intro ys hx hy
    simp [nfL] at hx ⊢
    exact ⟨hx.1, ih ys hx.2 hy⟩

/-- An in-range element of a null-free list is null-free. -/
theorem nfL_getD : ∀ (xs : List GoVal) (i : Nat), nfL xs = true → i < xs.length →
    nfV (xs.getD i GoVal.null) = true := by
  intro xs
  induction xs with
  | nil => intro i _ hi; simp at hi
  | cons v rest ih =>
    intro i h hi
    simp [nfL] at h
    cases i with
    | zero => simpa [List.getD_cons_zero] using h.1
    | succ j =>
      have := ih j h.2 (by simpa using hi)
      simpa [List.getD_cons_succ] using this

/-- Setting a null-free element preserves list null-freeness. -/
theorem nfL_set : ∀ (xs : List GoVal) (i : Nat) (w : GoVal), nfL xs = true →
    nfV w = true → nfL (xs.set i w) = true := by
  intro xs
  induction xs with
  | nil => intro i w h _; simpa using h
  | cons v rest ih =>
    intro i w h hw
    simp [nfL] at h
    cases i with
    | zero => simp [List.set_cons_zero, nfL, hw, h.2]
    | succ j => simp [List.set_cons_succ, nfL, h.1, ih j w h.2 hw]

/-- A value looked up in a sequence-free map is sequence-free. -/
theorem sfM_lookupK : ∀ (m : RawData) (k : String), sfM m = true →
    ∀ w, lookupK m k = some w → sfV w = true := by
  intro m
  induction m with
  | nil => intro k _ w hw; simp [lookupK] at hw
  | cons e rest ih =>
    intro k h w hw
    obtain ⟨k2, v2⟩ := e
    simp [sfM] at h
    by_cases hk : k2 = k
    · simp [lookupK, hk] at hw
      exact hw ▸ h.1
    · simp [lookupK, hk] at hw
      exact ih k h.2 w hw

/-- Deleting a key preserves sequence-freeness. -/
theorem sfM_delK : ∀ (m : RawData) (k : String), sfM m = true →
    sfM (delK m k) = true := by
  intro m
  induction m with
  | nil => intro k h; exact h
  | cons e rest ih =>
    intro k h
    obtain ⟨k2, v2⟩ := e
    simp [sfM] at h
    by_cases hk : k2 = k
    · simp [delK, hk, h.2]
    · simp [delK, hk, sfM, h.1, ih k h.2]

/-- Writing a sequence-free value preserves sequence-freeness. -/
theorem sfM_setK : ∀ (m : RawData) (k : String) (v : GoVal), sfM m = true →
    sfV v = true → sfM (setK m k v) = true := by
  intro m
  induction m with
  | nil => intro k v _ hv; simp [setK, sfM, hv]
  | cons e rest ih =>
    intro k v h hv
    obtain ⟨k2, v2⟩ := e
    simp [sfM] at h
    by_cases hk : k2 = k
    · simp [setK, hk, sfM, hv, h.2]
    · simp [setK, hk, sfM, h.1, ih k v h.2 hv]

mutual

/-- mergeValue never panics when the existing entry is absent or
null-free, and the merged result of null-free inputs is null-free: the
only panic in `mergeValue` is `target.Type()` on the unwrapped nil
interface. -/
theorem mergeValue_total : ∀ (v : GoVal) (t : Option GoVal),
    (∀ w, t = some w → nfV w = true) → nfV v = true →
    ∃ r, mergeValue t v = some r ∧ ∀ w2, r = some w2 → nfV w2 = true
  | GoVal.null, t => by
    intro _ hv
    exact absurd hv (by decide)
  | GoVal.vmap vm, t => by
    intro ht hv
    cases t with
    | none => exact ⟨some (GoVal.vmap vm), rfl, fun w2 hw2 => by cases hw2; exact hv⟩
    | some w =>
      have hw := ht w rfl
      cases w with
      | null => exact absurd hw (by decide)
      | vmap tm =>
        obtain ⟨m2, hm2, hn2⟩ := mergeEntries_total vm tm (by simpa [nfV] using hw)
          (by simpa [nfV] using hv)
        exact ⟨some (GoVal.vmap m2), by simp [mergeValue, goTypeOf, hm2],
          fun w2 hw2 => by cases hw2; simpa [nfV] using hn2⟩
      | vbool a => exact ⟨some (GoVal.vmap vm), rfl, fun w2 hw2 => by cases hw2; exact hv⟩
      | vint a => exact ⟨some (GoVal.vmap vm), rfl, fun w2 hw2 => by cases hw2; exact hv⟩
      | vuint a => exact ⟨some (GoVal.vmap vm), rfl, fun w2 hw2 => by cases hw2; exact hv⟩
      | vfloat a => exact ⟨some (GoVal.vmap vm), rfl, fun w2 hw2 => by cases hw2; exact hv⟩
      | vcomplex a b => exact ⟨some (GoVal.vmap vm), rfl, fun w2 hw2 => by cases hw2; exact hv⟩
      | vstr a => exact ⟨some (GoVal.vmap vm), rfl, fun w2 hw2 => by cases hw2; exact hv⟩
      | vslice ty xs => exact ⟨some (GoVal.vmap vm), rfl, fun w2 hw2 => by cases hw2; exact hv⟩
  | GoVal.vslice ty2 ys, t => by
    intro ht hv
    cases t with
    | none => exact ⟨some (GoVal.vslice ty2 ys), rfl, fun w2 hw2 => by cases hw2; exact hv⟩
    | some w =>
      have hw := ht w rfl
      cases w with
      | null => exact absurd hw (by decide)
      | vslice ty1 xs =>
        rcases eq_or_ne ty1 ty2 with h | h
        · subst h
          refine ⟨some (GoVal.vslice ty1 (xs ++ ys)), by simp [mergeValue, goTypeOf],
            fun w2 hw2 => ?_⟩
          cases hw2
          have hx : nfL xs = true := by simpa [nfV] using hw
          have hy : nfL ys = true := by simpa [nfV] using hv
          simpa [nfV] using nfL_append xs ys hx hy
        · refine ⟨some (GoVal.vslice ty2 ys), ?_, fun w2 hw2 => by cases hw2; exact hv⟩
          exact mergeValue_mismatch _ _ (by simp) (by simp) (by simp [goTypeOf, h])
      | vmap a => exact ⟨some (GoVal.vslice ty2 ys), rfl, fun w2 hw2 => by cases hw2; exact hv⟩
      | vbool a => exact ⟨some (GoVal.vslice ty2 ys), rfl, fun w2 hw2 => by cases hw2; exact hv⟩
      | vint a => exact ⟨some (GoVal.vslice ty2 ys), rfl, fun w2 hw2 => by cases hw2; exact hv⟩
      | vuint a => exact ⟨some (GoVal.vslice ty2 ys), rfl, fun w2 hw2 => by cases hw2; exact hv⟩
      | vfloat a => exact ⟨some (GoVal.vslice ty2 ys), rfl, fun w2 hw2 => by cases hw2; exact hv⟩
      | vcomplex a b => exact ⟨some (GoVal.vslice ty2 ys), rfl, fun w2 hw2 => by cases hw2; exact hv⟩
      | vstr a => exact ⟨some (GoVal.vslice ty2 ys), rfl, fun w2 hw2 => by cases hw2; exact hv⟩
  | GoVal.vbool b, t => by
    intro ht hv
    cases t with
    | none => exact ⟨some (GoVal.vbool b), rfl, fun w2 hw2 => by cases hw2; exact hv⟩
    | some w =>
      have hw := ht w rfl
      cases w <;> first
        | exact absurd hw (by decide)
        | exact ⟨some (GoVal.vbool b), rfl, fun w2 hw2 => by cases hw2; exact hv⟩
  | GoVal.vint n, t => by
    intro ht hv
    cases t with
    | none => exact ⟨some (GoVal.vint n), rfl, fun w2 hw2 => by cases hw2; exact hv⟩
    | some w =>
      have hw := ht w rfl
      cases w <;> first
        | exact absurd hw (by decide)
        | exact ⟨some (GoVal.vint n), rfl, fun w2 hw2 => by cases hw2; exact hv⟩
  | GoVal.vuint n, t => by
    intro ht hv
    cases t with
    | none => exact ⟨some (GoVal.vuint n), rfl, fun w2 hw2 => by cases hw2; exact hv⟩
    | some w =>
      have hw := ht w rfl
      cases w <;> first
        | exact absurd hw (by decide)
        | exact ⟨some (GoVal.vuint n), rfl, fun w2 hw2 => by cases hw2; exact hv⟩
  | GoVal.vfloat x, t => by
    intro ht hv
    cases t with
    | none => exact ⟨some (GoVal.vfloat x), rfl, fun w2 hw2 => by cases hw2; exact hv⟩
    | some w =>
      have hw := ht w rfl
      cases w <;> first
        | exact absurd hw (by decide)
        | exact ⟨some (GoVal.vfloat x), rfl, fun w2 hw2 => by cases hw2; exact hv⟩
  | GoVal.vcomplex x y, t => by
    intro ht hv
    cases t with
    | none => exact ⟨some (GoVal.vcomplex x y), rfl, fun w2 hw2 => by cases hw2; exact hv⟩
    | some w =>
      have hw := ht w rfl
      cases w <;> first
        | exact absurd hw (by decide)
        | exact ⟨some (GoVal.vcomplex x y), rfl, fun w2 hw2 => by cases hw2; exact hv⟩
  | GoVal.vstr s, t => by
    intro ht hv
    cases t with
    | none => exact ⟨some (GoVal.vstr s), rfl, fun w2 hw2 => by cases hw2; exact hv⟩
    | some w =>
      have hw := ht w rfl
      cases w <;> first
        | exact absurd hw (by decide)
        | exact ⟨some (GoVal.vstr s), rfl, fun w2 hw2 => by cases hw2; exact hv⟩

/-- mergeEntries never panics on null-free inputs and its result is
null-free. -/
theorem mergeEntries_total : ∀ (u : RawData) (tm : RawData),
    nfM tm = true → nfM u = true →
    ∃ m2, mergeEntries tm u = some m2 ∧ nfM m2 = true
  | [], tm => by intro h1 _; exact ⟨tm, rfl, h1⟩
  | (k, x) :: rest, tm => by
    intro h1 h2
    have hx : nfV x = true := by
      have h := h2; simp [nfM] at h; exact h.1
    have hrest : nfM rest = true := by
      have h := h2; simp [nfM] at h; exact h.2
    obtain ⟨r, hr, hnr⟩ := mergeValue_total x (lookupK tm k)
      (fun w hw => nfM_lookupK tm k h1 w hw) hx
    cases r with
    | none =>
      obtain ⟨m2, hm2, hn2⟩ := mergeEntries_total rest (delK tm k) (nfM_delK tm k h1) hrest
      exact ⟨m2, by simp [mergeEntries, hr, hm2], hn2⟩
    | some merged =>
      obtain ⟨m2, hm2, hn2⟩ := mergeEntries_total rest (setK tm k merged)
        (nfM_setK tm k merged h1 (hnr merged rfl)) hrest
      exact ⟨m2, by simp [mergeEntries, hr, hm2], hn2⟩

end

/-- The traversal of `get` only returns subvalues: on null-free input
every resolved value is null-free. -/
theorem walkGet_nf : ∀ (fs : List String) (v w : GoVal), nfV v = true →
    walkGet v fs = some w → nfV w = true := by
  intro fs
  induction fs with
  | nil =>
    intro v w hv h
    simp [walkGet] at h
    exact h ▸ hv
  | cons f rest ih =>
    intro v w hv h
    cases v with
    | vmap m =>
      simp only [walkGet] at h
      cases hlk : lookupK m f with
      | none => simp [hlk] at h
      | some kv =>
        simp only [hlk] at h
        exact ih kv w (nfM_lookupK m f (by simpa [nfV] using hv) kv hlk) h
    | vslice ty xs =>
      simp only [walkGet] at h
      cases hsi : sliceIdx f xs.length with
      | none => simp [hsi] at h
      | some i =>
        simp only [hsi] at h
        exact ih _ w (nfL_getD xs i (by simpa [nfV] using hv) (sliceIdx_lt hsi)) h
    | null => simp [walkGet] at h
    | vbool a => simp [walkGet] at h
    | vint a => simp [walkGet] at h
    | vuint a => simp [walkGet] at h
    | vfloat a => simp [walkGet] at h
    | vcomplex a b => simp [walkGet] at h
    | vstr a => simp [walkGet] at h

/-- get on a null-free root map only returns null-free values. -/
theorem getFields_nf : ∀ (d : RawData) (fs : List String) (w : GoVal), nfM d = true →
    getFields d fs = some w → nfV w = true := by
  intro d fs w hd h
  cases fs with
  | nil =>
    simp [getFields] at h
    rw [← h]
    simpa [nfV] using hd
  | cons k rest =>
    simp only [getFields] at h
    cases hlk : lookupK d k with
    | none => simp [hlk] at h
    | some v =>
      have hnv : nfV v = true := nfM_lookupK d k hd v hlk
      cases v <;> simp [hlk] at h <;> exact walkGet_nf rest _ w hnv h

/-- Query on a null-free map only returns null-free values. -/
theorem QueryM_nf : ∀ (m : RawData) (q : String) (w : GoVal), nfM m = true →
    QueryM (some m) q = some w → nfV w = true := by
  intro m q w hm h
  simp only [QueryM, dataRaw_some] at h
  cases hg : getFields m (splitDot q) with
  | none => rw [hg] at h; simp at h
  | some u =>
    rw [hg] at h
    cases u <;> simp at h <;> exact h ▸ getFields_nf m (splitDot q) _ hm hg

/-- Writing a null-free value at a resolved path preserves value
null-freeness. -/
theorem setWalk_nf : ∀ (fs : List String) (v newv : GoVal), nfV v = true →
    nfV newv = true → nfV (setWalk v fs newv) = true := by
  intro fs
  induction fs with
  | nil => intro v newv _ hn; simpa [setWalk] using hn
  | cons f rest ih =>
    intro v newv hv hn
    cases v with
    | vmap m =>
      cases hlk : lookupK m f with
      | none => simpa [setWalk, hlk] using hv
      | some kv =>
        have hkv : nfV kv = true := nfM_lookupK m f (by simpa [nfV] using hv) kv hlk
        have hset : nfM (setK m f (setWalk kv rest newv)) = true :=
          nfM_setK m f _ (by simpa [nfV] using hv) (ih kv newv hkv hn)
        simpa [setWalk, hlk, nfV] using hset
    | vslice ty xs =>
      cases hsi : sliceIdx f xs.length with
      | none => simpa [setWalk, hsi] using hv
      | some i =>
        have hi : i < xs.length := sliceIdx_lt hsi
        have hel : nfV (xs.getD i GoVal.null) = true :=
          nfL_getD xs i (by simpa [nfV] using hv) hi
        have hset : nfL (xs.set i (setWalk (xs.getD i GoVal.null) rest newv)) = true :=
          nfL_set xs i _ (by simpa [nfV] using hv) (ih _ newv hel hn)
        simp only [setWalk, hsi, nfV]
        exact hset
    | null => exact absurd hv (by decide)
    | vbool a => simpa [setWalk] using hv
    | vint a => simpa [setWalk] using hv
    | vuint a => simpa [setWalk] using hv
    | vfloat a => simpa [setWalk] using hv
    | vcomplex a b => simpa [setWalk] using hv
    | vstr a => simpa [setWalk] using hv

/-- Writing a null-free value at a resolved field path preserves map
null-freeness. -/
theorem setFields_nf : ∀ (d : RawData) (fs : List String) (newv : GoVal), nfM d = true →
    nfV newv = true → nfM (setFields d fs newv) = true := by
  intro d fs newv hd hn
  cases fs with
  | nil => simpa [setFields] using hd
  | cons k rest =>
    cases hlk : lookupK d k with
    | none => simpa [setFields, hlk] using hd
    | some v =>
      have hnv : nfV v = true := nfM_lookupK d k hd v hlk
      have key : ∀ x : GoVal, nfV x = true → nfM (setK d k x) = true :=
        fun x hx => nfM_setK d k x hd hx
      cases rest with
      | nil =>
        cases v <;> first
          | simpa [setFields, hlk] using hd
          | (exact (by simpa [setFields, hlk] using key newv hn))
      | cons f2 r2 =>
        have hsw : nfV (setWalk v (f2 :: r2) newv) = true :=
          setWalk_nf (f2 :: r2) v newv hnv hn
        cases v <;> first
          | simpa [setFields, hlk] using hd
          | (exact (by simpa [setFields, hlk] using key _ hsw))

/-- Looking up an update document whose entries are all null-free yields
a null-free entry list (an absent key gives the nil map, which is
empty). -/
theorem updLookup_nf : ∀ (upds : List (String × DataM)) (q : String),
    (∀ p ∈ upds, nfM (dataRaw p.2) = true) → nfM (dataRaw (updLookup upds q)) = true := by
  intro upds
  induction upds with
  | nil => intro q _; rfl
  | cons p rest ih =>
    intro q h
    obtain ⟨k, dd⟩ := p
    by_cases hk : k = q
    · simpa [updLookup, hk] using h (k, dd) (by simp)
    · simpa [updLookup, hk] using ih q (fun p2 hp2 => h p2 (by simp [hp2]))

/-- The delete modifier never panics on a map-held (unaddressable)
null-free, sequence-free value, and its results keep both
properties. -/
theorem applyDelModifier_total : ∀ (v : GoVal) (target : String), nfV v = true →
    sfV v = true →
    ∃ r, applyDelModifier v target false = some r ∧
      ∀ w, r = some w → nfV w = true ∧ sfV w = true := by
  intro v target hn hs
  by_cases ht : target = ""
  · exact ⟨none, by simp [applyDelModifier, ht], fun w hw => by cases hw⟩
  · cases v with
    | null => exact absurd hn (by decide)
    | vmap m =>
      refine ⟨some (GoVal.vmap (delK m target)), by simp [applyDelModifier, ht],
        fun w hw => ?_⟩
      cases hw
      constructor
      · simpa [nfV] using nfM_delK m target (by simpa [nfV] using hn)
      · simpa [sfV] using sfM_delK m target (by simpa [sfV] using hs)
    | vslice ty xs => exact absurd hs (by simp [sfV])
    | vbool b =>
      exact ⟨some (GoVal.vbool b), by simp [applyDelModifier, ht],
        fun w hw => by cases hw; exact ⟨hn, hs⟩⟩
    | vint n =>
      exact ⟨some (GoVal.vint n), by simp [applyDelModifier, ht],
        fun w hw => by cases hw; exact ⟨hn, hs⟩⟩
    | vuint n =>
      exact ⟨some (GoVal.vuint n), by simp [applyDelModifier, ht],
        fun w hw => by cases hw; exact ⟨hn, hs⟩⟩
    | vfloat x =>
      exact ⟨some (GoVal.vfloat x), by simp [applyDelModifier, ht],
        fun w hw => by cases hw; exact ⟨hn, hs⟩⟩
    | vcomplex x y =>
      exact ⟨some (GoVal.vcomplex x y), by simp [applyDelModifier, ht],
        fun w hw => by cases hw; exact ⟨hn, hs⟩⟩
    | vstr s =>
      exact ⟨some (GoVal.vstr s), by simp [applyDelModifier, ht],
        fun w hw => by cases hw; exact ⟨hn, hs⟩⟩

/-- The delete traversal never panics on null-free, sequence-free data
(its two panics need a sequence), and preserves both properties. -/
theorem delWalk_total : ∀ (fs : List String) (v : GoVal) (target : String),
    nfV v = true → sfV v = true →
    ∃ v2, delWalk v fs target = some v2 ∧ nfV v2 = true ∧ sfV v2 = true
  | [], v, target => by intro h1 h2; exact ⟨v, rfl, h1, h2⟩
  | [f], v, target => by
    intro h1 h2
    cases v with
    | null => exact absurd h1 (by decide)
    | vmap m =>
      cases hlk : lookupK m f with
      | none => exact ⟨GoVal.vmap m, by simp [delWalk, hlk], h1, h2⟩
      | some kv =>
        have hkn : nfV kv = true := nfM_lookupK m f (by simpa [nfV] using h1) kv hlk
        have hks : sfV kv = true := sfM_lookupK m f (by simpa [sfV] using h2) kv hlk
        obtain ⟨r, hr, hw⟩ := applyDelModifier_total kv target hkn hks
        cases r with
        | none =>
          refine ⟨GoVal.vmap (delK m f), by simp [delWalk, hlk, hr], ?_, ?_⟩
          · simpa [nfV] using nfM_delK m f (by simpa [nfV] using h1)
          · simpa [sfV] using sfM_delK m f (by simpa [sfV] using h2)
        | some kv2 =>
          obtain ⟨hn2, hs2⟩ := hw kv2 rfl
          refine ⟨GoVal.vmap (setK m f kv2), by simp [delWalk, hlk, hr], ?_, ?_⟩
          · simpa [nfV] using nfM_setK m f kv2 (by simpa [nfV] using h1) hn2
          · simpa [sfV] using sfM_setK m f kv2 (by simpa [sfV] using h2) hs2
    | vslice ty xs => exact absurd h2 (by simp [sfV])
    | vbool b => exact ⟨GoVal.vbool b, rfl, h1, h2⟩
    | vint n => exact ⟨GoVal.vint n, rfl, h1, h2⟩
    | vuint n => exact ⟨GoVal.vuint n, rfl, h1, h2⟩
    | vfloat x => exact ⟨GoVal.vfloat x, rfl, h1, h2⟩
    | vcomplex x y => exact ⟨GoVal.vcomplex x y, rfl, h1, h2⟩
    | vstr s => exact ⟨GoVal.vstr s, rfl, h1, h2⟩
  | f1 :: f2 :: rest, v, target => by
    intro h1 h2
    cases v with
    | null => exact absurd h1 (by decide)
    | vmap m =>
      cases hlk : lookupK m f1 with
      | none => exact ⟨GoVal.vmap m, by simp [delWalk, hlk], h1, h2⟩
      | some kv =>
        have hkn : nfV kv = true := nfM_lookupK m f1 (by simpa [nfV] using h1) kv hlk
        have hks : sfV kv = true := sfM_lookupK m f1 (by simpa [sfV] using h2) kv hlk
        obtain ⟨v2, hv2, hn2, hs2⟩ := delWalk_total (f2 :: rest) kv target hkn hks
        refine ⟨GoVal.vmap (setK m f1 v2), by simp [delWalk, hlk, hv2], ?_, ?_⟩
        · simpa [nfV] using nfM_setK m f1 v2 (by simpa [nfV] using h1) hn2
        · simpa [sfV] using sfM_setK m f1 v2 (by simpa [sfV] using h2) hs2
    | vslice ty xs => exact absurd h2 (by simp [sfV])
    | vbool b => exact ⟨GoVal.vbool b, rfl, h1, h2⟩
    | vint n => exact ⟨GoVal.vint n, rfl, h1, h2⟩
    | vuint n => exact ⟨GoVal.vuint n, rfl, h1, h2⟩
    | vfloat x => exact ⟨GoVal.vfloat x, rfl, h1, h2⟩
    | vcomplex x y => exact ⟨GoVal.vcomplex x y, rfl, h1, h2⟩
    | vstr s => exact ⟨GoVal.vstr s, rfl, h1, h2⟩

/-- Deleting one query never panics on a non-nil, null-free,
sequence-free map, and preserves both properties. -/
theorem deleteOne_total : ∀ (m : RawData) (q : String), nfM m = true → sfM m = true →
    ∃ m2, deleteOne (some m) q = some (some m2) ∧ nfM m2 = true ∧ sfM m2 = true := by
  intro m q h1 h2
  simp only [deleteOne, dataRaw_some]
  set tgt := (splitDot q).getLastD "" with htgt
  cases hp : (splitDot q).dropLast with
  | nil =>
    by_cases ht : tgt = ""
    · refine ⟨m, ?_, h1, h2⟩
      rw [if_pos ht]
    · refine ⟨delK m tgt, ?_, nfM_delK m tgt h1, sfM_delK m tgt h2⟩
      rw [if_neg ht]
  | cons k rest =>
    cases hlk : lookupK m k with
    | none => exact ⟨m, by simp [hlk], h1, h2⟩
    | some v =>
      have hnv : nfV v = true := nfM_lookupK m k h1 v hlk
      have hsv : sfV v = true := sfM_lookupK m k h2 v hlk
      by_cases hre : rest.isEmpty
      · obtain ⟨r, hr, hw⟩ := applyDelModifier_total v tgt hnv hsv
        cases r with
        | none =>
          refine ⟨delK m k, ?_, nfM_delK m k h1, sfM_delK m k h2⟩
          cases v <;> first
            | exact absurd hnv (by decide)
            | simp [hlk, hre, hr]
        | some v2 =>
          obtain ⟨hn2, hs2⟩ := hw v2 rfl
          refine ⟨setK m k v2, ?_, nfM_setK m k v2 h1 hn2, sfM_setK m k v2 h2 hs2⟩
          cases v <;> first
            | exact absurd hnv (by decide)
            | simp [hlk, hre, hr]
      · obtain ⟨v2, hv2, hn2, hs2⟩ := delWalk_total rest v tgt hnv hsv
        refine ⟨setK m k v2, ?_, nfM_setK m k v2 h1 hn2, sfM_setK m k v2 h2 hs2⟩
        cases v <;> first
          | exact absurd hnv (by decide)
          | simp [hlk, hre, hv2]

/-- The deletion fold of `Delete` never panics on a non-nil, null-free,
sequence-free map. -/
theorem deleteFold_total : ∀ (qs : List String) (m : RawData), nfM m = true →
    sfM m = true →
    ∃ m2, (qs.foldl
        (fun acc q =>
          match acc with
          | none => none
          | some d2 => deleteOne d2 q)
        (some (some m))) = some (some m2) ∧ nfM m2 = true ∧ sfM m2 = true := by
  intro qs
  induction qs with
  | nil => intro m h1 h2; exact ⟨m, rfl, h1, h2⟩
  | cons q rest ih =>
    intro m h1 h2
    obtain ⟨m1, hd1, hn1, hs1⟩ := deleteOne_total m q h1 h2
    obtain ⟨m2, hd2, hn2, hs2⟩ := ih m1 hn1 hs1
    refine ⟨m2, ?_, hn2, hs2⟩
    simp only [List.foldl_cons, hd1, hd2]

/-- Delete never panics on a non-nil, null-free, sequence-free map when
no query is the empty string, and the result map stays non-nil with both
properties. -/
theorem DeleteM_total : ∀ (qs : List String) (m : RawData), qs.contains "" = false →
    nfM m = true → sfM m = true →
    ∃ m2, DeleteM (some m) qs = some (some m2) ∧ nfM m2 = true ∧ sfM m2 = true := by
  intro qs m hc h1 h2
  obtain ⟨m2, hf, hn, hs⟩ := deleteFold_total qs m h1 h2
  refine ⟨m2, ?_, hn, hs⟩
  have hcc : ¬ (qs.contains "" = true) := fun h => by
    rw [hc] at h
    exact absurd h (by decide)
  unfold DeleteM
  rw [if_neg hcc]
  exact hf

/-- The sorted update loop never panics on a non-nil null-free root when
every update document is null-free: each step either errors out
returning the map, or merges totally and writes back a null-free map. -/
theorem applyUpdates_total : ∀ (qs : List String) (m : RawData)
    (upds : List (String × DataM)), nfM m = true →
    (∀ p ∈ upds, nfM (dataRaw p.2) = true) →
    ∃ d2 e, applyUpdates (some m) qs upds = some (d2, e) := by
  intro qs
  induction qs with
  | nil => intro m upds _ _; exact ⟨some m, none, rfl⟩
  | cons q rest ih =>
    intro m upds h1 h2
    by_cases hq : q = ""
    · subst hq
      have hu : nfM (dataRaw (updLookup upds "")) = true := updLookup_nf upds "" h2
      obtain ⟨m2, hm2, hn2⟩ := mergeEntries_total (dataRaw (updLookup upds "")) m h1 hu
      obtain ⟨d2, e, hrec⟩ := ih m2 upds hn2 h2
      exact ⟨d2, e, by simp [applyUpdates, hm2, hrec]⟩
    · cases hQ : QueryM (some m) q with
      | none => exact ⟨some m, some PErr.invalidQuery, by simp [applyUpdates, hq, hQ]⟩
      | some v =>
        cases v with
        | vmap mq =>
          have hmq : nfM mq = true := by
            simpa [nfV] using QueryM_nf m q (GoVal.vmap mq) h1 hQ
          have hu : nfM (dataRaw (updLookup upds q)) = true := updLookup_nf upds q h2
          obtain ⟨m2, hm2, hn2⟩ := mergeEntries_total (dataRaw (updLookup upds q)) mq hmq hu
          have hset : nfM (setFields m (splitDot q) (GoVal.vmap m2)) = true :=
            setFields_nf m (splitDot q) (GoVal.vmap m2) h1 (by simpa [nfV] using hn2)
          obtain ⟨d2, e, hrec⟩ := ih (setFields m (splitDot q) (GoVal.vmap m2)) upds hset h2
          exact ⟨d2, e, by simp [applyUpdates, hq, hQ, hm2, dataRaw_some, hrec]⟩
        | null =>
          exact ⟨some m, some PErr.unsupportedTarget, by simp [applyUpdates, hq, hQ]⟩
        | vbool a =>
          exact ⟨some m, some PErr.unsupportedTarget, by simp [applyUpdates, hq, hQ]⟩
        | vint a =>
          exact ⟨some m, some PErr.unsupportedTarget, by simp [applyUpdates, hq, hQ]⟩
        | vuint a =>
          exact ⟨some m, some PErr.unsupportedTarget, by simp [applyUpdates, hq, hQ]⟩
        | vfloat a =>
          exact ⟨some m, some PErr.unsupportedTarget, by simp [applyUpdates, hq, hQ]⟩
        | vcomplex a b =>
          exact ⟨some m, some PErr.unsupportedTarget, by simp [applyUpdates, hq, hQ]⟩
        | vstr a =>
          exact ⟨some m, some PErr.unsupportedTarget, by simp [applyUpdates, hq, hQ]⟩
        | vslice ty xs =>
          exact ⟨some m, some PErr.unsupportedTarget, by simp [applyUpdates, hq, hQ]⟩

/-- C10 counterexample: an action whose update map holds one entry at
the zero-length path, applied to the empty `Data` (nil map), panics:
`merge` calls `SetMapIndex` on the nil map.  ApplyTo is therefore not
total at the public interface, and this very map write goes into a nil
map. -/
theorem applyTo_nil_root_counterexample :
    applyActionTo none (PatchActionM.mk [] [(("") , some [(("a"), GoVal.vint 1)])]) =
      none := by decide

/-- C10 amended: patch application is total away from the nil-map and
nil-value edge cases — for an action on a target whose map is non-nil and
stores no nil interface and no sequence anywhere, whose delete queries
are all non-empty and whose update documents are null-free, ApplyTo
returns without panicking (either nil or one of the two patch errors).
The unrestricted statement is false: a zero-length-path update writes
into the nil root map, an update merging onto an entry that holds a nil
interface calls Type() on an invalid value, and deleting the last index
of a map-held sequence calls SetLen on an unaddressable slice. -/
theorem applyTo_total_amended : ∀ (m : RawData) (a : PatchActionM),
    nfM m = true → sfM m = true →
    a.Deletes.contains "" = false →
    (∀ p ∈ a.Updates, nfM (dataRaw p.2) = true) →
    ∃ r, applyActionTo (some m) a = some r := by
  intro m a h1 h2 h3 h4
  obtain ⟨ds, us⟩ := a
  simp only at h3 h4
  obtain ⟨m1, hdel, hn1, hs1⟩ := DeleteM_total ds m h3 h1 h2
  cases us with
  | nil => exact ⟨(some m1, none), by simp [applyActionTo, hdel]⟩
  | cons e r =>
    obtain ⟨d2, e2, happ⟩ :=
      applyUpdates_total (sortStrings (e.1 :: r.map Prod.fst)) m1 (e :: r) hn1 h4
    exact ⟨(d2, e2), by simp [applyActionTo, hdel, happ]⟩

/-- C10 witness: a delete plus an update on a small null-free map runs
to completion. -/
theorem applyTo_total_witness :
    ∃ r, applyActionTo (some [(("a"), GoVal.vint 1), (("b"), GoVal.vmap [])])
      (PatchActionM.mk [("a")] [(("b"), some [(("c"), GoVal.vint 2)])]) = some r :=
  applyTo_total_amended [(("a"), GoVal.vint 1), (("b"), GoVal.vmap [])]
    (PatchActionM.mk [("a")] [(("b"), some [(("c"), GoVal.vint 2)])])
    (by decide) (by decide) (by decide) (by decide)

/-! ## The tagged JSON text codec (src/data.go lines 54-114, 506-553)

`Parse` delegates the body to `gjson` (github.com/tidwall/gjson) and
`Data.json` delegates encoding to `encoding/json`.  Those two libraries
are dependencies outside this repository's sources; their behaviour is
modelled here from their documented semantics: `gjson.Valid`/`gjson.Parse`
implement the RFC 8259 JSON grammar (one value, surrounding whitespace,
no trailing commas, strict number syntax, string escapes with
`\uXXXX`/surrogate pairs) with numbers converted by correctly-rounded
`strconv.ParseFloat`; `encoding/json` with `SetEscapeHTML(false)` prints
compact JSON with map keys sorted byte-wise, strings escaped minimally
(`\"`, `\\`, `\n`, `\r`, `\t`, `\u00XX` for other control characters,
` `/` `), and errors on `complex128` and non-finite floats. -/

/-- natBitsF: fuelled bit-length loop. -/
def natBitsF : Nat → Nat → Nat
  | 0, _ => 0
  | fuel + 1, n => if n = 0 then 0 else natBitsF fuel (n / 2) + 1

/-- natBits is the bit length of `n` (0 for 0): the `n`-fuelled loop
always terminates within its own fuel. -/
def natBits (n : Nat) : Nat := natBitsF n n

/-- decDigitsF: fuelled decimal-digit-count loop. -/
def decDigitsF : Nat → Nat → Nat
  | 0, _ => 0
  | fuel + 1, n => if n = 0 then 0 else decDigitsF fuel (n / 10) + 1

/-- decDigits is the number of decimal digits of `n` (0 for 0). -/
def decDigits (n : Nat) : Nat := decDigitsF n n

/-- rdiv is `n / d` rounded to nearest, ties to even. -/
def rdiv (n d : Nat) : Nat :=
  let q := n / d
  let r := n % d
  if d < 2 * r then q + 1
  else if 2 * r < d then q
  else if q % 2 = 0 then q
  else q + 1

/-- rdivAt num den e is `num / den / 2^e` rounded to nearest-even. -/
def rdivAt (num den : Nat) (e : Int) : Nat :=
  if 0 ≤ e then rdiv num (den * 2 ^ e.toNat)
  else rdiv (num * 2 ^ (-e).toNat) den

/-- stripTwosF: fuelled normalization dividing out factors of two. -/
def stripTwosF : Nat → Nat → Int → Nat × Int
  | 0, q, e => (q, e)
  | fuel + 1, q, e => if q ≠ 0 ∧ q % 2 = 0 then stripTwosF fuel (q / 2) (e + 1) else (q, e)

/-- mkF64 builds the normalized F64 of value `±q * 2^e`. -/
def mkF64 (neg : Bool) (q : Nat) (e : Int) : F64 :=
  if q = 0 then ⟨0, 0⟩
  else
    let p := stripTwosF q q e
    ⟨if neg then -(p.1 : Int) else (p.1 : Int), p.2⟩

/-- infF64 is the Inf marker with the given sign. -/
def infF64 (neg : Bool) : F64 := ⟨if neg then -1 else 1, 5000⟩

/-- fixQ finds (fuelled; at most two corrections are ever needed) the
exponent where the nearest-even-rounded 53-bit significand of `num/den`
lands in `[2^52, 2^53)`. -/
def fixQ : Nat → Nat → Nat → Int → Nat × Int
  | 0, _, _, e => (0, e)
  | fuel + 1, num, den, e =>
    let q := rdivAt num den e
    if 2 ^ 53 ≤ q then fixQ fuel num den (e + 1)
    else if q < 2 ^ 52 then fixQ fuel num den (e - 1)
    else (q, e)

/-- floatOfDec is the correctly-rounded decimal-to-double conversion that
`strconv.ParseFloat` (and hence `gjson`'s number parsing) performs on the
JSON number `mant * 10^p10`: round to nearest with ties to even, overflow
to ±Inf, underflow through the subnormals to zero (the model folds `-0`
to `0`; no claim distinguishes the two zeros). -/
def floatOfDec (mant p10 : Int) : F64 :=
  if mant = 0 then ⟨0, 0⟩
  else
    let neg := mant < 0
    let a := mant.natAbs
    let dd : Int := (decDigits a : Int)
    if 310 < dd + p10 then infF64 neg
    else if dd + p10 < -350 then ⟨0, 0⟩
    else
      let num := if 0 ≤ p10 then a * 10 ^ p10.toNat else a
      let den := if 0 ≤ p10 then 1 else 10 ^ (-p10).toNat
      if num * 2 ^ 1022 < den then
        mkF64 neg (rdiv (num * 2 ^ 1074) den) (-1074)
      else
        let p := fixQ 4 num den ((natBits num : Int) - (natBits den : Int) - 53)
        if 0 < p.2 ∧ 2 ^ 1024 ≤ p.1 * 2 ^ p.2.toNat then infF64 neg
        else mkF64 neg p.1 p.2

/-- fGEminI64 decides `f >= math.MinInt64` on float64: the constant
converts to the double `-2^63` exactly; `+Inf` passes, `-Inf` fails. -/
def fGEminI64 (f : F64) : Bool :=
  if f.e = 5000 then 0 < f.m
  else if 0 ≤ f.e then -(2 ^ 63) ≤ f.m * 2 ^ f.e.toNat
  else -(2 ^ 63) * 2 ^ (-f.e).toNat ≤ f.m

/-- fLEmaxI64 decides `f <= math.MaxInt64` on float64.  The untyped
constant `math.MaxInt64 = 2^63 - 1` converts to the NEAREST double,
which is `2^63`, so the comparison admits `f = 2^63` itself. -/
def fLEmaxI64 (f : F64) : Bool :=
  if f.e = 5000 then f.m < 0
  else if 0 ≤ f.e then f.m * 2 ^ f.e.toNat ≤ 2 ^ 63
  else f.m ≤ 2 ^ 63 * 2 ^ (-f.e).toNat

/-- froundEq decides `math.Round(f) == f`: true exactly for integral
values (a normalized finite F64 is integral iff `e ≥ 0`) and for the
infinities, which `Round` fixes. -/
def froundEq (f : F64) : Bool :=
  if f.e = 5000 then true else decide (0 ≤ f.e)

/-- int64OfF is `int64(f)` for an `f` that passed both range tests:
exact for `-2^63 ≤ f < 2^63`; `f = 2^63` is out of int64 range and the
amd64 conversion (CVTTSD2SI) produces the indefinite value `-2^63`. -/
def int64OfF (f : F64) : Int :=
  if f.m * 2 ^ f.e.toNat = 2 ^ 63 then -(2 ^ 63) else f.m * 2 ^ f.e.toNat

/-- numberVal models the `gjson.Number` branch of `parseJSONValue`
(src/data.go lines 126-137) applied to the parsed float `f`: when
`f >= math.MinInt64 && f <= math.MaxInt64 && math.Round(f) == f` the
value becomes `int64(f)`, otherwise it stays a float64. -/
def numberVal (f : F64) : GoVal :=
  if fGEminI64 f && fLEmaxI64 f && froundEq f then GoVal.vint (int64OfF f)
  else GoVal.vfloat f

/-- Json is one parsed JSON value: numbers are kept as the exact decimal
`mant * 10^p10` read from the literal. -/
inductive Json where
  | jnull
  | jbool (b : Bool)
  | jnum (mant : Int) (p10 : Int)
  | jstr (s : String)
  | jarr (xs : List Json)
  | jobj (kvs : List (String × Json))

/-- lbrace is the character `\x7b`. -/
def lbrace : Char := Char.ofNat 123

/-- rbrace is the character `\x7d`. -/
def rbrace : Char := Char.ofNat 125

/-- isWs: the JSON whitespace characters. -/
def isWs (c : Char) : Bool := c = ' ' ∨ c = '\t' ∨ c = '\n' ∨ c = '\r'

/-- skipWs drops leading JSON whitespace. -/
def skipWs : List Char → List Char
  | [] => []
  | c :: rest => if isWs c then skipWs rest else c :: rest

/-- hexVal: the value of one hexadecimal digit. -/
def hexVal (c : Char) : Option Nat :=
  if '0' ≤ c ∧ c ≤ '9' then some (c.toNat - 48)
  else if 'a' ≤ c ∧ c ≤ 'f' then some (c.toNat - 87)
  else if 'A' ≤ c ∧ c ≤ 'F' then some (c.toNat - 55)
  else none

/-- chOfCode is the rune of a code point, with invalid code points (lone
surrogates) becoming U+FFFD as in Go. -/
def chOfCode (n : Nat) : Char :=
  if n.isValidChar then Char.ofNat n else Char.ofNat 0xFFFD

/-- parseStrAux scans a JSON string body (after the opening quote) and
unescapes it: the standard escapes, `\uXXXX` with surrogate-pair
combination, raw control characters rejected. -/
def parseStrAux : Nat → List Char → List Char → Option (String × List Char)
  | 0, _, _ => none
  | _ + 1, _, [] => none
  | fuel + 1, acc, c :: rest =>
    if c = '"' then some (String.mk acc.reverse, rest)
    else if c = '\\' then
      match rest with
      | [] => none
      | e :: rest2 =>
        if e = '"' then parseStrAux fuel ('"' :: acc) rest2
        else if e = '\\' then parseStrAux fuel ('\\' :: acc) rest2
        else if e = '/' then parseStrAux fuel ('/' :: acc) rest2
        else if e = 'b' then parseStrAux fuel (Char.ofNat 8 :: acc) rest2
        else if e = 'f' then parseStrAux fuel (Char.ofNat 12 :: acc) rest2
        else if e = 'n' then parseStrAux fuel ('\n' :: acc) rest2
        else if e = 'r' then parseStrAux fuel ('\r' :: acc) rest2
        else if e = 't' then parseStrAux fuel ('\t' :: acc) rest2
        else if e = 'u' then
          match rest2 with
          | h1 :: h2 :: h3 :: h4 :: rest3 =>
            match hexVal h1, hexVal h2, hexVal h3, hexVal h4 with
            | some x1, some x2, some x3, some x4 =>
              let code := ((x1 * 16 + x2) * 16 + x3) * 16 + x4
              if 0xD800 ≤ code ∧ code ≤ 0xDBFF then
                match rest3 with
                | '\\' :: 'u' :: g1 :: g2 :: g3 :: g4 :: rest4 =>
                  match hexVal g1, hexVal g2, hexVal g3, hexVal g4 with
                  | some y1, some y2, some y3, some y4 =>
                    let code2 := ((y1 * 16 + y2) * 16 + y3) * 16 + y4
                    if 0xDC00 ≤ code2 ∧ code2 ≤ 0xDFFF then
                      parseStrAux fuel
                        (chOfCode (0x10000 + (code - 0xD800) * 0x400 + (code2 - 0xDC00)) :: acc)
                        rest4
                    else parseStrAux fuel (chOfCode code :: acc) rest3
                  | _, _, _, _ => none
                | _ => parseStrAux fuel (chOfCode code :: acc) rest3
              else parseStrAux fuel (chOfCode code :: acc) rest3
            | _, _, _, _ => none
          | _ => none
        else none
    else if c.toNat < 32 then none
    else parseStrAux fuel (c :: acc) rest

/-- takeDigits splits off a maximal run of decimal digits. -/
def takeDigits : List Char → List Char × List Char
  | [] => ([], [])
  | c :: rest =>
    if '0' ≤ c ∧ c ≤ '9' then
      let p := takeDigits rest
      (c :: p.1, p.2)
    else ([], c :: rest)

/-- digitsToNat folds decimal digits onto an accumulator. -/
def digitsToNat : List Char → Nat → Nat
  | [], acc => acc
  | c :: rest, acc => digitsToNat rest (acc * 10 + (c.toNat - 48))

/-- expDigits reads the digits of an exponent. -/
def expDigits (cs : List Char) : Option (Int × List Char) :=
  match takeDigits cs with
  | ([], _) => none
  | (ds, rest) => some ((digitsToNat ds 0 : Int), rest)

/-- parseExp reads the optional exponent part of a number. -/
def parseExp (mant : Nat) (p10 : Int) (cs : List Char) :
    Option ((Nat × Int) × List Char) :=
  match cs with
  | [] => some ((mant, p10), [])
  | c :: rest =>
    if c = 'e' ∨ c = 'E' then
      match rest with
      | [] => none
      | c2 :: r2 =>
        if c2 = '+' then
          match expDigits r2 with
          | none => none
          | some (x, r3) => some ((mant, p10 + x), r3)
        else if c2 = '-' then
          match expDigits r2 with
          | none => none
          | some (x, r3) => some ((mant, p10 - x), r3)
        else
          match expDigits (c2 :: r2) with
          | none => none
          | some (x, r3) => some ((mant, p10 + x), r3)
    else some ((mant, p10), c :: rest)

/-- parseFracExp reads the optional fraction then the exponent. -/
def parseFracExp (ip : Nat) (cs : List Char) : Option ((Nat × Int) × List Char) :=
  match cs with
  | [] => parseExp ip 0 []
  | c :: rest =>
    if c = '.' then
      match takeDigits rest with
      | ([], _) => none
      | (ds, rest2) => parseExp (digitsToNat ds ip) (-(ds.length : Int)) rest2
    else parseExp ip 0 (c :: rest)

/-- parseNumMag reads an unsigned JSON number (RFC 8259: `0` or a
nonzero-led digit run, no leading zeros). -/
def parseNumMag (cs : List Char) : Option ((Nat × Int) × List Char) :=
  match cs with
  | [] => none
  | c :: rest =>
    if c = '0' then parseFracExp 0 rest
    else if '1' ≤ c ∧ c ≤ '9' then
      let p := takeDigits rest
      parseFracExp (digitsToNat (c :: p.1) 0) p.2
    else none

/-- parseNumTok reads a signed JSON number as an exact decimal. -/
def parseNumTok (cs : List Char) : Option ((Int × Int) × List Char) :=
  match cs with
  | [] => none
  | c :: rest =>
    if c = '-' then
      match parseNumMag rest with
      | none => none
      | some ((a, p), r) => some ((-(a : Int), p), r)
    else
      match parseNumMag (c :: rest) with
      | none => none
      | some ((a, p), r) => some (((a : Int), p), r)

mutual

/-- parseVal parses one JSON value (RFC 8259, as `gjson.Valid` and
`gjson.Parse` read it); the fuel dominates the input length. -/
def parseVal : Nat → List Char → Option (Json × List Char)
  | 0, _ => none
  | fuel + 1, cs =>
    match skipWs cs with
    | [] => none
    | c :: rest =>
      if c = lbrace then parseObjBody fuel rest
      else if c = '[' then parseArrBody fuel rest
      else if c = '"' then
        match parseStrAux (rest.length + 1) [] rest with
        | none => none
        | some (s, r) => some (Json.jstr s, r)
      else if c = 't' then
        match rest with
        | 'r' :: 'u' :: 'e' :: r => some (Json.jbool true, r)
        | _ => none
      else if c = 'f' then
        match rest with
        | 'a' :: 'l' :: 's' :: 'e' :: r => some (Json.jbool false, r)
        | _ => none
      else if c = 'n' then
        match rest with
        | 'u' :: 'l' :: 'l' :: r => some (Json.jnull, r)
        | _ => none
      else
        match parseNumTok (c :: rest) with
        | none => none
        | some ((mant, p10), r) => some (Json.jnum mant p10, r)

/-- parseObjBody parses an object body after the opening brace. -/
def parseObjBody : Nat → List Char → Option (Json × List Char)
  | 0, _ => none
  | fuel + 1, cs =>
    match skipWs cs with
    | [] => none
    | c :: rest =>
      if c = rbrace then some (Json.jobj [], rest)
      else
        match parseObjEntries fuel (c :: rest) with
        | none => none
        | some (es, r) => some (Json.jobj es, r)

/-- parseObjEntries parses `"key": value` pairs separated by commas up to
the closing brace. -/
def parseObjEntries : Nat → List Char → Option (List (String × Json) × List Char)
  | 0, _ => none
  | fuel + 1, cs =>
    match skipWs cs with
    | '"' :: rest =>
      match parseStrAux (rest.length + 1) [] rest with
      | none => none
      | some (k, r1) =>
        match skipWs r1 with
        | ':' :: r2 =>
          match parseVal fuel r2 with
          | none => none
          | some (v, r3) =>
            match skipWs r3 with
            | [] => none
            | c2 :: r4 =>
              if c2 = ',' then
                match parseObjEntries fuel r4 with
                | none => none
                | some (es, r5) => some ((k, v) :: es, r5)
              else if c2 = rbrace then some ([(k, v)], r4)
              else none
        | _ => none
    | _ => none

/-- parseArrBody parses an array body after the opening bracket. -/
def parseArrBody : Nat → List Char → Option (Json × List Char)
  | 0, _ => none
  | fuel + 1, cs =>
    match skipWs cs with
    | [] => none
    | c :: rest =>
      if c = ']' then some (Json.jarr [], rest)
      else
        match parseArrEntries fuel (c :: rest) with
        | none => none
        | some (vs, r) => some (Json.jarr vs, r)

/-- parseArrEntries parses array elements separated by commas up to the
closing bracket. -/
def parseArrEntries : Nat → List Char → Option (List Json × List Char)
  | 0, _ => none
  | fuel + 1, cs =>
    match parseVal fuel cs with
    | none => none
    | some (v, r1) =>
      match skipWs r1 with
      | [] => none
      | c :: r2 =>
        if c = ',' then
          match parseArrEntries fuel r2 with
          | none => none
          | some (vs, r3) => some (v :: vs, r3)
        else if c = ']' then some ([v], r2)
        else none

end

/-- parseDoc models `gjson.Valid` plus `gjson.Parse`: exactly one JSON
value with only whitespace around it.  Three fuel units per input
character dominate every recursion chain of the grammar (the longest
non-consuming descent is value to array body to array elements). -/
def parseDoc (cs : List Char) : Option Json :=
  match parseVal (3 * cs.length + 3) cs with
  | none => none
  | some (j, rest) => if (skipWs rest).isEmpty then some j else none

/-- unifyTy is the element-type unification of `parseJSONArray`
(src/data.go lines 176-180). -/
def unifyTy : Option Ty → Option Ty → Option Ty
  | none, vt => vt
  | some t, vt => if vt ≠ some t ∧ t ≠ Ty.tiface then some Ty.tiface else some t

mutual

/-- jVal models `parseJSONValue` (src/data.go lines 116-159) on the
parsed JSON tree: `none` is the panic `reflect.Append` raises when an
array holds a JSON `null` (`reflect.ValueOf(nil)` is invalid). -/
def jVal : Json → Option (GoVal × Option Ty)
  | Json.jnull => some (GoVal.null, none)
  | Json.jbool b => some (GoVal.vbool b, some Ty.tbool)
  | Json.jnum mant p10 =>
    match numberVal (floatOfDec mant p10) with
    | GoVal.vint n => some (GoVal.vint n, some Ty.tint64)
    | v => some (v, some Ty.tfloat64)
  | Json.jstr s => some (GoVal.vstr s, some Ty.tstr)
  | Json.jobj kvs =>
    match jObjFold kvs [] with
    | none => none
    | some m => some (GoVal.vmap m, some Ty.tobject)
  | Json.jarr xs =>
    match jArrAux xs [] none with
    | none => none
    | some (vs, et) => some (GoVal.vslice (et.getD Ty.tiface) vs,
        some (Ty.tslice (et.getD Ty.tiface)))

/-- jObjFold models `parseJSONToRawData` (src/data.go lines 161-167):
`d[key.Str] = v` for each pair in order (duplicate keys overwrite). -/
def jObjFold : List (String × Json) → RawData → Option RawData
  | [], acc => some acc
  | (k, j) :: rest, acc =>
    match jVal j with
    | none => none
    | some (v, _) => jObjFold rest (setK acc k v)

/-- jArrAux models the loop of `parseJSONArray` (src/data.go lines
169-194): collect elements, unify their reflect types left to right, and
panic (`none`) if any element is a JSON null. -/
def jArrAux : List Json → List GoVal → Option Ty → Option (List GoVal × Option Ty)
  | [], acc, et => some (acc.reverse, et)
  | j :: rest, acc, et =>
    match jVal j with
    | none => none
    | some (v, vt) =>
      match v with
      | GoVal.null => none
      | _ => jArrAux rest (v :: acc) (unifyTy et vt)

end

/-- DErr is the error taxonomy of `Parse`/`ParseJSON` (src/data.go lines
64, 72, 83, 93, 100). -/
inductive DErr where
  | invalidFormat
  | invalidType
  | invalidJSON
  | notObject
deriving DecidableEq

/-- ParseJSONM models `ParseJSON` (src/data.go lines 91-114): validate,
require a top-level object, convert, and leave the `Data` nil when the
object was empty.  The outer `Option` is panic (null in an array). -/
def ParseJSONM (s : String) : Option (Except DErr DataM) :=
  match parseDoc s.data with
  | none => some (Except.error DErr.invalidJSON)
  | some (Json.jobj kvs) =>
    match jObjFold kvs [] with
    | none => none
    | some raw => some (Except.ok (if raw.isEmpty then none else some raw))
  | some _ => some (Except.error DErr.notObject)

/-- splitAtGT is `strings.Index(str, ">")` splitting the string at the
first `>`. -/
def splitAtGT : List Char → Option (List Char × List Char)
  | [] => none
  | c :: rest =>
    if c = '>' then some ([], rest)
    else
      match splitAtGT rest with
      | none => none
      | some (pre, post) => some (c :: pre, post)

/-- ParseM models `Parse` (src/data.go lines 62-87): require the leading
marker, split off the type name at the first `>`, and dispatch on it
(only `json` is known). -/
def ParseM (s : String) : Option (Except DErr DataM) :=
  match s.data with
  | [] => some (Except.error DErr.invalidFormat)
  | c :: rest =>
    if c = '<' then
      match splitAtGT rest with
      | none => some (Except.error DErr.invalidFormat)
      | some (tn, body) =>
        if String.mk tn = "json" then ParseJSONM (String.mk body)
        else some (Except.error DErr.invalidType)
    else some (Except.error DErr.invalidFormat)

instance : DecidableEq (Except DErr DataM) := fun a b =>
  match a, b with
  | Except.ok x, Except.ok y => decidable_of_iff (x = y) (by simp)
  | Except.error x, Except.error y => decidable_of_iff (x = y) (by simp)
  | Except.ok _, Except.error _ => isFalse (fun h => Except.noConfusion h)
  | Except.error _, Except.ok _ => isFalse (fun h => Except.noConfusion h)

/-! ## C9: parse error taxonomy -/

/-- C9: Parse fails with the invalid-format error for every input that
does not begin with the marker character, even when the remainder is
valid JSON; an unknown tag gives the invalid-type error (the
spec's unrecognized-format case, here for `<bson>`); a `json`-tagged
body that is not valid JSON (a trailing comma) gives the invalid-JSON
error, and a valid body whose top-level value is not an object gives the
must-be-an-object error (the spec folds these two into its
invalid-format case). -/
theorem parse_errors_taxonomy :
    (∀ s : String, s.data.head? ≠ some '<' →
      ParseM s = some (Except.error DErr.invalidFormat))
    ∧ ParseM ("<bson>\x7b\"a\":1\x7d") = some (Except.error DErr.invalidType)
    ∧ ParseM ("<json>\x7b\"a\":1,\x7d") = some (Except.error DErr.invalidJSON)
    ∧ ParseM ("<json>1") = some (Except.error DErr.notObject) := by
  refine ⟨?_, by decide, by decide, by decide⟩
  intro s h
  match hs : s.data with
  | [] => simp [ParseM, hs]
  | c :: rest =>
    have hc : ¬ c = '<' := by
      rw [hs] at h
      simpa using h
    simp [ParseM, hs, hc]

/-- C9 witness: the spec's own no-marker scenario, a bare JSON object. -/
theorem parse_errors_taxonomy_witness :
    ParseM ("\x7b\"a\":1\x7d") = some (Except.error DErr.invalidFormat) :=
  parse_errors_taxonomy.1 ("\x7b\"a\":1\x7d") (by decide)

/-! ## C8: JSON number classification -/

/-- Rounding division by one is the identity. -/
theorem rdiv_one (x : Nat) : rdiv x 1 = x := by
  simp [rdiv, Nat.mod_one]

/-- natBitsF of zero is zero at any fuel. -/
theorem natBitsF_zero : ∀ f, natBitsF f 0 = 0 := by
  intro f
  cases f <;> simp [natBitsF]

/-- natBitsF within its fuel computes the bit length. -/
theorem natBitsF_correct : ∀ (fuel n : Nat), n ≤ fuel → 0 < n →
    2 ^ (natBitsF fuel n - 1) ≤ n ∧ n < 2 ^ natBitsF fuel n := by
  intro fuel
  induction fuel with
  | zero => intro n hn h0; omega
  | succ f ih =>
    intro n hn h0
    have hne : ¬ n = 0 := by omega
    simp only [natBitsF, if_neg hne]
    by_cases h2 : n / 2 = 0
    · have h1 : n = 1 := by omega
      subst h1
      rw [show (1 : Nat) / 2 = 0 from by norm_num, natBitsF_zero]
      norm_num
    · have hle : n / 2 ≤ f := by omega
      obtain ⟨A, B⟩ := ih (n / 2) hle (by omega)
      have hb1 : 1 ≤ natBitsF f (n / 2) := by
        by_contra h
        have h0b : natBitsF f (n / 2) = 0 := by omega
        rw [h0b] at B
        simp at B
        omega
      constructor
      · have he : natBitsF f (n / 2) + 1 - 1 = (natBitsF f (n / 2) - 1) + 1 := by omega
        rw [he, pow_succ]
        omega
      · rw [pow_succ]
        omega

/-- decDigitsF of zero is zero at any fuel. -/
theorem decDigitsF_zero : ∀ f, decDigitsF f 0 = 0 := by
  intro f
  cases f <;> simp [decDigitsF]

/-- A positive number has at least one decimal digit. -/
theorem decDigitsF_pos : ∀ (f n : Nat), 0 < n → n ≤ f → 1 ≤ decDigitsF f n := by
  intro f n h0 hn
  cases f with
  | zero => omega
  | succ f2 =>
    simp only [decDigitsF, if_neg (by omega : ¬ n = 0)]
    omega

/-- decDigitsF within its fuel lower-bounds the number by a power of
ten. -/
theorem decDigitsF_correct : ∀ (fuel n : Nat), n ≤ fuel → 0 < n →
    10 ^ (decDigitsF fuel n - 1) ≤ n := by
  intro fuel
  induction fuel with
  | zero => intro n hn h0; omega
  | succ f ih =>
    intro n hn h0
    have hne : ¬ n = 0 := by omega
    simp only [decDigitsF, if_neg hne]
    by_cases h2 : n / 10 = 0
    · rw [h2, decDigitsF_zero]
      simpa using h0
    · have hle : n / 10 ≤ f := by omega
      have A := ih (n / 10) hle (by omega)
      have hb1 : 1 ≤ decDigitsF f (n / 10) := decDigitsF_pos f (n / 10) (by omega) hle
      have he : decDigitsF f (n / 10) + 1 - 1 = (decDigitsF f (n / 10) - 1) + 1 := by omega
      rw [he, pow_succ]
      omega

/-- stripTwosF factors its input into an odd part and a power of two,
shifting the exponent accordingly. -/
theorem stripTwosF_spec : ∀ (fuel q : Nat) (e : Int), 0 < q → q ≤ fuel →
    ∃ (k m : Nat), stripTwosF fuel q e = (m, e + (k : Int)) ∧
      q = m * 2 ^ k ∧ m % 2 = 1 := by
  intro fuel
  induction fuel with
  | zero => intro q e h0 hq; exact absurd hq (by omega)
  | succ f ih =>
    intro q e h0 hq
    by_cases hcond : q ≠ 0 ∧ q % 2 = 0
    · have hle : q / 2 ≤ f := by omega
      obtain ⟨k, m, h1, h2, h3⟩ := ih (q / 2) (e + 1) (by omega) hle
      refine ⟨k + 1, m, ?_, ?_, h3⟩
      · simp only [stripTwosF, if_pos hcond, h1]
        congr 1
        push_cast
        ring
      · have hq2 : q = 2 * (q / 2) := by omega
        rw [hq2, h2, pow_succ]
        ring
    · refine ⟨0, q, ?_, by simp, ?_⟩
      · simp only [stripTwosF, if_neg hcond]
        simp
      · omega

/-- mkF64 of a positive significand is the signed odd part with the
shifted exponent. -/
theorem mkF64_spec : ∀ (neg : Bool) (q : Nat) (e : Int), 0 < q →
    ∃ (k m : Nat), mkF64 neg q e = ⟨if neg then -(m : Int) else (m : Int), e + (k : Int)⟩ ∧
      q = m * 2 ^ k ∧ m % 2 = 1 ∧ 0 < m := by
  intro neg q e h0
  obtain ⟨k, m, h1, h2, h3⟩ := stripTwosF_spec q q e h0 le_rfl
  have hm : 0 < m := by
    rcases Nat.eq_zero_or_pos m with h | h
    · rw [h] at h2
      simp at h2
      omega
    · exact h
  refine ⟨k, m, ?_, h2, h3, hm⟩
  simp only [mkF64, if_neg (by omega : ¬ q = 0), h1]

/-- On an integer below `2^53` (bit length `b ≤ 53`) the binade search
lands at the exact 53-bit significand `a * 2^(53-b)`. -/
theorem fixQ_small (a b : Nat) (h1 : 1 ≤ b) (h53 : b ≤ 53) (hA : 2 ^ (b - 1) ≤ a)
    (hB : a < 2 ^ b) :
    fixQ 4 a 1 ((b : Int) - 54) = (a * 2 ^ (53 - b), (b : Int) - 53) := by
  have e1lt : ¬ (0 ≤ (b : Int) - 54) := by omega
  have ht1 : (-((b : Int) - 54)).toNat = 54 - b := by omega
  have hr1 : rdivAt a 1 ((b : Int) - 54) = a * 2 ^ (54 - b) := by
    simp only [rdivAt, if_neg e1lt, ht1, rdiv_one]
  have hr2 : rdivAt a 1 ((b : Int) - 54 + 1) = a * 2 ^ (53 - b) := by
    by_cases hb53 : b = 53
    · subst hb53
      norm_num [rdivAt, rdiv_one]
    · have e2lt : ¬ (0 ≤ (b : Int) - 54 + 1) := by omega
      have ht2 : (-((b : Int) - 54 + 1)).toNat = 53 - b := by omega
      simp only [rdivAt, if_neg e2lt, ht2, rdiv_one]
  have hc1 : 2 ^ 53 ≤ a * 2 ^ (54 - b) := by
    calc 2 ^ 53 = 2 ^ (b - 1) * 2 ^ (54 - b) := by
          rw [← pow_add]
          congr 1
          omega
    _ ≤ a * 2 ^ (54 - b) := Nat.mul_le_mul_right _ hA
  have hc2a : ¬ (2 ^ 53 ≤ a * 2 ^ (53 - b)) := by
    have hlt : a * 2 ^ (53 - b) < 2 ^ b * 2 ^ (53 - b) :=
      (Nat.mul_lt_mul_right (pow_pos (by norm_num) _)).mpr hB
    rw [← pow_add] at hlt
    have hbe : b + (53 - b) = 53 := by omega
    rw [hbe] at hlt
    omega
  have hc2b : ¬ (a * 2 ^ (53 - b) < 2 ^ 52) := by
    have hge : 2 ^ (b - 1) * 2 ^ (53 - b) ≤ a * 2 ^ (53 - b) :=
      Nat.mul_le_mul_right _ hA
    rw [← pow_add] at hge
    have hbe : b - 1 + (53 - b) = 52 := by omega
    rw [hbe] at hge
    omega
  simp only [fixQ]
  rw [hr1, hr2, if_pos hc1, if_neg hc2a, if_neg hc2b]
  congr 1
  ring

/-- A nonzero integer of magnitude below `2^53` converts exactly: the
resulting double is `mm * 2^kk` with value equal to the integer. -/
theorem floatOfDec_small : ∀ (n : Int), n ≠ 0 → n.natAbs < 2 ^ 53 →
    ∃ (mm : Int) (kk : Nat), floatOfDec n 0 = ⟨mm, (kk : Int)⟩ ∧
      mm * 2 ^ kk = n ∧ mm ≠ 0 := by
  intro n hn habs
  have ha0 : 0 < n.natAbs := Int.natAbs_pos.mpr hn
  obtain ⟨Ab, Bb⟩ := natBitsF_correct n.natAbs n.natAbs le_rfl ha0
  rw [show natBitsF n.natAbs n.natAbs = natBits n.natAbs from rfl] at Ab Bb
  have hb_ge : 1 ≤ natBits n.natAbs := by
    by_contra h
    have h0b : natBits n.natAbs = 0 := by omega
    rw [h0b] at Bb
    simp at Bb
    omega
  have hb_le : natBits n.natAbs ≤ 53 := by
    by_contra h
    have h54 : 53 ≤ natBits n.natAbs - 1 := by omega
    have : (2 : Nat) ^ 53 ≤ 2 ^ (natBits n.natAbs - 1) :=
      Nat.pow_le_pow_right (by norm_num) h54
    omega
  have Dd := decDigitsF_correct n.natAbs n.natAbs le_rfl ha0
  rw [show decDigitsF n.natAbs n.natAbs = decDigits n.natAbs from rfl] at Dd
  have hdd : decDigits n.natAbs ≤ 17 := by
    by_contra h
    have h17 : 17 ≤ decDigits n.natAbs - 1 := by omega
    have h10 : (10 : Nat) ^ 17 ≤ 10 ^ (decDigits n.natAbs - 1) :=
      Nat.pow_le_pow_right (by norm_num) h17
    have hlt : (2 : Nat) ^ 53 < 10 ^ 17 := by norm_num
    omega
  rw [floatOfDec, if_neg hn]
  have hcb1 : ¬ (310 < (decDigits n.natAbs : Int) + 0) := by
    have : (decDigits n.natAbs : Int) ≤ 17 := by exact_mod_cast hdd
    omega
  rw [if_neg hcb1]
  have hcb2 : ¬ ((decDigits n.natAbs : Int) + 0 < -350) := by
    have : (0 : Int) ≤ (decDigits n.natAbs : Int) := Int.natCast_nonneg _
    omega
  rw [if_neg hcb2]
  have hnum : (if 0 ≤ (0 : Int) then n.natAbs * 10 ^ (0 : Int).toNat else n.natAbs) =
      n.natAbs := by norm_num
  have hden : (if 0 ≤ (0 : Int) then 1 else 10 ^ (-(0 : Int)).toNat) = 1 := by norm_num
  rw [hnum, hden]
  have hsub : ¬ (n.natAbs * 2 ^ 1022 < 1) := by
    have := Nat.mul_pos ha0 (pow_pos (by norm_num : (0 : Nat) < 2) 1022)
    omega
  rw [if_neg hsub]
  rw [show natBits 1 = 1 from rfl]
  have he0 : (natBits n.natAbs : Int) - (1 : Nat) - 53 = (natBits n.natAbs : Int) - 54 := by
    push_cast
    ring
  rw [he0, fixQ_small n.natAbs (natBits n.natAbs) hb_ge hb_le Ab Bb]
  have hov : ¬ (0 < (natBits n.natAbs : Int) - 53 ∧
      2 ^ 1024 ≤ (n.natAbs * 2 ^ (53 - natBits n.natAbs)) *
        2 ^ ((natBits n.natAbs : Int) - 53).toNat) := by
    intro h
    have := h.1
    omega
  rw [if_neg hov]
  obtain ⟨k, m, hmk, hqm, hodd, hmpos⟩ :=
    mkF64_spec (decide (n < 0)) (n.natAbs * 2 ^ (53 - natBits n.natAbs))
      ((natBits n.natAbs : Int) - 53)
      (Nat.mul_pos ha0 (pow_pos (by norm_num) _))
  rw [hmk]
  have hk : 53 - natBits n.natAbs ≤ k := by
    by_contra h
    push_neg at h
    have hsplit : (53 - natBits n.natAbs : Nat) = (53 - natBits n.natAbs - k) + k := by
      omega
    rw [hsplit, pow_add, ← mul_assoc] at hqm
    have hm2 : n.natAbs * 2 ^ (53 - natBits n.natAbs - k) = m :=
      Nat.eq_of_mul_eq_mul_right (pow_pos (by norm_num) k) hqm
    have hc1 : 1 ≤ 53 - natBits n.natAbs - k := by omega
    rw [show 53 - natBits n.natAbs - k = (53 - natBits n.natAbs - k - 1) + 1 from by omega,
      pow_succ, ← mul_assoc] at hm2
    omega
  have hkk : ((natBits n.natAbs : Int) - 53) + (k : Int) =
      ((k - (53 - natBits n.natAbs) : Nat) : Int) := by omega
  rw [hkk]
  have hval : m * 2 ^ (k - (53 - natBits n.natAbs)) = n.natAbs := by
    have hsplit : k = (k - (53 - natBits n.natAbs)) + (53 - natBits n.natAbs) := by omega
    rw [hsplit, pow_add, ← mul_assoc] at hqm
    exact (Nat.eq_of_mul_eq_mul_right (pow_pos (by norm_num) _) hqm).symm
  refine ⟨if decide (n < 0) = true then -(m : Int) else (m : Int),
    k - (53 - natBits n.natAbs), rfl, ?_, ?_⟩
  · rcases lt_or_gt_of_ne hn with hneg | hpos
    · rw [if_pos (by simpa using hneg)]
      have hcast : ((m : Int)) * 2 ^ (k - (53 - natBits n.natAbs)) = (n.natAbs : Int) := by
        exact_mod_cast hval
      rw [neg_mul]
      omega
    · rw [if_neg (by simpa using not_lt_of_gt hpos)]
      have hcast : ((m : Int)) * 2 ^ (k - (53 - natBits n.natAbs)) = (n.natAbs : Int) := by
        exact_mod_cast hval
      omega
  · rcases lt_or_gt_of_ne hn with hneg | hpos
    · rw [if_pos (by simpa using hneg)]
      simp
      omega
    · rw [if_neg (by simpa using not_lt_of_gt hpos)]
      simp
      omega

/-- The number branch turns every integer JSON value of magnitude at
most `2^53` into exactly that int64. -/
theorem numberVal_small : ∀ (n : Int), -(2 ^ 53) ≤ n → n ≤ 2 ^ 53 →
    numberVal (floatOfDec n 0) = GoVal.vint n := by
  intro n h1 h2
  by_cases hn : n = 0
  · subst hn
    decide
  · by_cases hbig : n.natAbs = 2 ^ 53
    · have hcases : n = 2 ^ 53 ∨ n = -(2 ^ 53) := by omega
      rcases hcases with h | h <;> subst h <;> decide
    · have habs : n.natAbs < 2 ^ 53 := by omega
      obtain ⟨mm, kk, hf, hval, hmm⟩ := floatOfDec_small n hn habs
      rw [hf]
      have habsmul : mm.natAbs * 2 ^ kk = n.natAbs := by
        rw [← hval]
        simp [Int.natAbs_mul, Int.natAbs_pow]
      have hmmpos : 1 ≤ mm.natAbs := by omega
      have hkk52 : kk < 53 := by
        by_contra h
        have hp1 : (2 : Nat) ^ 53 ≤ 2 ^ kk := Nat.pow_le_pow_right (by norm_num) (by omega)
        have hp2 : (2 : Nat) ^ kk ≤ mm.natAbs * 2 ^ kk := Nat.le_mul_of_pos_left _ hmmpos
        omega
      have hne5000 : ¬ ((kk : Int) = 5000) := by omega
      have h0le : (0 : Int) ≤ (kk : Int) := by omega
      have hvn : mm * 2 ^ ((kk : Int)).toNat = n := by
        rw [Int.toNat_natCast]
        exact hval
      have hb1 : (2 : Int) ^ 53 ≤ 2 ^ 63 := by norm_num
      have hA : fGEminI64 ⟨mm, (kk : Int)⟩ = true := by
        unfold fGEminI64
        rw [if_neg hne5000, if_pos h0le]
        simp only [decide_eq_true_eq]
        rw [hvn]
        omega
      have hB : fLEmaxI64 ⟨mm, (kk : Int)⟩ = true := by
        unfold fLEmaxI64
        rw [if_neg hne5000, if_pos h0le]
        simp only [decide_eq_true_eq]
        rw [hvn]
        omega
      have hC : froundEq ⟨mm, (kk : Int)⟩ = true := by
        unfold froundEq
        rw [if_neg hne5000]
        simp only [decide_eq_true_eq]
        exact h0le
      unfold numberVal
      rw [hA, hB, hC]
      simp only [Bool.and_self, if_true]
      unfold int64OfF
      rw [hvn, if_neg (by omega : ¬ n = 2 ^ 63)]

/-- C8: the number classification, corrected at the boundary.  (i) Every
integral JSON number of magnitude at most `2^53` becomes exactly that
`Int64`.  (ii) The in-range literal `9223372036854775807` (MaxInt64) is
classified as `Int64` as the claim says — but `strconv.ParseFloat` first
rounds it to the double `2^63`, so the stored value wraps to
`-9223372036854775808`.  (iii) `18446744073709551616` (`2^64`, integral
but out of range) and (iv) the non-integral `1.5` become `Float64`, as
claimed.  The claim's "every other JSON number becomes Float64" is false
at the boundary `2^63` itself (see the counterexample). -/
theorem json_number_classification :
    (∀ n : Int, -(2 ^ 53) ≤ n → n ≤ 2 ^ 53 →
      numberVal (floatOfDec n 0) = GoVal.vint n)
    ∧ ParseM ("<json>\x7b\"a\":9223372036854775807\x7d") =
        some (Except.ok (some [(("a"), GoVal.vint (-(2 ^ 63)))]))
    ∧ ParseM ("<json>\x7b\"a\":18446744073709551616\x7d") =
        some (Except.ok (some [(("a"), GoVal.vfloat ⟨1, 64⟩)]))
    ∧ ParseM ("<json>\x7b\"a\":1.5\x7d") =
        some (Except.ok (some [(("a"), GoVal.vfloat ⟨3, -1⟩)])) :=
  ⟨numberVal_small, by decide, by decide, by decide⟩

/-- C8 counterexample: the JSON number `9223372036854775808` (`2^63`) is
integral but NOT within the signed 64-bit range, so the claim requires a
`Float64`; the code parses it to the double `2^63`, which passes the
`f <= math.MaxInt64` test (that constant converts to the double `2^63`),
and `int64(f)` wraps to `math.MinInt64`: the value becomes the `Int64`
`-9223372036854775808`. -/
theorem json_number_boundary_counterexample :
    ParseM ("<json>\x7b\"a\":9223372036854775808\x7d") =
      some (Except.ok (some [(("a"), GoVal.vint (-(2 ^ 63)))])) := by decide

/-- C8 witness: `123` and the exactly-representable boundary `-2^53`
classify to their own int64 values. -/
theorem json_number_classification_witness :
    numberVal (floatOfDec 123 0) = GoVal.vint 123 ∧
    numberVal (floatOfDec (-(2 ^ 53)) 0) = GoVal.vint (-(2 ^ 53)) :=
  ⟨json_number_classification.1 123 (by decide) (by decide),
   json_number_classification.1 (-(2 ^ 53)) (by decide) (by decide)⟩

/-! ## C1: the compact JSON printer (`Data.json`/`Data.String`) -/

/-- natDecDigitsF: fuelled most-significant-first decimal digits. -/
def natDecDigitsF : Nat → Nat → List Char
  | 0, _ => []
  | fuel + 1, n => if n = 0 then [] else natDecDigitsF fuel (n / 10) ++ [Char.ofNat (48 + n % 10)]

/-- natDec prints a natural number in decimal. -/
def natDec (n : Nat) : List Char := if n = 0 then ['0'] else natDecDigitsF n n

/-- intDec prints an integer in decimal. -/
def intDec (n : Int) : List Char :=
  if n < 0 then '-' :: natDec n.natAbs else natDec n.natAbs

/-- natDecPad prints exactly `k` decimal digits of `n % 10^k`, with
leading zeros. -/
def natDecPad : Nat → Nat → List Char
  | 0, _ => []
  | k + 1, n => natDecPad k (n / 10) ++ [Char.ofNat (48 + n % 10)]

/-- fracDec prints the exact decimal expansion of the double `m * 2^(-k)`
(`k ≥ 1`): since `m/2^k = m*5^k/10^k`, the digits of `|m|*5^k` with a
point `k` places from the right are exact.  `strconv.AppendFloat` with
precision -1 (what `encoding/json` uses) prints the shortest decimal
that reads back to the same double; the exact expansion reads back to
the same double too, so the decoded `Data` is identical — only the byte
string may be longer than Go's. -/
def fracDec (m : Int) (k : Nat) : List Char :=
  (if m < 0 then ['-'] else []) ++
    natDec (m.natAbs * 5 ^ k / 10 ^ k) ++ '.' :: natDecPad k (m.natAbs * 5 ^ k % 10 ^ k)

/-- floatTok is the exact decimal `mant * 10^p10` that the printed image
of a finite double denotes: the integer itself when the exponent is
non-negative, the fraction expansion otherwise. -/
def floatTok (f : F64) : Int × Int :=
  if 0 ≤ f.e then (f.m * 2 ^ f.e.toNat, 0)
  else (f.m * 5 ^ (-f.e).toNat, -((-f.e).toNat : Int))

/-- hexDigit prints one lowercase hexadecimal digit. -/
def hexDigit (n : Nat) : Char := Char.ofNat (if n < 10 then 48 + n else 87 + n)

/-- escCharJ is `encoding/json`'s escaping of one character with
`SetEscapeHTML(false)`: quote, backslash, the three short control
escapes, `\u00XX` for the other control characters, the two Unicode
line separators, and everything else raw. -/
def escCharJ (c : Char) : List Char :=
  if c = '"' then ['\\', '"']
  else if c = '\\' then ['\\', '\\']
  else if c = '\n' then ['\\', 'n']
  else if c = '\r' then ['\\', 'r']
  else if c = '\t' then ['\\', 't']
  else if c.toNat < 32 then
    ['\\', 'u', '0', '0', hexDigit (c.toNat / 16), hexDigit (c.toNat % 16)]
  else if c.toNat = 0x2028 then ['\\', 'u', '2', '0', '2', '8']
  else if c.toNat = 0x2029 then ['\\', 'u', '2', '0', '2', '9']
  else [c]

/-- escStr escapes a character list. -/
def escStr : List Char → List Char
  | [] => []
  | c :: rest => escCharJ c ++ escStr rest

/-- quoteStr prints a JSON string literal. -/
def quoteStr (s : String) : List Char := '"' :: (escStr s.data ++ ['"'])

/-- joinComma joins rendered chunks with commas. -/
def joinComma : List (List Char) → List Char
  | [] => []
  | [x] => x
  | x :: y :: rest => x ++ ',' :: joinComma (y :: rest)

/-- pairLe compares rendered object entries by raw key, as
`encoding/json` sorts map keys. -/
def pairLe (a b : String × List Char) : Prop := strLe a.1 b.1

instance : DecidableRel pairLe := fun a b => inferInstanceAs (Decidable (strLe a.1 b.1))

/-- sortPairs sorts rendered object entries by key. -/
def sortPairs (es : List (String × List Char)) : List (String × List Char) :=
  List.insertionSort pairLe es

mutual

/-- renderV prints one canonical value as `encoding/json` does (compact,
keys sorted, minimal escaping): `none` is a marshal error (`complex128`
is unsupported; ±Inf is an UnsupportedValueError).  A finite float
prints as a decimal denoting exactly the same double — the integer
digits when the exponent is non-negative, the exact fraction expansion
otherwise (see `fracDec` for the relation to Go's shortest form). -/
def renderV : GoVal → Option (List Char)
  | GoVal.null => some ('n' :: 'u' :: 'l' :: 'l' :: [])
  | GoVal.vbool b => some (if b then 't' :: 'r' :: 'u' :: 'e' :: [] else 'f' :: 'a' :: 'l' :: 's' :: 'e' :: [])
  | GoVal.vint n => some (intDec n)
  | GoVal.vuint n => some (natDec n)
  | GoVal.vfloat f =>
    if f.e = 5000 then none
    else if 0 ≤ f.e then some (intDec (f.m * 2 ^ f.e.toNat))
    else some (fracDec f.m (-f.e).toNat)
  | GoVal.vcomplex _ _ => none
  | GoVal.vstr s => some (quoteStr s)
  | GoVal.vmap m =>
    match renderEntries m with
    | none => none
    | some es => some (lbrace :: (joinComma ((sortPairs es).map Prod.snd) ++ [rbrace]))
  | GoVal.vslice _ xs =>
    match renderL xs with
    | none => none
    | some es => some ('[' :: (joinComma es ++ [']']))

/-- renderEntries prints each object entry as `"key":value`, keeping the
raw key for sorting. -/
def renderEntries : RawData → Option (List (String × List Char))
  | [] => some []
  | (k, v) :: rest =>
    match renderV v with
    | none => none
    | some cs =>
      match renderEntries rest with
      | none => none
      | some es => some ((k, quoteStr k ++ ':' :: cs) :: es)

/-- renderL prints array elements. -/
def renderL : List GoVal → Option (List (List Char))
  | [] => some []
  | v :: rest =>
    match renderV v with
    | none => none
    | some cs =>
      match renderL rest with
      | none => none
      | some es => some (cs :: es)

end

/-- jsonBodyChars models `Data.json` (src/data.go lines 515-536): the
empty value prints `\x7b\x7d`, otherwise `encoding/json` output, and a
marshal error leaves the buffer empty. -/
def jsonBodyChars (d : DataM) : List Char :=
  match d with
  | none => [lbrace, rbrace]
  | some m =>
    if m.isEmpty then [lbrace, rbrace]
    else
      match renderV (GoVal.vmap m) with
      | none => []
      | some cs => cs

/-- dataStringM models `Data.String` (src/data.go lines 548-553): the
`<json>` marker followed by the compact JSON body. -/
def dataStringM (d : DataM) : String :=
  String.mk ('<' :: 'j' :: 's' :: 'o' :: 'n' :: '>' :: jsonBodyChars d)

/-- parseTy is the `reflect.Type` that `parseJSONValue` reports for the
re-parsed image of a canonical value (`none` for the nil interface). -/
def parseTy : GoVal → Option Ty
  | GoVal.null => none
  | GoVal.vbool _ => some Ty.tbool
  | GoVal.vint _ => some Ty.tint64
  | GoVal.vuint _ => some Ty.tint64
  | GoVal.vfloat _ => some Ty.tfloat64
  | GoVal.vcomplex _ _ => some Ty.tfloat64
  | GoVal.vstr _ => some Ty.tstr
  | GoVal.vmap _ => some Ty.tobject
  | GoVal.vslice t _ => some (Ty.tslice t)

/-- sliceTyOf is the element type `parseJSONArray` infers for a list of
elements. -/
def sliceTyOf (xs : List GoVal) : Ty :=
  (xs.foldl (fun et v => unifyTy et (parseTy v)) none).getD Ty.tiface

/-- chainLt: the strings are strictly ascending in byte order. -/
def chainLt : List String → Bool
  | [] => true
  | [_] => true
  | a :: b :: rest => (strLe a b && !(strLe b a)) && chainLt (b :: rest)

mutual

/-- stV marks the stable values: the shapes whose printed image re-parses
to a structurally equal value.  Booleans, strings and nil entries are
stable; an Int64 is stable when the number pipeline returns it unchanged
— its nearest float64 is the integer itself, which holds for every
magnitude up to `2^53` and for larger float64-representable ones such as
`2^60`; a finite Float64 is stable when the pipeline keeps it a Float64
— it is not integral-within-the-int64-window (so `1.5` and `2^64` are
stable, integral in-window floats re-parse as Int64); maps need strictly
sorted keys (the printer sorts, the map model keeps one order); a
sequence needs non-nil elements (a re-parsed null panics in
`reflect.Append`) and its stored element type must equal the one
`parseJSONArray` infers.  `uint64` re-parses as `int64` or `float64` and
`complex128` does not encode at all: those shapes are never stable. -/
def stV : GoVal → Bool
  | GoVal.null => true
  | GoVal.vbool _ => true
  | GoVal.vint n => decide (numberVal (floatOfDec n 0) = GoVal.vint n)
  | GoVal.vuint _ => false
  | GoVal.vfloat f =>
    !decide (f.e = 5000) &&
      decide (numberVal (floatOfDec (floatTok f).1 (floatTok f).2) = GoVal.vfloat f)
  | GoVal.vcomplex _ _ => false
  | GoVal.vstr _ => true
  | GoVal.vmap m => stM m && chainLt (m.map Prod.fst)
  | GoVal.vslice ty xs => stL xs && decide (ty = sliceTyOf xs)

/-- stM: every entry value is stable. -/
def stM : RawData → Bool
  | [] => true
  | (_, v) :: rest => stV v && stM rest

/-- stL: every element is stable and non-nil. -/
def stL : List GoVal → Bool
  | [] => true
  | v :: rest => stV v && decide (v ≠ GoVal.null) && stL rest

end

/-- stableData: the stable `Data` values — the empty value, or a
non-empty stable map (a non-nil empty map is unstable: it prints `\x7b\x7d`,
which re-parses to the nil map). -/
def stableData : DataM → Bool
  | none => true
  | some m => !m.isEmpty && stV (GoVal.vmap m)


def headStop : List Char → Bool
  | [] => true
  | c :: _ =>
    !(decide ('0' ≤ c ∧ c ≤ '9') || decide (c = '.') || decide (c = 'e') || decide (c = 'E'))

theorem digitsToNat_append (ds1 ds2 : List Char) (acc : Nat) :
    digitsToNat (ds1 ++ ds2) acc = digitsToNat ds2 (digitsToNat ds1 acc) := by
  induction ds1 generalizing acc with
  | nil => rfl
  | cons c r ih => simp [digitsToNat, ih]

theorem decDigitChar : ∀ m : Nat, m < 10 →
    (('0' ≤ Char.ofNat (48 + m) ∧ Char.ofNat (48 + m) ≤ '9') ∧
      (Char.ofNat (48 + m)).toNat - 48 = m) := by decide

theorem decDigitCharLead : ∀ m : Nat, 1 ≤ m → m < 10 →
    '1' ≤ Char.ofNat (48 + m) ∧ Char.ofNat (48 + m) ≤ '9' := by decide

theorem natDecDigitsF_nil : ∀ f, natDecDigitsF f 0 = [] := by
  intro f
  cases f <;> simp [natDecDigitsF]

theorem natDecDigitsF_digits : ∀ (fuel n : Nat), ∀ c ∈ natDecDigitsF fuel n,
    '0' ≤ c ∧ c ≤ '9' := by
  intro fuel
  induction fuel with
  | zero => intro n c hc; simp [natDecDigitsF] at hc
  | succ f ih =>
    intro n c hc
    by_cases h0 : n = 0
    · simp [natDecDigitsF, h0] at hc
    · simp only [natDecDigitsF, if_neg h0, List.mem_append, List.mem_singleton] at hc
      rcases hc with h | h
      · exact ih _ c h
      · subst h
        exact (decDigitChar (n % 10) (Nat.mod_lt _ (by norm_num))).1

theorem natDecDigitsF_val : ∀ (fuel n : Nat), n ≤ fuel → ∀ acc,
    digitsToNat (natDecDigitsF fuel n) acc =
      acc * 10 ^ (natDecDigitsF fuel n).length + n := by
  intro fuel
  induction fuel with
  | zero =>
    intro n hn acc
    have h0 : n = 0 := by omega
    subst h0
    simp [natDecDigitsF, digitsToNat]
  | succ f ih =>
    intro n hn acc
    by_cases h0 : n = 0
    · subst h0
      simp [natDecDigitsF, digitsToNat]
    · simp only [natDecDigitsF, if_neg h0]
      rw [digitsToNat_append]
      have hle : n / 10 ≤ f := by omega
      rw [ih (n / 10) hle acc]
      simp only [digitsToNat]
      rw [(decDigitChar (n % 10) (Nat.mod_lt _ (by norm_num))).2]
      rw [List.length_append, List.length_singleton, pow_succ]
      have hmm : acc * (10 ^ (natDecDigitsF f (n / 10)).length * 10) =
          acc * 10 ^ (natDecDigitsF f (n / 10)).length * 10 := by ring
      rw [hmm]
      omega

theorem natDec_digits : ∀ n : Nat, ∀ c ∈ natDec n, '0' ≤ c ∧ c ≤ '9' := by
  intro n c hc
  by_cases h0 : n = 0
  · subst h0
    simp [natDec] at hc
    subst hc
    decide
  · simp only [natDec, if_neg h0] at hc
    exact natDecDigitsF_digits n n c hc

theorem natDec_val : ∀ n : Nat, digitsToNat (natDec n) 0 = n := by
  intro n
  by_cases h0 : n = 0
  · subst h0
    decide
  · simp only [natDec, if_neg h0]
    rw [natDecDigitsF_val n n le_rfl 0]
    simp

theorem natDec_head : ∀ n : Nat, 0 < n →
    ∃ c cs, natDec n = c :: cs ∧ ('1' ≤ c ∧ c ≤ '9') ∧
      ∀ x ∈ cs, '0' ≤ x ∧ x ≤ '9' := by
  have aux : ∀ (fuel n : Nat), 0 < n → n ≤ fuel →
      ∃ c cs, natDecDigitsF fuel n = c :: cs ∧ ('1' ≤ c ∧ c ≤ '9') := by
    intro fuel
    induction fuel with
    | zero => intro n h0 hn; omega
    | succ f ih =>
      intro n h0 hn
      simp only [natDecDigitsF, if_neg (by omega : ¬ n = 0)]
      by_cases h10 : n / 10 = 0
      · rw [h10, natDecDigitsF_nil]
        have hn10 : n % 10 = n := by omega
        rw [hn10]
        exact ⟨Char.ofNat (48 + n), [], rfl, decDigitCharLead n (by omega) (by omega)⟩
      · obtain ⟨c, cs, h1, h2⟩ := ih (n / 10) (by omega) (by omega)
        exact ⟨c, cs ++ [Char.ofNat (48 + n % 10)], by rw [h1]; rfl, h2⟩
  intro n h0
  obtain ⟨c, cs, h1, h2⟩ := aux n n h0 le_rfl
  have hdn : natDec n = c :: cs := by
    simp only [natDec, if_neg (by omega : ¬ n = 0)]
    exact h1
  refine ⟨c, cs, hdn, h2, ?_⟩
  intro x hx
  have hmem : x ∈ natDecDigitsF n n := by
    rw [h1]
    simp [hx]
  exact natDecDigitsF_digits n n x hmem

theorem takeDigits_split : ∀ (ds rest : List Char), (∀ c ∈ ds, '0' ≤ c ∧ c ≤ '9') →
    headStop rest = true → takeDigits (ds ++ rest) = (ds, rest) := by
  intro ds
  induction ds with
  | nil =>
    intro rest _ hr
    cases rest with
    | nil => rfl
    | cons c r =>
      simp only [headStop] at hr
      simp only [List.nil_append, takeDigits]
      rw [if_neg]
      intro h
      simp [h.1, h.2] at hr
  | cons d ds2 ih =>
    intro rest hds hr
    have hd := hds d (by simp)
    simp only [List.cons_append, takeDigits, if_pos hd, List.append_eq]
    rw [ih rest (fun c hc => hds c (by simp [hc])) hr]

theorem parseExp_stop : ∀ (mant : Nat) (p10 : Int) (rest : List Char),
    headStop rest = true → parseExp mant p10 rest = some ((mant, p10), rest) := by
  intro mant p10 rest hr
  cases rest with
  | nil => rfl
  | cons c r =>
    simp only [headStop] at hr
    simp only [parseExp]
    rw [if_neg]
    intro h
    rcases h with h | h <;> simp [h] at hr

theorem parseFracExp_stop : ∀ (ip : Nat) (rest : List Char), headStop rest = true →
    parseFracExp ip rest = some ((ip, 0), rest) := by
  intro ip rest hr
  cases rest with
  | nil => rfl
  | cons c r =>
    simp only [headStop] at hr
    simp only [parseFracExp]
    rw [if_neg (by intro h; simp [h] at hr)]
    exact parseExp_stop ip 0 (c :: r) hr

theorem parseNumMag_natDec : ∀ (a : Nat) (rest : List Char), headStop rest = true →
    parseNumMag (natDec a ++ rest) = some ((a, 0), rest) := by
  intro a rest hr
  by_cases h0 : a = 0
  · subst h0
    show parseNumMag ('0' :: rest) = _
    simp only [parseNumMag, if_pos rfl]
    exact parseFracExp_stop 0 rest hr
  · obtain ⟨c, cs, h1, h2, h3⟩ := natDec_head a (by omega)
    rw [h1]
    simp only [List.cons_append, parseNumMag]
    rw [if_neg (by intro h; rw [h] at h2; exact absurd h2.1 (by decide))]
    rw [if_pos h2]
    rw [takeDigits_split cs rest h3 hr]
    have hval : digitsToNat (c :: cs) 0 = a := by
      rw [← h1]
      exact natDec_val a
    rw [hval]
    exact parseFracExp_stop a rest hr

theorem parseNumTok_intDec : ∀ (n : Int) (rest : List Char), headStop rest = true →
    parseNumTok (intDec n ++ rest) = some ((n, 0), rest) := by
  intro n rest hr
  by_cases hneg : n < 0
  · simp only [intDec, if_pos hneg, List.cons_append, parseNumTok]
    rw [if_true, parseNumMag_natDec n.natAbs rest hr]
    dsimp only
    have h9 : -(n.natAbs : Int) = n := by omega
    rw [h9]
  · simp only [intDec, if_neg hneg]
    by_cases h0 : n.natAbs = 0
    · rw [h0]
      show parseNumTok ('0' :: rest) = _
      simp only [parseNumTok]
      rw [if_neg (by decide)]
      have := parseNumMag_natDec 0 rest hr
      rw [show natDec 0 ++ rest = '0' :: rest from rfl] at this
      rw [this]
      have hn0 : n = 0 := by omega
      rw [hn0]
      rfl
    · obtain ⟨c, cs, h1, h2, h3⟩ := natDec_head n.natAbs (by omega)
      rw [h1]
      simp only [List.cons_append, parseNumTok]
      rw [if_neg (by intro h; rw [h] at h2; exact absurd h2.1 (by decide))]
      have := parseNumMag_natDec n.natAbs rest hr
      rw [h1] at this
      rw [List.cons_append] at this
      rw [this]
      dsimp only
      have h9 : ((n.natAbs : Int)) = n := by omega
      rw [h9]

theorem hexVal_hexDigit : ∀ x : Nat, x < 16 → hexVal (hexDigit x) = some x := by decide

theorem chOfCode_toNat : ∀ c : Char, chOfCode c.toNat = c := by
  intro c
  have hv : c.toNat.isValidChar := c.valid
  simp only [chOfCode, if_pos hv]
  exact Char.ofNat_toNat c

theorem parseStrAux_escStr : ∀ (cs : List Char) (fuel : Nat) (acc rest : List Char),
    cs.length < fuel →
    parseStrAux fuel acc (escStr cs ++ '"' :: rest) =
      some (String.mk (acc.reverse ++ cs), rest) := by
  intro cs
  induction cs with
  | nil =>
    intro fuel acc rest hf
    cases fuel with
    | zero => omega
    | succ f =>
      show parseStrAux (f + 1) acc ('"' :: rest) = _
      simp [parseStrAux]
  | cons c cs2 ih =>
    intro fuel acc rest hf
    cases fuel with
    | zero => simp at hf
    | succ f =>
      have hf2 : cs2.length < f := by
        simp only [List.length_cons] at hf
        omega
      by_cases h1 : c = '"'
      · subst h1
        rw [show escStr ('"' :: cs2) = '\\' :: '"' :: escStr cs2 from by simp [escStr, escCharJ]]
        simp only [List.cons_append, List.append_eq, parseStrAux]
        rw [if_neg (by decide), if_pos (by decide)]
        try dsimp only
        rw [if_pos (by decide)]
        try simp only [List.append_eq]
        rw [ih f ('"' :: acc) rest hf2]
        simp
      · by_cases h2 : c = '\\'
        · subst h2
          rw [show escStr ('\\' :: cs2) = '\\' :: '\\' :: escStr cs2 from by
            simp [escStr, escCharJ]]
          simp only [List.cons_append, List.append_eq, parseStrAux]
          rw [if_neg (by decide), if_pos (by decide)]
          try dsimp only
          rw [if_neg (by decide), if_pos (by decide)]
          try simp only [List.append_eq]
          rw [ih f ('\\' :: acc) rest hf2]
          simp
        · by_cases h3 : c = '\n'
          · subst h3
            rw [show escStr ('\n' :: cs2) = '\\' :: 'n' :: escStr cs2 from by
              simp [escStr, escCharJ]]
            simp only [List.cons_append, List.append_eq, parseStrAux]
            rw [if_neg (by decide), if_pos (by decide)]
            try dsimp only
            rw [if_neg (by decide), if_neg (by decide), if_neg (by decide),
              if_neg (by decide), if_neg (by decide), if_pos (by decide)]
            try simp only [List.append_eq]
            rw [ih f ('\n' :: acc) rest hf2]
            simp
          · by_cases h4 : c = '\r'
            · subst h4
              rw [show escStr ('\r' :: cs2) = '\\' :: 'r' :: escStr cs2 from by
                simp [escStr, escCharJ]]
              simp only [List.cons_append, List.append_eq, parseStrAux]
              rw [if_neg (by decide), if_pos (by decide)]
              try dsimp only
              rw [if_neg (by decide), if_neg (by decide), if_neg (by decide),
                if_neg (by decide), if_neg (by decide), if_neg (by decide),
                if_pos (by decide)]
              try simp only [List.append_eq]
              rw [ih f ('\r' :: acc) rest hf2]
              simp
            · by_cases h5 : c = '\t'
              · subst h5
                rw [show escStr ('\t' :: cs2) = '\\' :: 't' :: escStr cs2 from by
                  simp [escStr, escCharJ]]
                simp only [List.cons_append, List.append_eq, parseStrAux]
                rw [if_neg (by decide), if_pos (by decide)]
                try dsimp only
                rw [if_neg (by decide), if_neg (by decide), if_neg (by decide),
                  if_neg (by decide), if_neg (by decide), if_neg (by decide),
                  if_neg (by decide), if_pos (by decide)]
                try simp only [List.append_eq]
                rw [ih f ('\t' :: acc) rest hf2]
                simp
              · by_cases h6 : c.toNat < 32
                · rw [show escStr (c :: cs2) =
                      '\\' :: 'u' :: '0' :: '0' :: hexDigit (c.toNat / 16) ::
                        hexDigit (c.toNat % 16) :: escStr cs2 from by
                    simp [escStr, escCharJ, h1, h2, h3, h4, h5, h6]]
                  simp only [List.cons_append, List.append_eq, parseStrAux]
                  rw [if_neg (by decide), if_pos (by decide)]
                  try dsimp only
                  rw [if_neg (by decide), if_neg (by decide), if_neg (by decide),
                    if_neg (by decide), if_neg (by decide), if_neg (by decide),
                    if_neg (by decide), if_neg (by decide), if_pos (by decide)]
                  rw [show hexVal '0' = some 0 from by decide,
                    hexVal_hexDigit (c.toNat / 16) (by omega),
                    hexVal_hexDigit (c.toNat % 16) (by omega)]
                  try dsimp only
                  have hcode : ((0 * 16 + 0) * 16 + c.toNat / 16) * 16 + c.toNat % 16 =
                      c.toNat := by omega
                  rw [hcode]
                  rw [if_neg (by omega)]
                  rw [chOfCode_toNat c]
                  try simp only [List.append_eq]
                  rw [ih f (c :: acc) rest hf2]
                  simp
                · by_cases h7 : c.toNat = 0x2028
                  · rw [show escStr (c :: cs2) =
                        '\\' :: 'u' :: '2' :: '0' :: '2' :: '8' :: escStr cs2 from by
                      simp [escStr, escCharJ, h1, h2, h3, h4, h5, h6, h7]]
                    simp only [List.cons_append, List.append_eq, parseStrAux]
                    rw [if_neg (by decide), if_pos (by decide)]
                    try dsimp only
                    rw [if_neg (by decide), if_neg (by decide), if_neg (by decide),
                      if_neg (by decide), if_neg (by decide), if_neg (by decide),
                      if_neg (by decide), if_neg (by decide), if_pos (by decide)]
                    rw [show hexVal '2' = some 2 from by decide,
                      show hexVal '0' = some 0 from by decide,
                      show hexVal '8' = some 8 from by decide]
                    try dsimp only
                    rw [if_neg (by decide)]
                    have hch : chOfCode (((2 * 16 + 0) * 16 + 2) * 16 + 8) = c := by
                      rw [show ((2 * 16 + 0) * 16 + 2) * 16 + 8 = 0x2028 from by norm_num,
                        ← h7]
                      exact chOfCode_toNat c
                    rw [hch]
                    try simp only [List.append_eq]
                    rw [ih f (c :: acc) rest hf2]
                    simp
                  · by_cases h8 : c.toNat = 0x2029
                    · rw [show escStr (c :: cs2) =
                          '\\' :: 'u' :: '2' :: '0' :: '2' :: '9' :: escStr cs2 from by
                        simp [escStr, escCharJ, h1, h2, h3, h4, h5, h6, h7, h8]]
                      simp only [List.cons_append, List.append_eq, parseStrAux]
                      rw [if_neg (by decide), if_pos (by decide)]
                      try dsimp only
                      rw [if_neg (by decide), if_neg (by decide), if_neg (by decide),
                        if_neg (by decide), if_neg (by decide), if_neg (by decide),
                        if_neg (by decide), if_neg (by decide), if_pos (by decide)]
                      rw [show hexVal '2' = some 2 from by decide,
                        show hexVal '0' = some 0 from by decide,
                        show hexVal '9' = some 9 from by decide]
                      try dsimp only
                      rw [if_neg (by decide)]
                      have hch : chOfCode (((2 * 16 + 0) * 16 + 2) * 16 + 9) = c := by
                        rw [show ((2 * 16 + 0) * 16 + 2) * 16 + 9 = 0x2029 from by norm_num,
                          ← h8]
                        exact chOfCode_toNat c
                      rw [hch]
                      try simp only [List.append_eq]
                      rw [ih f (c :: acc) rest hf2]
                      simp
                    · rw [show escStr (c :: cs2) = c :: escStr cs2 from by
                        simp [escStr, escCharJ, h1, h2, h3, h4, h5, h6, h7, h8]]
                      simp only [List.cons_append, List.append_eq, parseStrAux]
                      rw [if_neg h1, if_neg h2, if_neg (by omega : ¬ c.toNat < 32)]
                      try simp only [List.append_eq]
                      rw [ih f (c :: acc) rest hf2]
                      simp

theorem stringMkData : ∀ s : String, String.mk s.data = s :=
  fun _ => stringDataEq rfl

theorem escStr_length_ge : ∀ cs : List Char, cs.length ≤ (escStr cs).length := by
  intro cs
  induction cs with
  | nil => simp [escStr]
  | cons c rest ih =>
    have h1 : 1 ≤ (escCharJ c).length := by
      simp only [escCharJ]
      repeat' split
      all_goals simp
    simp only [escStr, List.length_append, List.length_cons]
    omega

theorem skipWs_nws : ∀ (c : Char) (l : List Char), isWs c = false →
    skipWs (c :: l) = c :: l := by
  intro c l h
  simp [skipWs, h]

theorem isWs_digit : ∀ c : Char, '0' ≤ c → c ≤ '9' → isWs c = false := by
  intro c h1 h2
  cases hiw : isWs c with
  | false => rfl
  | true =>
    exfalso
    simp only [isWs, decide_eq_true_eq] at hiw
    rcases hiw with h | h | h | h <;> (subst h; exact absurd h1 (by decide))

theorem intDec_head : ∀ n : Int, ∃ c cs2, intDec n = c :: cs2 ∧
    (c = '-' ∨ ('0' ≤ c ∧ c ≤ '9')) := by
  intro n
  by_cases hneg : n < 0
  · exact ⟨'-', natDec n.natAbs, by simp [intDec, hneg], Or.inl rfl⟩
  · by_cases h0 : n.natAbs = 0
    · refine ⟨'0', [], ?_, Or.inr (by decide)⟩
      simp [intDec, hneg, h0, natDec]
    · obtain ⟨c, cs2, h1, h2, _⟩ := natDec_head n.natAbs (by omega)
      refine ⟨c, cs2, by simp [intDec, hneg, h1], Or.inr ⟨?_, h2.2⟩⟩
      exact le_trans (by decide) h2.1

theorem parseVal_intDec : ∀ (f : Nat) (n : Int) (rest : List Char), headStop rest = true →
    parseVal (f + 1) (intDec n ++ rest) = some (Json.jnum n 0, rest) := by
  intro f n rest hstop
  obtain ⟨c, cs2, h1, h2⟩ := intDec_head n
  have hnum := parseNumTok_intDec n rest hstop
  rw [h1] at hnum ⊢
  rw [List.cons_append] at hnum ⊢
  simp only [parseVal]
  rcases h2 with rfl | hb
  · rw [skipWs_nws _ _ (by decide)]
    dsimp only
    rw [if_neg (by decide), if_neg (by decide), if_neg (by decide), if_neg (by decide),
      if_neg (by decide), if_neg (by decide)]
    rw [hnum]
  · rw [skipWs_nws _ _ (isWs_digit c hb.1 hb.2)]
    dsimp only
    rw [if_neg (by intro h; rw [h] at hb; exact absurd hb.2 (by decide)),
      if_neg (by intro h; rw [h] at hb; exact absurd hb.2 (by decide)),
      if_neg (by intro h; rw [h] at hb; exact absurd hb.1 (by decide)),
      if_neg (by intro h; rw [h] at hb; exact absurd hb.2 (by decide)),
      if_neg (by intro h; rw [h] at hb; exact absurd hb.2 (by decide)),
      if_neg (by intro h; rw [h] at hb; exact absurd hb.2 (by decide))]
    rw [hnum]

theorem charToNat_digit : ∀ m : Nat, m < 10 → (Char.ofNat (48 + m)).toNat = 48 + m := by
  decide

theorem natDecPad_len : ∀ (k n : Nat), (natDecPad k n).length = k := by
  intro k
  induction k with
  | zero => intro n; rfl
  | succ k2 ih =>
    intro n
    simp only [natDecPad, List.length_append, List.length_cons, List.length_nil, ih]

theorem natDecPad_digits : ∀ (k n : Nat), ∀ c ∈ natDecPad k n, '0' ≤ c ∧ c ≤ '9' := by
  intro k
  induction k with
  | zero => intro n c hc; cases hc
  | succ k2 ih =>
    intro n c hc
    rcases List.mem_append.mp hc with h | h
    · exact ih (n / 10) c h
    · rcases List.mem_singleton.mp h with rfl
      exact (decDigitChar (n % 10) (by omega)).1

theorem natDecPad_val : ∀ (k n acc : Nat),
    digitsToNat (natDecPad k n) acc = acc * 10 ^ k + n % 10 ^ k := by
  intro k
  induction k with
  | zero => intro n acc; simp [natDecPad, digitsToNat, Nat.mod_one]
  | succ k2 ih =>
    intro n acc
    simp only [natDecPad]
    rw [digitsToNat_append, ih (n / 10) acc]
    simp only [digitsToNat]
    rw [charToNat_digit (n % 10) (by omega)]
    have hm : n % 10 ^ (k2 + 1) = n % 10 + 10 * (n / 10 % 10 ^ k2) := by
      rw [pow_succ, mul_comm]
      exact Nat.mod_mul
    rw [hm]
    ring_nf
    omega

theorem takeDigits_stop : ∀ (ds : List Char) (c : Char) (X : List Char),
    (∀ d ∈ ds, '0' ≤ d ∧ d ≤ '9') → ¬ ('0' ≤ c ∧ c ≤ '9') →
    takeDigits (ds ++ c :: X) = (ds, c :: X) := by
  intro ds
  induction ds with
  | nil =>
    intro c X _ hc
    simp only [List.nil_append, takeDigits]
    rw [if_neg hc]
  | cons d ds2 ih =>
    intro c X hds hc
    have hd := hds d (by simp)
    simp only [List.cons_append, takeDigits, if_pos hd, List.append_eq]
    rw [ih c X (fun x hx => hds x (by simp [hx])) hc]

theorem parseFracExp_frac : ∀ (ip fp k : Nat) (rest : List Char), 1 ≤ k →
    headStop rest = true →
    parseFracExp ip ('.' :: (natDecPad k fp ++ rest)) =
      some ((ip * 10 ^ k + fp % 10 ^ k, -(k : Int)), rest) := by
  intro ip fp k rest hk hr
  obtain ⟨c, cs2, hpad⟩ : ∃ c cs2, natDecPad k fp = c :: cs2 := by
    cases hh : natDecPad k fp with
    | nil =>
      exfalso
      have := natDecPad_len k fp
      rw [hh] at this
      simp at this
      omega
    | cons a b => exact ⟨a, b, rfl⟩
  simp only [parseFracExp]
  rw [if_true]
  rw [takeDigits_split (natDecPad k fp) rest (natDecPad_digits k fp) hr]
  rw [hpad]
  simp only []
  rw [← hpad, natDecPad_val k fp ip, natDecPad_len k fp]
  exact parseExp_stop _ _ rest hr

theorem parseNumMag_frac : ∀ (ip fp k : Nat) (rest : List Char), 1 ≤ k →
    headStop rest = true →
    parseNumMag ((natDec ip ++ '.' :: natDecPad k fp) ++ rest) =
      some ((ip * 10 ^ k + fp % 10 ^ k, -(k : Int)), rest) := by
  intro ip fp k rest hk hr
  by_cases h0 : ip = 0
  · subst h0
    show parseNumMag ('0' :: ('.' :: (natDecPad k fp ++ rest))) = _
    simp only [parseNumMag, if_pos rfl]
    exact parseFracExp_frac 0 fp k rest hk hr
  · obtain ⟨c, cs, h1, h2, h3⟩ := natDec_head ip (by omega)
    rw [h1]
    simp only [List.cons_append, List.append_assoc, List.singleton_append, parseNumMag]
    rw [if_neg (by intro h; rw [h] at h2; exact absurd h2.1 (by decide))]
    rw [if_pos h2]
    rw [takeDigits_stop cs '.' (natDecPad k fp ++ rest) h3 (by decide)]
    have hval : digitsToNat (c :: cs) 0 = ip := by
      rw [← h1]
      exact natDec_val ip
    rw [hval]
    exact parseFracExp_frac ip fp k rest hk hr

theorem parseNumTok_fracDec : ∀ (m : Int) (k : Nat) (rest : List Char), 1 ≤ k →
    headStop rest = true →
    parseNumTok (fracDec m k ++ rest) = some ((m * 5 ^ k, -(k : Int)), rest) := by
  intro m k rest hk hr
  have hmag := parseNumMag_frac (m.natAbs * 5 ^ k / 10 ^ k) (m.natAbs * 5 ^ k % 10 ^ k)
    k rest hk hr
  have hval : m.natAbs * 5 ^ k / 10 ^ k * 10 ^ k + m.natAbs * 5 ^ k % 10 ^ k % 10 ^ k
      = m.natAbs * 5 ^ k := by
    have h1 : m.natAbs * 5 ^ k % 10 ^ k % 10 ^ k = m.natAbs * 5 ^ k % 10 ^ k :=
      Nat.mod_mod_of_dvd _ dvd_rfl
    rw [h1, mul_comm]
    exact Nat.div_add_mod _ _
  by_cases hneg : m < 0
  · have hfd : fracDec m k = '-' :: (natDec (m.natAbs * 5 ^ k / 10 ^ k) ++
        '.' :: natDecPad k (m.natAbs * 5 ^ k % 10 ^ k)) := by
      simp [fracDec, hneg]
    rw [hfd]
    simp only [List.cons_append, parseNumTok]
    rw [if_true, hmag]
    simp only []
    have h9 : -((m.natAbs * 5 ^ k / 10 ^ k * 10 ^ k + m.natAbs * 5 ^ k % 10 ^ k % 10 ^ k : Nat)
        : Int) = m * 5 ^ k := by
      rw [hval]
      push_cast
      rw [abs_of_neg hneg]
      ring
    rw [h9]
  · have hfd : fracDec m k = natDec (m.natAbs * 5 ^ k / 10 ^ k) ++
        '.' :: natDecPad k (m.natAbs * 5 ^ k % 10 ^ k) := by
      simp [fracDec, hneg]
    rw [hfd]
    obtain ⟨c, cs2, hh, hb⟩ : ∃ c cs2, natDec (m.natAbs * 5 ^ k / 10 ^ k) = c :: cs2 ∧
        ('0' ≤ c ∧ c ≤ '9') := by
      by_cases hz : m.natAbs * 5 ^ k / 10 ^ k = 0
      · exact ⟨'0', [], by rw [hz]; rfl, by decide⟩
      · obtain ⟨c, cs, h1, h2, _⟩ := natDec_head _ (Nat.pos_of_ne_zero hz)
        exact ⟨c, cs, h1, le_trans (by decide) h2.1, h2.2⟩
    rw [hh]
    simp only [List.cons_append, List.append_assoc, List.singleton_append, parseNumTok]
    rw [if_neg (by intro h; rw [h] at hb; exact absurd hb.1 (by decide))]
    have hmag2 := hmag
    rw [hh] at hmag2
    simp only [List.cons_append, List.append_assoc, List.singleton_append] at hmag2
    rw [hmag2]
    simp only []
    have h9 : ((m.natAbs * 5 ^ k / 10 ^ k * 10 ^ k + m.natAbs * 5 ^ k % 10 ^ k % 10 ^ k : Nat)
        : Int) = m * 5 ^ k := by
      rw [hval]
      push_cast
      rw [abs_of_nonneg (by omega : (0 : Int) ≤ m)]
    rw [h9]

theorem fracDec_head : ∀ (m : Int) (k : Nat), ∃ c cs2, fracDec m k = c :: cs2 ∧
    (c = '-' ∨ ('0' ≤ c ∧ c ≤ '9')) := by
  intro m k
  by_cases hneg : m < 0
  · exact ⟨'-', natDec (m.natAbs * 5 ^ k / 10 ^ k) ++
      '.' :: natDecPad k (m.natAbs * 5 ^ k % 10 ^ k),
      by simp [fracDec, hneg], Or.inl rfl⟩
  · by_cases hz : m.natAbs * 5 ^ k / 10 ^ k = 0
    · refine ⟨'0', '.' :: natDecPad k (m.natAbs * 5 ^ k % 10 ^ k), ?_, Or.inr (by decide)⟩
      simp [fracDec, hneg, hz, natDec]
    · obtain ⟨c, cs, h1, h2, _⟩ := natDec_head _ (Nat.pos_of_ne_zero hz)
      refine ⟨c, cs ++ '.' :: natDecPad k (m.natAbs * 5 ^ k % 10 ^ k), ?_,
        Or.inr ⟨le_trans (by decide) h2.1, h2.2⟩⟩
      simp [fracDec, hneg, h1]

theorem parseVal_fracDec : ∀ (f : Nat) (m : Int) (k : Nat) (rest : List Char), 1 ≤ k →
    headStop rest = true →
    parseVal (f + 1) (fracDec m k ++ rest) =
      some (Json.jnum (m * 5 ^ k) (-(k : Int)), rest) := by
  intro f m k rest hk hstop
  obtain ⟨c, cs2, h1, h2⟩ := fracDec_head m k
  have hnum := parseNumTok_fracDec m k rest hk hstop
  rw [h1] at hnum ⊢
  rw [List.cons_append] at hnum ⊢
  simp only [parseVal]
  rcases h2 with rfl | hb
  · rw [skipWs_nws _ _ (by decide)]
    dsimp only
    rw [if_neg (by decide), if_neg (by decide), if_neg (by decide), if_neg (by decide),
      if_neg (by decide), if_neg (by decide)]
    rw [hnum]
  · rw [skipWs_nws _ _ (isWs_digit c hb.1 hb.2)]
    dsimp only
    rw [if_neg (by intro h; rw [h] at hb; exact absurd hb.2 (by decide)),
      if_neg (by intro h; rw [h] at hb; exact absurd hb.2 (by decide)),
      if_neg (by intro h; rw [h] at hb; exact absurd hb.1 (by decide)),
      if_neg (by intro h; rw [h] at hb; exact absurd hb.2 (by decide)),
      if_neg (by intro h; rw [h] at hb; exact absurd hb.2 (by decide)),
      if_neg (by intro h; rw [h] at hb; exact absurd hb.2 (by decide))]
    rw [hnum]

theorem renderV_head : ∀ (v : GoVal) (cs : List Char), renderV v = some cs →
    ∃ c cs2, cs = c :: cs2 ∧ isWs c = false ∧ c ≠ ']' ∧ c ≠ rbrace ∧ c ≠ ',' := by
  have hdig : ∀ (c : Char) (cs2 : List Char) (l : List Char), l = c :: cs2 →
      '0' ≤ c → c ≤ '9' →
      ∃ c2 cs3, l = c2 :: cs3 ∧ isWs c2 = false ∧ c2 ≠ ']' ∧ c2 ≠ rbrace ∧ c2 ≠ ',' := by
    intro c cs2 l hl hb1 hb2
    refine ⟨c, cs2, hl, isWs_digit c hb1 hb2, ?_, ?_, ?_⟩
    · intro h; rw [h] at hb2; exact absurd hb2 (by decide)
    · intro h; rw [h] at hb2; exact absurd hb2 (by decide)
    · intro h; rw [h] at hb1; exact absurd hb1 (by decide)
  have hint : ∀ (n : Int) (cs : List Char), cs = intDec n →
      ∃ c cs2, cs = c :: cs2 ∧ isWs c = false ∧ c ≠ ']' ∧ c ≠ rbrace ∧ c ≠ ',' := by
    intro n cs hcs
    obtain ⟨c, cs2, h1, h2⟩ := intDec_head n
    rcases h2 with rfl | hb
    · exact ⟨'-', cs2, by rw [hcs, h1], by decide, by decide, by decide, by decide⟩
    · exact hdig c cs2 cs (by rw [hcs, h1]) hb.1 hb.2
  intro v cs hr
  cases v with
  | null =>
    cases hr
    exact ⟨'n', _, rfl, by decide, by decide, by decide, by decide⟩
  | vbool b =>
    cases b <;> cases hr
    · exact ⟨'f', _, rfl, by decide, by decide, by decide, by decide⟩
    · exact ⟨'t', _, rfl, by decide, by decide, by decide, by decide⟩
  | vint n =>
    cases hr
    exact hint n _ rfl
  | vuint n =>
    cases hr
    by_cases h0 : n = 0
    · subst h0
      exact ⟨'0', [], rfl, by decide, by decide, by decide, by decide⟩
    · obtain ⟨c, cs2, h1, h2, _⟩ := natDec_head n (by omega)
      exact hdig c cs2 _ h1 (le_trans (by decide) h2.1) h2.2
  | vfloat f =>
    simp only [renderV] at hr
    by_cases h5 : f.e = 5000
    · rw [if_pos h5] at hr; cases hr
    · rw [if_neg h5] at hr
      by_cases h6 : 0 ≤ f.e
      · rw [if_pos h6] at hr
        cases hr
        exact hint _ _ rfl
      · rw [if_neg h6] at hr
        cases hr
        obtain ⟨c, cs2, h1, h2⟩ := fracDec_head f.m (-f.e).toNat
        rcases h2 with rfl | hb
        · exact ⟨'-', cs2, h1, by decide, by decide, by decide, by decide⟩
        · exact hdig c cs2 _ h1 hb.1 hb.2
  | vcomplex a b => cases hr
  | vstr s =>
    cases hr
    exact ⟨'"', _, rfl, by decide, by decide, by decide, by decide⟩
  | vmap m =>
    simp only [renderV] at hr
    cases hre : renderEntries m with
    | none => rw [hre] at hr; cases hr
    | some es =>
      rw [hre] at hr
      cases hr
      exact ⟨lbrace, _, rfl, by decide, by decide, by decide, by decide⟩
  | vslice ty xs =>
    simp only [renderV] at hr
    cases hre : renderL xs with
    | none => rw [hre] at hr; cases hr
    | some es =>
      rw [hre] at hr
      cases hr
      exact ⟨'[', _, rfl, by decide, by decide, by decide, by decide⟩

theorem strLe_trans : ∀ {a b c : String}, strLe a b → strLe b c → strLe a c :=
  fun h1 h2 => lexLe_trans _ _ _ h1 h2

theorem strLe_refl : ∀ a : String, strLe a a :=
  fun a => (lexLe_total a.data a.data).elim id id

theorem chainLt_pairwise : ∀ ks : List String, chainLt ks = true →
    ks.Pairwise (fun a b => strLe a b ∧ ¬ strLe b a) := by
  intro ks
  induction ks with
  | nil => intro _; exact List.Pairwise.nil
  | cons a rest ih =>
    intro h
    cases rest with
    | nil => exact List.pairwise_singleton _ a
    | cons b rest2 =>
      have h2 : (strLe a b ∧ ¬ strLe b a) ∧ chainLt (b :: rest2) = true := by
        simpa [chainLt, Bool.and_eq_true, decide_eq_true_eq, Bool.not_eq_true',
          decide_eq_false_iff_not] using h
      have hp := ih h2.2
      refine List.Pairwise.cons ?_ hp
      intro c hc
      rcases List.mem_cons.mp hc with rfl | hc2
      · exact h2.1
      · have hbc := List.rel_of_pairwise_cons hp hc2
        exact ⟨strLe_trans h2.1.1 hbc.1, fun hca => hbc.2 (strLe_trans hca h2.1.1)⟩

theorem chainLt_nodup : ∀ ks : List String, chainLt ks = true → ks.Nodup := by
  intro ks h
  refine (chainLt_pairwise ks h).imp ?_
  intro a b hab he
  exact hab.2 (by rw [he] at hab ⊢; exact strLe_refl b)

theorem sortPairs_sorted : ∀ es : List (String × List Char),
    (es.map Prod.fst).Pairwise (fun a b => strLe a b ∧ ¬ strLe b a) →
    sortPairs es = es := by
  intro es hp
  have hs : es.Sorted pairLe := (List.pairwise_map.mp hp).imp (fun h => h.1)
  exact hs.insertionSort_eq

theorem setK_absent : ∀ (m : RawData) (k : String) (v : GoVal),
    lookupK m k = none → setK m k v = m ++ [(k, v)] := by
  intro m k v
  induction m with
  | nil => intro _; rfl
  | cons e rest ih =>
    obtain ⟨k2, v2⟩ := e
    intro h
    simp only [lookupK] at h
    by_cases hk : k2 = k
    · rw [if_pos hk] at h
      exact Option.noConfusion h
    · rw [if_neg hk] at h
      simp only [setK, if_neg hk, List.cons_append, ih h]

theorem lookupK_append_right : ∀ (a b : RawData) (k : String),
    lookupK a k = none → lookupK (a ++ b) k = lookupK b k := by
  intro a b k
  induction a with
  | nil => intro _; rfl
  | cons e rest ih =>
    obtain ⟨k2, v2⟩ := e
    intro h
    simp only [lookupK] at h
    by_cases hk : k2 = k
    · rw [if_pos hk] at h
      exact Option.noConfusion h
    · rw [if_neg hk] at h
      simp only [List.cons_append, lookupK, if_neg hk]
      exact ih h

/-- entryRel: a parsed object entry re-creates a stored entry: same key,
and `parseJSONValue` of the entry's JSON gives the stored value with its
reflect type. -/
def entryRel (p : String × GoVal) (q : String × Json) : Prop :=
  q.1 = p.1 ∧ jVal q.2 = some (p.2, parseTy p.2)

/-- elemRel: a parsed array element re-creates a stored element. -/
def elemRel (v : GoVal) (j : Json) : Prop :=
  jVal j = some (v, parseTy v)

theorem jObjFold_append : ∀ (m : RawData) (kjs : List (String × Json)),
    List.Forall₂ entryRel m kjs →
    ∀ acc : RawData, (m.map Prod.fst).Nodup →
    (∀ k, k ∈ m.map Prod.fst → lookupK acc k = none) →
    jObjFold kjs acc = some (acc ++ m) := by
  intro m kjs h
  induction h with
  | nil => intro acc _ _; simp [jObjFold]
  | @cons p q m2 kjs2 hpq htail ih =>
    intro acc hnd habs
    obtain ⟨k, v⟩ := p
    obtain ⟨k2, j⟩ := q
    obtain ⟨hk2, hjv⟩ := hpq
    simp only at hk2 hjv
    subst hk2
    simp only [jObjFold, hjv]
    have hacc : setK acc k2 v = acc ++ [(k2, v)] :=
      setK_absent acc k2 v (habs k2 (by simp))
    rw [hacc]
    have hnd2 : (m2.map Prod.fst).Nodup := (List.nodup_cons.mp (by simpa using hnd)).2
    have hknotin : k2 ∉ m2.map Prod.fst := (List.nodup_cons.mp (by simpa using hnd)).1
    have habs2 : ∀ k3, k3 ∈ m2.map Prod.fst → lookupK (acc ++ [(k2, v)]) k3 = none := by
      intro k3 hk3
      rw [lookupK_append_right acc [(k2, v)] k3 (habs k3 (by simp [hk3]))]
      simp only [lookupK]
      rw [if_neg]
      intro he
      exact hknotin (he ▸ hk3)
    rw [ih (acc ++ [(k2, v)]) hnd2 habs2]
    simp

theorem jArrAux_forall2 : ∀ (xs : List GoVal) (js : List Json),
    List.Forall₂ elemRel xs js → (∀ v ∈ xs, v ≠ GoVal.null) →
    ∀ (acc : List GoVal) (et : Option Ty),
      jArrAux js acc et =
        some (acc.reverse ++ xs, xs.foldl (fun e v => unifyTy e (parseTy v)) et) := by
  intro xs js h
  induction h with
  | nil => intro _ acc et; simp [jArrAux]
  | @cons a b xs2 js2 hab htail ih =>
    intro hnn acc et
    have hab2 : jVal b = some (a, parseTy a) := hab
    simp only [jArrAux, hab2]
    cases a
    case null => exact absurd rfl (hnn GoVal.null (by simp))
    all_goals
      try dsimp only
      rw [ih (fun v hv => hnn v (by simp [hv]))]
      simp

theorem jVal_vmap_inv : ∀ (j : Json) (m : RawData) (t : Option Ty),
    jVal j = some (GoVal.vmap m, t) →
    ∃ kvs, j = Json.jobj kvs ∧ jObjFold kvs [] = some m := by
  have hnv : ∀ f : F64, (∃ n, numberVal f = GoVal.vint n) ∨ numberVal f = GoVal.vfloat f := by
    intro f
    unfold numberVal
    by_cases hc : (fGEminI64 f && fLEmaxI64 f && froundEq f) = true
    · rw [if_pos hc]; exact Or.inl ⟨_, rfl⟩
    · rw [if_neg hc]; exact Or.inr rfl
  intro j m t h
  cases j with
  | jobj kvs =>
    refine ⟨kvs, rfl, ?_⟩
    simp only [jVal] at h
    cases hfold : jObjFold kvs [] with
    | none => rw [hfold] at h; exact Option.noConfusion h
    | some m2 =>
      rw [hfold] at h
      simp only [Option.some.injEq, Prod.mk.injEq] at h
      rw [show m2 = m from by
        have := h.1
        exact GoVal.vmap.inj this]
  | jnull => simp [jVal] at h
  | jbool b => simp [jVal] at h
  | jstr s => simp [jVal] at h
  | jnum mant p10 =>
    simp only [jVal] at h
    rcases hnv (floatOfDec mant p10) with ⟨n, hn⟩ | hn <;> rw [hn] at h <;> simp at h
  | jarr xs =>
    simp only [jVal] at h
    cases hfold : jArrAux xs [] none with
    | none => rw [hfold] at h; exact Option.noConfusion h
    | some p =>
      rw [hfold] at h
      simp at h

theorem stL_nonull : ∀ xs : List GoVal, stL xs = true → ∀ v ∈ xs, v ≠ GoVal.null := by
  intro xs
  induction xs with
  | nil => intro _ v hv; cases hv
  | cons a rest ih =>
    intro h v hv
    have h2 : (stV a = true ∧ a ≠ GoVal.null) ∧ stL rest = true := by
      simpa [stL, Bool.and_eq_true, decide_eq_true_eq] using h
    rcases List.mem_cons.mp hv with rfl | hv2
    · exact h2.1.2
    · exact ih h2.2 v hv2

theorem parseVal_objDispatch : ∀ (f : Nat) (tail : List Char),
    parseVal (f + 1) (lbrace :: tail) = parseObjBody f tail := fun _ _ => rfl

theorem parseVal_arrDispatch : ∀ (f : Nat) (tail : List Char),
    parseVal (f + 1) ('[' :: tail) = parseArrBody f tail := fun _ _ => rfl

theorem parseVal_str : ∀ (f : Nat) (s : String) (rest : List Char),
    parseVal (f + 1) (quoteStr s ++ rest) = some (Json.jstr s, rest) := by
  intro f s rest
  have hin : quoteStr s ++ rest = '"' :: (escStr s.data ++ '"' :: rest) := by
    simp [quoteStr]
  rw [hin]
  simp only [parseVal]
  rw [skipWs_nws _ _ (by decide)]
  simp only []
  rw [if_neg (by decide), if_neg (by decide), if_true]
  rw [parseStrAux_escStr s.data _ [] rest (by
    have := escStr_length_ge s.data
    simp only [List.length_append, List.length_cons]
    omega)]
  simp [stringMkData]

theorem parseObjBody_step : ∀ (f : Nat) (c : Char) (tail : List Char),
    isWs c = false → c ≠ rbrace →
    parseObjBody (f + 1) (c :: tail) =
      (match parseObjEntries f (c :: tail) with
       | none => none
       | some (es, r) => some (Json.jobj es, r)) := by
  intro f c tail hws hbr
  simp only [parseObjBody]
  rw [skipWs_nws c tail hws]
  simp only []
  rw [if_neg hbr]

theorem parseArrBody_step : ∀ (f : Nat) (c : Char) (tail : List Char),
    isWs c = false → c ≠ ']' →
    parseArrBody (f + 1) (c :: tail) =
      (match parseArrEntries f (c :: tail) with
       | none => none
       | some (vs, r) => some (Json.jarr vs, r)) := by
  intro f c tail hws hbr
  simp only [parseArrBody]
  rw [skipWs_nws c tail hws]
  simp only []
  rw [if_neg hbr]

theorem parseObjEntries_step : ∀ (f : Nat) (k : String) (csv tail : List Char),
    parseObjEntries (f + 1) ((quoteStr k ++ ':' :: csv) ++ tail) =
      (match parseVal f (csv ++ tail) with
       | none => none
       | some (v, r3) =>
         match skipWs r3 with
         | [] => none
         | c2 :: r4 =>
           if c2 = ',' then
             match parseObjEntries f r4 with
             | none => none
             | some (es, r5) => some ((k, v) :: es, r5)
           else if c2 = rbrace then some ([(k, v)], r4)
           else none) := by
  intro f k csv tail
  have hin : (quoteStr k ++ ':' :: csv) ++ tail
      = '"' :: (escStr k.data ++ '"' :: ':' :: (csv ++ tail)) := by
    simp [quoteStr]
  rw [hin]
  simp only [parseObjEntries]
  rw [skipWs_nws _ _ (by decide)]
  simp only []
  rw [parseStrAux_escStr k.data _ [] (':' :: (csv ++ tail)) (by
    have := escStr_length_ge k.data
    simp only [List.length_append, List.length_cons]
    omega)]
  simp only []
  rw [skipWs_nws _ _ (by decide)]
  simp only []
  rw [show String.mk (List.reverse [] ++ k.data) = k from stringMkData k]

theorem renderEntries_cons (k : String) (v : GoVal) (rest : RawData) :
    renderEntries ((k, v) :: rest) =
      (match renderV v with
       | none => none
       | some cs =>
         match renderEntries rest with
         | none => none
         | some es => some ((k, quoteStr k ++ ':' :: cs) :: es)) := by
  simp only [renderEntries]

theorem renderL_cons (v : GoVal) (rest : List GoVal) :
    renderL (v :: rest) =
      (match renderV v with
       | none => none
       | some cs =>
         match renderL rest with
         | none => none
         | some es => some (cs :: es)) := by
  simp only [renderL]

mutual

/-- parseRV: a stable value renders, and its image followed by any
suffix that cannot extend a number token parses back to a JSON tree that
`parseJSONValue` converts to the same value with the same reflect
type. -/
theorem parseRV : ∀ (v : GoVal), stV v = true →
    ∃ cs, renderV v = some cs ∧
      ∀ (fuel : Nat) (rest : List Char), headStop rest = true →
        3 * (cs ++ rest).length + 1 ≤ fuel →
        ∃ j, parseVal fuel (cs ++ rest) = some (j, rest) ∧
          jVal j = some (v, parseTy v)
  | GoVal.null => by
    intro _
    refine ⟨['n', 'u', 'l', 'l'], rfl, ?_⟩
    intro fuel rest _ hfuel
    cases fuel with
    | zero => omega
    | succ f => exact ⟨Json.jnull, rfl, rfl⟩
  | GoVal.vbool b => by
    intro _
    cases b with
    | false =>
      refine ⟨['f', 'a', 'l', 's', 'e'], rfl, ?_⟩
      intro fuel rest _ hfuel
      cases fuel with
      | zero => omega
      | succ f => exact ⟨Json.jbool false, rfl, rfl⟩
    | true =>
      refine ⟨['t', 'r', 'u', 'e'], rfl, ?_⟩
      intro fuel rest _ hfuel
      cases fuel with
      | zero => omega
      | succ f => exact ⟨Json.jbool true, rfl, rfl⟩
  | GoVal.vint n => by
    intro hst
    have hb : numberVal (floatOfDec n 0) = GoVal.vint n := by
      simpa [stV, decide_eq_true_eq] using hst
    refine ⟨intDec n, rfl, ?_⟩
    intro fuel rest hstop hfuel
    cases fuel with
    | zero => omega
    | succ f =>
      refine ⟨Json.jnum n 0, parseVal_intDec f n rest hstop, ?_⟩
      simp only [jVal]
      rw [hb]
      rfl
  | GoVal.vuint n => fun hst => absurd hst (by simp [stV])
  | GoVal.vfloat f0 => by
    intro hst
    have hs : ¬ f0.e = 5000 ∧
        numberVal (floatOfDec (floatTok f0).1 (floatTok f0).2) = GoVal.vfloat f0 := by
      simpa [stV, Bool.and_eq_true, Bool.not_eq_true', decide_eq_true_eq,
        decide_eq_false_iff_not] using hst
    by_cases he : 0 ≤ f0.e
    · have htok : floatTok f0 = (f0.m * 2 ^ f0.e.toNat, 0) := by simp [floatTok, he]
      have hs2 : numberVal (floatOfDec (f0.m * 2 ^ f0.e.toNat) 0) = GoVal.vfloat f0 := by
        have h := hs.2
        rw [htok] at h
        exact h
      refine ⟨intDec (f0.m * 2 ^ f0.e.toNat), ?_, ?_⟩
      · simp only [renderV]
        rw [if_neg hs.1, if_pos he]
      · intro fuel rest hstop hfuel
        cases fuel with
        | zero => omega
        | succ f =>
          refine ⟨Json.jnum (f0.m * 2 ^ f0.e.toNat) 0,
            parseVal_intDec f _ rest hstop, ?_⟩
          simp only [jVal]
          rw [hs2]
          rfl
    · have hk : 1 ≤ (-f0.e).toNat := by omega
      have htok : floatTok f0
          = (f0.m * 5 ^ (-f0.e).toNat, -(((-f0.e).toNat : Int))) := by
        simp [floatTok, he]
      have hs2 : numberVal (floatOfDec (f0.m * 5 ^ (-f0.e).toNat)
            (-(((-f0.e).toNat : Int)))) = GoVal.vfloat f0 := by
        have h := hs.2
        rw [htok] at h
        exact h
      refine ⟨fracDec f0.m (-f0.e).toNat, ?_, ?_⟩
      · simp only [renderV]
        rw [if_neg hs.1, if_neg he]
      · intro fuel rest hstop hfuel
        cases fuel with
        | zero => omega
        | succ f =>
          refine ⟨Json.jnum (f0.m * 5 ^ (-f0.e).toNat) (-(((-f0.e).toNat : Int))),
            parseVal_fracDec f f0.m (-f0.e).toNat rest hk hstop, ?_⟩
          simp only [jVal]
          rw [hs2]
          rfl
  | GoVal.vcomplex a b => fun hst => absurd hst (by simp [stV])
  | GoVal.vstr s => by
    intro _
    refine ⟨quoteStr s, rfl, ?_⟩
    intro fuel rest _ hfuel
    cases fuel with
    | zero => omega
    | succ f => exact ⟨Json.jstr s, parseVal_str f s rest, rfl⟩
  | GoVal.vmap m => by
    intro hst
    have hsm : stM m = true ∧ chainLt (m.map Prod.fst) = true := by
      simpa [stV, Bool.and_eq_true] using hst
    cases m with
    | nil =>
      refine ⟨[lbrace, rbrace], rfl, ?_⟩
      intro fuel rest _ hfuel
      cases fuel with
      | zero => omega
      | succ f =>
        cases f with
        | zero => simp only [List.length_append, List.length_cons] at hfuel; omega
        | succ g => exact ⟨Json.jobj [], rfl, rfl⟩
    | cons e m2 =>
      obtain ⟨es, hres, hkeys, ⟨t0, hjc⟩, hpar⟩ := parseRM (e :: m2) hsm.1 (by simp)
      have hsort : sortPairs es = es := by
        apply sortPairs_sorted
        rw [hkeys]
        exact chainLt_pairwise _ hsm.2
      refine ⟨lbrace :: (joinComma (es.map Prod.snd) ++ [rbrace]), ?_, ?_⟩
      · simp only [renderV, hres]
        rw [hsort]
      · intro fuel rest _ hfuel
        cases fuel with
        | zero => omega
        | succ f =>
          have hlb : 3 * (joinComma (es.map Prod.snd) ++ rbrace :: rest).length + 3 ≤ f := by
            simp only [List.cons_append, List.length_cons, List.length_append] at hfuel ⊢
            omega
          cases f with
          | zero => omega
          | succ g =>
            obtain ⟨kjs, hpe, hfa⟩ := hpar g rest (by omega)
            have hfold : jObjFold kjs [] = some (e :: m2) := by
              have := jObjFold_append (e :: m2) kjs hfa []
                (chainLt_nodup _ hsm.2) (fun k _ => rfl)
              simpa using this
            refine ⟨Json.jobj kjs, ?_, ?_⟩
            · rw [show (lbrace :: (joinComma (es.map Prod.snd) ++ [rbrace])) ++ rest
                  = lbrace :: (joinComma (es.map Prod.snd) ++ rbrace :: rest) from by simp]
              rw [parseVal_objDispatch]
              rw [hjc, List.cons_append]
              rw [parseObjBody_step g '"' _ (by decide) (by decide)]
              have hpe2 : parseObjEntries g ('"' :: (t0 ++ rbrace :: rest))
                  = some (kjs, rest) := by
                rw [← List.cons_append, ← hjc]
                exact hpe
              rw [hpe2]
            · simp only [jVal]
              rw [hfold]
              rfl
  | GoVal.vslice ty xs => by
    intro hst
    have hs : stL xs = true ∧ ty = sliceTyOf xs := by
      simpa [stV, Bool.and_eq_true, decide_eq_true_eq] using hst
    cases xs with
    | nil =>
      have hty : ty = Ty.tiface := hs.2
      subst hty
      refine ⟨['[', ']'], rfl, ?_⟩
      intro fuel rest _ hfuel
      cases fuel with
      | zero => omega
      | succ f =>
        cases f with
        | zero => simp only [List.length_append, List.length_cons] at hfuel; omega
        | succ g => exact ⟨Json.jarr [], rfl, rfl⟩
    | cons v0 xs2 =>
      obtain ⟨es, hres, ⟨c0, t0, hjc, hws, hbr⟩, hpar⟩ := parseRL (v0 :: xs2) hs.1 (by simp)
      refine ⟨'[' :: (joinComma es ++ [']']), ?_, ?_⟩
      · simp only [renderV, hres]
      · intro fuel rest _ hfuel
        cases fuel with
        | zero => omega
        | succ f =>
          have hlb : 3 * (joinComma es ++ ']' :: rest).length + 3 ≤ f := by
            simp only [List.cons_append, List.length_cons, List.length_append] at hfuel ⊢
            omega
          cases f with
          | zero => omega
          | succ g =>
            obtain ⟨js, hpe, hfa⟩ := hpar g rest (by omega)
            refine ⟨Json.jarr js, ?_, ?_⟩
            · rw [show ('[' :: (joinComma es ++ [']'])) ++ rest
                  = '[' :: (joinComma es ++ ']' :: rest) from by simp]
              rw [parseVal_arrDispatch]
              rw [hjc, List.cons_append]
              rw [parseArrBody_step g c0 _ hws hbr]
              have hpe2 : parseArrEntries g (c0 :: (t0 ++ ']' :: rest))
                  = some (js, rest) := by
                rw [← List.cons_append, ← hjc]
                exact hpe
              rw [hpe2]
            · simp only [jVal]
              rw [jArrAux_forall2 (v0 :: xs2) js hfa (stL_nonull _ hs.1) [] none]
              simp only [List.reverse_nil, List.nil_append]
              rw [hs.2]
              simp [sliceTyOf, parseTy]

/-- parseRM: a stable, key-sorted entry list renders entry chunks whose
comma-joined image (up to the closing brace) parses back entry by
entry. -/
theorem parseRM : ∀ (m : RawData), stM m = true → m ≠ [] →
    ∃ es, renderEntries m = some es ∧ es.map Prod.fst = m.map Prod.fst ∧
      (∃ t, joinComma (es.map Prod.snd) = '"' :: t) ∧
      ∀ (fuel : Nat) (rest : List Char),
        3 * (joinComma (es.map Prod.snd) ++ rbrace :: rest).length + 2 ≤ fuel →
        ∃ kjs, parseObjEntries fuel (joinComma (es.map Prod.snd) ++ rbrace :: rest) =
            some (kjs, rest) ∧ List.Forall₂ entryRel m kjs
  | [] => by intro _ h; exact absurd rfl h
  | (k, v) :: m2 => by
    intro hm _
    have hmv : stV v = true ∧ stM m2 = true := by
      simpa [stM, Bool.and_eq_true] using hm
    obtain ⟨csv, hrv, hpv⟩ := parseRV v hmv.1
    cases m2 with
    | nil =>
      refine ⟨[(k, quoteStr k ++ ':' :: csv)], ?_, by simp,
        ⟨(escStr k.data ++ ['"']) ++ ':' :: csv, by simp [joinComma, quoteStr]⟩, ?_⟩
      · simp only [renderEntries, hrv]
      · intro fuel rest hfuel
        cases fuel with
        | zero => omega
        | succ f =>
          have hone : joinComma ([(k, quoteStr k ++ ':' :: csv)].map Prod.snd) ++ rbrace :: rest
              = (quoteStr k ++ ':' :: csv) ++ rbrace :: rest := by
            simp [joinComma]
          rw [hone] at hfuel ⊢
          rw [parseObjEntries_step f k csv (rbrace :: rest)]
          have hlen : 3 * (csv ++ rbrace :: rest).length + 1 ≤ f := by
            simp only [List.length_append, List.length_cons, quoteStr] at hfuel ⊢
            omega
          obtain ⟨j, hj, hjv⟩ := hpv f (rbrace :: rest) rfl hlen
          rw [hj]
          simp only []
          rw [skipWs_nws _ _ (by decide)]
          simp only []
          rw [if_true]
          exact ⟨[(k, j)], rfl, List.Forall₂.cons ⟨rfl, hjv⟩ List.Forall₂.nil⟩
    | cons e2 m3 =>
      obtain ⟨es2, hres2, hkeys2, ⟨t2, hjc2⟩, hpar2⟩ := parseRM (e2 :: m3) hmv.2 (by simp)
      have hne2 : es2 ≠ [] := by
        intro h
        rw [h] at hkeys2
        simp at hkeys2
      obtain ⟨c2, es3, rfl⟩ : ∃ a b, es2 = a :: b := by
        cases es2 with
        | nil => exact absurd rfl hne2
        | cons a b => exact ⟨a, b, rfl⟩
      refine ⟨(k, quoteStr k ++ ':' :: csv) :: c2 :: es3, ?_,
        congrArg (List.cons k) hkeys2,
        ⟨escStr k.data ++ '"' :: ':' ::
          (csv ++ ',' :: joinComma ((c2 :: es3).map Prod.snd)),
          by simp [joinComma, quoteStr]⟩, ?_⟩
      · rw [renderEntries_cons, hrv, hres2]
      · intro fuel rest hfuel
        cases fuel with
        | zero => omega
        | succ f =>
          have hI : joinComma (((k, quoteStr k ++ ':' :: csv) :: c2 :: es3).map Prod.snd)
                ++ rbrace :: rest
              = (quoteStr k ++ ':' :: csv)
                ++ (',' :: (joinComma ((c2 :: es3).map Prod.snd) ++ rbrace :: rest)) := by
            simp [joinComma]
          rw [hI] at hfuel ⊢
          rw [parseObjEntries_step f k csv _]
          have hlen : 3 * (csv ++ ',' ::
              (joinComma ((c2 :: es3).map Prod.snd) ++ rbrace :: rest)).length + 1 ≤ f := by
            simp only [List.length_append, List.length_cons, quoteStr] at hfuel ⊢
            omega
          obtain ⟨j, hj, hjv⟩ := hpv f
            (',' :: (joinComma ((c2 :: es3).map Prod.snd) ++ rbrace :: rest)) rfl hlen
          rw [hj]
          simp only []
          rw [skipWs_nws _ _ (by decide)]
          simp only []
          rw [if_true]
          have hlen2 : 3 * (joinComma ((c2 :: es3).map Prod.snd) ++ rbrace :: rest).length
              + 2 ≤ f := by
            simp only [List.length_append, List.length_cons, quoteStr] at hfuel ⊢
            omega
          obtain ⟨kjs2, hpe2, hfa2⟩ := hpar2 f rest hlen2
          rw [hpe2]
          exact ⟨(k, j) :: kjs2, rfl, List.Forall₂.cons ⟨rfl, hjv⟩ hfa2⟩

/-- parseRL: a stable, null-free element list renders chunks whose
comma-joined image (up to the closing bracket) parses back element by
element. -/
theorem parseRL : ∀ (xs : List GoVal), stL xs = true → xs ≠ [] →
    ∃ es, renderL xs = some es ∧
      (∃ c t, joinComma es = c :: t ∧ isWs c = false ∧ c ≠ ']') ∧
      ∀ (fuel : Nat) (rest : List Char),
        3 * (joinComma es ++ ']' :: rest).length + 2 ≤ fuel →
        ∃ js, parseArrEntries fuel (joinComma es ++ ']' :: rest) = some (js, rest) ∧
          List.Forall₂ elemRel xs js
  | [] => by intro _ h; exact absurd rfl h
  | v :: xs2 => by
    intro hl _
    have hlv : (stV v = true ∧ v ≠ GoVal.null) ∧ stL xs2 = true := by
      simpa [stL, Bool.and_eq_true, decide_eq_true_eq] using hl
    obtain ⟨csv, hrv, hpv⟩ := parseRV v hlv.1.1
    obtain ⟨c0, cs0, hcsv, hws, hbr1, hbr2, hbr3⟩ := renderV_head v csv hrv
    cases xs2 with
    | nil =>
      refine ⟨[csv], ?_, ⟨c0, cs0, hcsv, hws, hbr1⟩, ?_⟩
      · simp only [renderL, hrv]
      · intro fuel rest hfuel
        cases fuel with
        | zero => omega
        | succ f =>
          have hone : joinComma [csv] ++ ']' :: rest = csv ++ ']' :: rest := by
            simp [joinComma]
          rw [hone] at hfuel ⊢
          simp only [parseArrEntries]
          have hlen : 3 * (csv ++ ']' :: rest).length + 1 ≤ f := by omega
          obtain ⟨j, hj, hjv⟩ := hpv f (']' :: rest) rfl hlen
          rw [hj]
          simp only []
          rw [skipWs_nws _ _ (by decide)]
          simp only []
          rw [if_true]
          exact ⟨[j], rfl, List.Forall₂.cons hjv List.Forall₂.nil⟩
    | cons v1 xs3 =>
      obtain ⟨es2, hres2, ⟨c1, t1, hjc1, hws1, hbr1b⟩, hpar2⟩ :=
        parseRL (v1 :: xs3) hlv.2 (by simp)
      have hne : es2 ≠ [] := by
        intro h
        rw [h] at hjc1
        simp [joinComma] at hjc1
      obtain ⟨e20, es3, rfl⟩ : ∃ a b, es2 = a :: b := by
        cases es2 with
        | nil => exact absurd rfl hne
        | cons a b => exact ⟨a, b, rfl⟩
      refine ⟨csv :: e20 :: es3, ?_,
        ⟨c0, cs0 ++ ',' :: joinComma (e20 :: es3), ?_, hws, hbr1⟩, ?_⟩
      · rw [renderL_cons, hrv, hres2]
      · rw [show joinComma (csv :: e20 :: es3)
            = csv ++ ',' :: joinComma (e20 :: es3) from rfl]
        rw [hcsv]
        rfl
      · intro fuel rest hfuel
        cases fuel with
        | zero => omega
        | succ f =>
          have hI : joinComma (csv :: e20 :: es3) ++ ']' :: rest
              = csv ++ (',' :: (joinComma (e20 :: es3) ++ ']' :: rest)) := by
            simp [joinComma]
          rw [hI] at hfuel ⊢
          simp only [parseArrEntries]
          have hlen : 3 * (csv ++ ',' :: (joinComma (e20 :: es3) ++ ']' :: rest)).length
              + 1 ≤ f := by
            simp only [List.length_append, List.length_cons] at hfuel ⊢
            omega
          obtain ⟨j, hj, hjv⟩ := hpv f
            (',' :: (joinComma (e20 :: es3) ++ ']' :: rest)) rfl hlen
          rw [hj]
          simp only []
          rw [skipWs_nws _ _ (by decide)]
          simp only []
          rw [if_true]
          have hlen2 : 3 * (joinComma (e20 :: es3) ++ ']' :: rest).length + 2 ≤ f := by
            simp only [List.length_append, List.length_cons] at hfuel ⊢
            omega
          obtain ⟨js2, hpe2, hfa2⟩ := hpar2 f rest hlen2
          rw [hpe2]
          exact ⟨j :: js2, rfl, List.Forall₂.cons hjv hfa2⟩

end

/-- C1 (amended): decode inverts encode on the stable values: the empty
value, and every non-empty mapping whose keys are strictly ascending in
byte order and whose entries hold only booleans, strings, nil entries,
Int64 values whose nearest float64 is the integer itself (every
magnitude up to 2^53, and larger representable ones such as 2^60),
finite Float64 values that the decoder's number classification keeps as
Float64 (non-integral such as 1.5, or integral outside the signed-64-bit
window such as 2^64), nested such mappings, and sequences of non-nil
such values whose stored Go element type is the one the decoder infers.
For such `d`, `Parse (d.String())` succeeds and returns exactly `d`.
The claim's quantification over every constructible value fails (see the
counterexample): a UInt64 entry re-parses as Int64, an Int64 entry that
float64 cannot represent loses its value, an integral in-window Float64
entry re-parses as Int64, and a Complex128 entry makes the whole
document unparseable. -/
theorem roundtrip_amended : ∀ d : DataM, stableData d = true →
    ParseM (dataStringM d) = some (Except.ok d) := by
  intro d hst
  cases d with
  | none => decide
  | some m =>
    have hm : m.isEmpty = false ∧ stV (GoVal.vmap m) = true := by
      simpa [stableData, Bool.and_eq_true, Bool.not_eq_true'] using hst
    obtain ⟨cs, hrv, hpar⟩ := parseRV (GoVal.vmap m) hm.2
    have hbody : jsonBodyChars (some m) = cs := by
      simp only [jsonBodyChars, hm.1, Bool.false_eq_true, if_false]
      rw [hrv]
    have hP : ParseM (dataStringM (some m))
        = ParseJSONM (String.mk (jsonBodyChars (some m))) := rfl
    rw [hP, hbody]
    obtain ⟨j, hj, hjv⟩ := hpar (3 * cs.length + 3) [] rfl
      (by simp only [List.append_nil]; omega)
    rw [List.append_nil] at hj
    obtain ⟨kvs, rfl, hfold⟩ := jVal_vmap_inv j m _ hjv
    have hdoc : parseDoc cs = some (Json.jobj kvs) := by
      simp only [parseDoc]
      rw [hj]
      simp [skipWs]
    show (match parseDoc cs with
      | none => some (Except.error DErr.invalidJSON)
      | some (Json.jobj kvs2) =>
        match jObjFold kvs2 [] with
        | none => none
        | some raw => some (Except.ok (if raw.isEmpty then none else some raw))
      | some _ => some (Except.error DErr.notObject)) = some (Except.ok (some m))
    rw [hdoc]
    simp only []
    rw [hfold]
    simp only []
    rw [hm.1]
    simp

/-- C1 counterexample: the round-trip fails on constructible values.  A
map holding `UInt64(5)` (built by `NewDataFromMap`, src/types.go) prints
as `<json>` with body `a:5` and re-parses to `Int64(5)`, which is not
structurally equal to the original (`reflect.DeepEqual` distinguishes
`uint64` from `int64`).  Likewise: `Int64(2^53+1)` rounds through
float64 to `Int64(2^53)`; the integral in-window `Float64(2.0)` comes
back as `Int64(2)`; and a `Complex128` entry makes `json.Marshal` fail,
so the printed document does not parse at all. -/
theorem roundtrip_counterexample :
    (ParseM (dataStringM (some [("a", GoVal.vuint 5)]))
      ≠ some (Except.ok (some [("a", GoVal.vuint 5)])) ∧
     ParseM (dataStringM (some [("a", GoVal.vuint 5)]))
      = some (Except.ok (some [("a", GoVal.vint 5)]))) ∧
    ParseM (dataStringM (some [("a", GoVal.vint (2 ^ 53 + 1))]))
      = some (Except.ok (some [("a", GoVal.vint (2 ^ 53))])) ∧
    ParseM (dataStringM (some [("a", GoVal.vfloat ⟨1, 1⟩)]))
      = some (Except.ok (some [("a", GoVal.vint 2)])) ∧
    ParseM (dataStringM (some [("a", GoVal.vcomplex ⟨1, 0⟩ ⟨1, 0⟩)]))
      = some (Except.error DErr.invalidJSON) := by
  exact ⟨⟨by decide, by decide⟩, by decide, by decide, by decide⟩

/-- C1 witness: a stable five-entry document — a small Int64, a nested
map, the non-integral Float64 1.5, the Int64 2^60 (above 2^53 but
float64-representable), and an Int64 sequence — round-trips, by
`roundtrip_amended` at a concrete input. -/
theorem roundtrip_witness :
    stableData (some [("a", GoVal.vint 1),
      ("b", GoVal.vmap [("c", GoVal.vstr "x")]),
      ("f", GoVal.vfloat ⟨3, -1⟩),
      ("g", GoVal.vint (2 ^ 60)),
      ("s", GoVal.vslice Ty.tint64 [GoVal.vint 2, GoVal.vint 3])]) = true ∧
    ParseM (dataStringM (some [("a", GoVal.vint 1),
      ("b", GoVal.vmap [("c", GoVal.vstr "x")]),
      ("f", GoVal.vfloat ⟨3, -1⟩),
      ("g", GoVal.vint (2 ^ 60)),
      ("s", GoVal.vslice Ty.tint64 [GoVal.vint 2, GoVal.vint 3])]))
      = some (Except.ok (some [("a", GoVal.vint 1),
        ("b", GoVal.vmap [("c", GoVal.vstr "x")]),
        ("f", GoVal.vfloat ⟨3, -1⟩),
        ("g", GoVal.vint (2 ^ 60)),
        ("s", GoVal.vslice Ty.tint64 [GoVal.vint 2, GoVal.vint 3])])) :=
  ⟨by decide, roundtrip_amended _ (by decide)⟩

/-- Addr: a heap address — the identity of one Go map or slice backing
store.  Two references to the same address see each other's writes. -/
abbrev Addr := Nat

/-- HVal: a stored value under Go's reference semantics: scalars inline,
every map and every slice a reference into the heap. -/
inductive HVal where
  | hnull
  | hbool (b : Bool)
  | hint (n : Int)
  | huint (n : Nat)
  | hstr (s : String)
  | href (a : Addr)
deriving DecidableEq

/-- HCell: one heap cell: a map's entries, or a slice's element array
with the Go element type of the slice. -/
inductive HCell where
  | hmap (es : List (String × HVal))
  | hslice (ty : Ty) (xs : List HVal)
deriving DecidableEq

/-- Heap: an allocation counter and the live cells. -/
structure Heap where
  next : Addr
  cells : List (Addr × HCell)
deriving DecidableEq

/-- lookupA: read a heap cell. -/
def lookupA : List (Addr × HCell) → Addr → Option HCell
  | [], _ => none
  | (a2, c) :: rest, a => if a2 = a then some c else lookupA rest a

/-- setA: overwrite a heap cell in place. -/
def setA : List (Addr × HCell) → Addr → HCell → List (Addr × HCell)
  | [], a, c => [(a, c)]
  | (a2, c2) :: rest, a, c =>
    if a2 = a then (a2, c) :: rest else (a2, c2) :: setA rest a c

def hget (h : Heap) (a : Addr) : Option HCell := lookupA h.cells a

def hset (h : Heap) (a : Addr) (c : HCell) : Heap := ⟨h.next, setA h.cells a c⟩

def halloc (h : Heap) (c : HCell) : Addr × Heap :=
  (h.next, ⟨h.next + 1, (h.next, c) :: h.cells⟩)

/-- lookupE: Go map read `m[k]` inside a cell. -/
def lookupE : List (String × HVal) → String → Option HVal
  | [], _ => none
  | (k2, v) :: rest, k => if k2 = k then some v else lookupE rest k

/-- setE: Go map write `m[k] = v` inside a cell. -/
def setE : List (String × HVal) → String → HVal → List (String × HVal)
  | [], k, v => [(k, v)]
  | (k2, v2) :: rest, k, v =>
    if k2 = k then (k2, v) :: rest else (k2, v2) :: setE rest k v

/-- delE: `SetMapIndex` with an invalid value deletes the key. -/
def delE : List (String × HVal) → String → List (String × HVal)
  | [], _ => []
  | (k2, v2) :: rest, k => if k2 = k then rest else (k2, v2) :: delE rest k

/-- hTypeOf: `reflect.Value.Type()` of a stored value (`none` for the nil
interface, whose `Type()` panics). -/
def hTypeOf (h : Heap) : HVal → Option Ty
  | HVal.hnull => none
  | HVal.hbool _ => some Ty.tbool
  | HVal.hint _ => some Ty.tint64
  | HVal.huint _ => some Ty.tuint64
  | HVal.hstr _ => some Ty.tstr
  | HVal.href a =>
    match hget h a with
    | some (HCell.hmap _) => some Ty.tobject
    | some (HCell.hslice ty _) => some (Ty.tslice ty)
    | none => none

mutual

/-- hcloneV models `clone.Clone` (github.com/huandu/go-clone), the deep
clone used by `mergeValue`'s fallback branch: every reachable map and
slice is copied into fresh cells. -/
def hcloneV : Nat → Heap → HVal → Option (HVal × Heap)
  | 0, _, _ => none
  | fuel + 1, h, v =>
    match v with
    | HVal.href a =>
      match hget h a with
      | none => none
      | some (HCell.hmap es) =>
        match hcloneE fuel h es with
        | none => none
        | some (es2, h2) =>
          let p := halloc h2 (HCell.hmap es2)
          some (HVal.href p.1, p.2)
      | some (HCell.hslice ty xs) =>
        match hcloneL fuel h xs with
        | none => none
        | some (xs2, h2) =>
          let p := halloc h2 (HCell.hslice ty xs2)
          some (HVal.href p.1, p.2)
    | w => some (w, h)

/-- hcloneE: deep-clone a map's entries. -/
def hcloneE : Nat → Heap → List (String × HVal) → Option (List (String × HVal) × Heap)
  | 0, _, _ => none
  | _ + 1, h, [] => some ([], h)
  | fuel + 1, h, (k, v) :: rest =>
    match hcloneV fuel h v with
    | none => none
    | some (v2, h2) =>
      match hcloneE fuel h2 rest with
      | none => none
      | some (es2, h3) => some ((k, v2) :: es2, h3)

/-- hcloneL: deep-clone a slice's elements. -/
def hcloneL : Nat → Heap → List HVal → Option (List HVal × Heap)
  | 0, _, _ => none
  | _ + 1, h, [] => some ([], h)
  | fuel + 1, h, v :: rest =>
    match hcloneV fuel h v with
    | none => none
    | some (v2, h2) =>
      match hcloneL fuel h2 rest with
      | none => none
      | some (xs2, h3) => some (v2 :: xs2, h3)

end

mutual

/-- hmergeValue models `mergeValue` (src/unnamed/part_003 lines 59-97)
under reference semantics.  A nil incoming value returns the target
unchanged (possibly invalid, `none`); an absent target deep-clones the
incoming value; equal map types merge in place through the target's
reference; equal slice types run `reflect.AppendSlice`, which allocates
a fresh backing array but copies the element values — so map or slice
elements of the result stay shared with the incoming slice; every other
case deep-clones the incoming value.  The outer `none` is a panic (the
`target.Type()` call on an unwrapped nil interface). -/
def hmergeValue : Nat → Heap → Option HVal → HVal → Option (Option HVal × Heap)
  | 0, _, _, _ => none
  | fuel + 1, h, target, v =>
    if v = HVal.hnull then some (target, h)
    else
      match target with
      | none =>
        match hcloneV fuel h v with
        | none => none
        | some (v2, h2) => some (some v2, h2)
      | some t =>
        if t = HVal.hnull then none
        else
          match t, v with
          | HVal.href ta, HVal.href va =>
            match hget h ta, hget h va with
            | some (HCell.hmap _), some (HCell.hmap ves) =>
              match hmergeMap fuel h ta ves with
              | none => none
              | some h2 => some (some (HVal.href ta), h2)
            | some (HCell.hslice ty1 txs), some (HCell.hslice ty2 vxs) =>
              if ty1 = ty2 then
                let p := halloc h (HCell.hslice ty1 (txs ++ vxs))
                some (some (HVal.href p.1), p.2)
              else
                match hcloneV fuel h v with
                | none => none
                | some (v2, h2) => some (some v2, h2)
            | _, _ =>
              match hcloneV fuel h v with
              | none => none
              | some (v2, h2) => some (some v2, h2)
          | _, _ =>
            match hcloneV fuel h v with
            | none => none
            | some (v2, h2) => some (some v2, h2)

/-- hmergeMap models the map loop shared by `merge` and `mergeValue`'s
map branch: for each incoming entry, merge onto the target cell's entry
and write the result back through the target reference (`SetMapIndex`);
an invalid result deletes the key. -/
def hmergeMap : Nat → Heap → Addr → List (String × HVal) → Option Heap
  | 0, _, _, _ => none
  | _ + 1, h, _, [] => some h
  | fuel + 1, h, a, (k, v) :: rest =>
    match hget h a with
    | some (HCell.hmap es) =>
      match hmergeValue fuel h (lookupE es k) v with
      | none => none
      | some (res, h2) =>
        match hget h2 a with
        | some (HCell.hmap es2) =>
          hmergeMap fuel
            (hset h2 a (HCell.hmap
              (match res with
               | none => delE es2 k
               | some w => setE es2 k w))) a rest
        | _ => none
    | _ => none

end

/-- hMergeDocs: `merge(target, data, remaining...)` folding the documents
left to right into the target map. -/
def hMergeDocs (fuel : Nat) (target : Addr) : Heap → List Addr → Option Heap
  | h, [] => some h
  | h, d :: rest =>
    match hget h d with
    | some (HCell.hmap des) =>
      match hmergeMap fuel h target des with
      | none => none
      | some h2 => hMergeDocs fuel target h2 rest
    | _ => none

/-- hMerge models `Merge` (src/unnamed/part_003 lines 17-27): allocate a
fresh empty root map and merge every document into it. -/
def hMerge (fuel : Nat) (h : Heap) (docs : List Addr) : Option (Addr × Heap) :=
  let p := halloc h (HCell.hmap [])
  match hMergeDocs fuel p.1 p.2 docs with
  | none => none
  | some h2 => some (p.1, h2)

/-- hwalk: the descent loop of `get` (src/data.go lines 307-434) under
reference semantics, one resolved segment at a time. -/
def hwalk (h : Heap) : HVal → List String → Option HVal
  | v, [] => some v
  | v, f :: rest =>
    match v with
    | HVal.href a =>
      match hget h a with
      | some (HCell.hmap es) =>
        match lookupE es f with
        | none => none
        | some w => hwalk h w rest
      | some (HCell.hslice _ xs) =>
        match sliceIdx f xs.length with
        | none => none
        | some i => hwalk h (xs.getD i HVal.hnull) rest
      | none => none
    | _ => none

/-- hQuery models `RawData.Query` (src/data.go lines 230-237): the empty
query returns the root map itself; otherwise split on dots and walk,
with the first segment rejecting a stored nil (line 280). -/
def hQuery (h : Heap) (root : Addr) (q : String) : Option HVal :=
  if q = "" then some (HVal.href root)
  else
    match hget h root with
    | some (HCell.hmap es) =>
      match splitDot q with
      | [] => some (HVal.href root)
      | f :: rest =>
        match lookupE es f with
        | none => none
        | some HVal.hnull => none
        | some v => hwalk h v rest
    | _ => none

/-- hApplyUpdates: the update loop of `PatchAction.ApplyTo` (src/patch.go
lines 100-118): resolve each query (already in sorted order), require a
`RawData` result, and `merge` the update document into it through the
resolved reference. -/
def hApplyUpdates (fuel : Nat) (root : Addr) : Heap → List (String × Addr) → Option Heap
  | h, [] => some h
  | h, (q, doc) :: rest =>
    match hQuery h root q with
    | none => none
    | some (HVal.href a) =>
      match hget h a with
      | some (HCell.hmap _) =>
        match hget h doc with
        | some (HCell.hmap des) =>
          match hmergeMap fuel h a des with
          | none => none
          | some h2 => hApplyUpdates fuel root h2 rest
        | _ => none
      | _ => none
    | some _ => none

/-- hApplyTo models `Patch.ApplyTo` (src/patch.go lines 65-77) for
actions without deletes: apply each action's updates in order to the
live target. -/
def hApplyTo (fuel : Nat) (root : Addr) : Heap → List (List (String × Addr)) → Option Heap
  | h, [] => some h
  | h, act :: rest =>
    match hApplyUpdates fuel root h act with
    | none => none
    | some h2 => hApplyTo fuel root h2 rest

/-- hApply models `Patch.Apply` (src/patch.go lines 51-60):
`d.Clone()` is `Merge(d)`, then `ApplyTo` runs on the clone. -/
def hApply (fuel : Nat) (h : Heap) (droot : Addr)
    (actions : List (List (String × Addr))) : Option (Addr × Heap) :=
  match hMerge fuel h [droot] with
  | none => none
  | some (c, h2) =>
    match hApplyTo fuel c h2 actions with
    | none => none
    | some h3 => some (c, h3)

mutual

/-- hresolve reads a stored value back into a pure tree (what
`reflect.DeepEqual` compares and what an observer of the Data sees). -/
def hresolve : Nat → Heap → HVal → Option GoVal
  | 0, _, _ => none
  | fuel + 1, h, v =>
    match v with
    | HVal.hnull => some GoVal.null
    | HVal.hbool b => some (GoVal.vbool b)
    | HVal.hint n => some (GoVal.vint n)
    | HVal.huint n => some (GoVal.vuint n)
    | HVal.hstr s => some (GoVal.vstr s)
    | HVal.href a =>
      match hget h a with
      | some (HCell.hmap es) =>
        match hresolveE fuel h es with
        | none => none
        | some m => some (GoVal.vmap m)
      | some (HCell.hslice ty xs) =>
        match hresolveL fuel h xs with
        | none => none
        | some l => some (GoVal.vslice ty l)
      | none => none

def hresolveE : Nat → Heap → List (String × HVal) → Option RawData
  | 0, _, _ => none
  | _ + 1, _, [] => some []
  | fuel + 1, h, (k, v) :: rest =>
    match hresolve fuel h v with
    | none => none
    | some w =>
      match hresolveE fuel h rest with
      | none => none
      | some m => some ((k, w) :: m)

def hresolveL : Nat → Heap → List HVal → Option (List GoVal)
  | 0, _, _ => none
  | _ + 1, _, [] => some []
  | fuel + 1, h, v :: rest =>
    match hresolve fuel h v with
    | none => none
    | some w =>
      match hresolveL fuel h rest with
      | none => none
      | some l => some (w :: l)

end

/-- heapC2: two documents `a = ⟨"s" ↦ [⟨"x" ↦ 1⟩]⟩` (root cell 4) and
`b = ⟨"s" ↦ [⟨"y" ↦ 2⟩]⟩` (root cell 5), both sequences of Go type
`[]interface\x7b\x7d`. -/
def heapC2 : Heap :=
  ⟨6, [(0, HCell.hmap [("x", HVal.hint 1)]),
       (1, HCell.hslice Ty.tiface [HVal.href 0]),
       (2, HCell.hmap [("y", HVal.hint 2)]),
       (3, HCell.hslice Ty.tiface [HVal.href 2]),
       (4, HCell.hmap [("s", HVal.href 1)]),
       (5, HCell.hmap [("s", HVal.href 3)])]⟩

def mergeC2 : Option (Addr × Heap) := hMerge 20 heapC2 [4, 5]

def rC2 : Addr := (mergeC2.map Prod.fst).getD 0

def hC2 : Heap := (mergeC2.map Prod.snd).getD heapC2

/-- aliasC2: the address the merge result reaches at `r.s[1]` — the cell
a caller mutates when writing `r["s"].([]interface\x7b\x7d)[1]`. -/
def aliasC2 : Addr :=
  match hwalk hC2 (HVal.href rC2) ["s", "1"] with
  | some (HVal.href a) => a
  | _ => 0

def hC2w : Heap := hset hC2 aliasC2 (HCell.hmap [("y", HVal.hint 2), ("w", HVal.hint 42)])

/-- C2: the merge result is NOT alias-free: `r = Merge(a, b)` reaches at
`r.s[1]` the very cell `b.s[0]` points to (`reflect.AppendSlice` copies
the element interface words, not the maps behind them), and a write
through `r` at that cell changes what `b` reads — refuting the claim
that every entry placed into the result is a deep clone and that
mutating `r` never changes an input. -/
theorem merge_nonaliasing_refuted :
    mergeC2.isSome = true ∧
    hwalk hC2 (HVal.href rC2) ["s", "1"] = some (HVal.href aliasC2) ∧
    hwalk hC2 (HVal.href 5) ["s", "0"] = some (HVal.href aliasC2) ∧
    hresolve 20 hC2 (HVal.href 5)
      = some (GoVal.vmap [("s", GoVal.vslice Ty.tiface
          [GoVal.vmap [("y", GoVal.vint 2)]])]) ∧
    hresolve 20 hC2w (HVal.href 5)
      = some (GoVal.vmap [("s", GoVal.vslice Ty.tiface
          [GoVal.vmap [("y", GoVal.vint 2), ("w", GoVal.vint 42)]])]) := by
  decide

/-- heapC6: a document `d = ⟨"s" ↦ [⟨"k" ↦ 1⟩]⟩` (root cell 2) and a
patch update document `⟨"z" ↦ 9⟩` (cell 3). -/
def heapC6 : Heap :=
  ⟨4, [(0, HCell.hmap [("k", HVal.hint 1)]),
       (1, HCell.hslice Ty.tiface [HVal.href 0]),
       (2, HCell.hmap [("s", HVal.href 1)]),
       (3, HCell.hmap [("z", HVal.hint 9)])]⟩

/-- applyC6: `patch.Apply(d)` where the patch's first action updates the
empty path with `d` itself (an `Updates` map may hold any `Data`,
including the receiver) and the second action updates `"s.1"` with
`⟨"z" ↦ 9⟩`. -/
def applyC6 : Option (Addr × Heap) := hApply 20 heapC6 2 [[("", 2)], [("s.1", 3)]]

def hC6 : Heap := (applyC6.map Prod.snd).getD heapC6

/-- C6: `Patch.Apply` can modify its receiver `d` even though it clones
first: the first action's merge runs `reflect.AppendSlice` on the
clone's sequence and the update document's sequence, planting `d`'s own
element map into the clone; the second action's update then resolves to
that shared cell and writes into it — `d` gains the entry `"z" ↦ 9`.
This refutes the claim that `Apply` never modifies `d` for every patch
and every `Data`. -/
theorem apply_isolation_refuted :
    applyC6.isSome = true ∧
    hresolve 20 heapC6 (HVal.href 2)
      = some (GoVal.vmap [("s", GoVal.vslice Ty.tiface
          [GoVal.vmap [("k", GoVal.vint 1)]])]) ∧
    hresolve 20 hC6 (HVal.href 2)
      = some (GoVal.vmap [("s", GoVal.vslice Ty.tiface
          [GoVal.vmap [("k", GoVal.vint 1), ("z", GoVal.vint 9)]])]) ∧
    hresolve 20 hC6 (HVal.href 2) ≠ hresolve 20 heapC6 (HVal.href 2) := by
  decide

end GoData
